import Mathlib

/-!
# The peer-group reducer of `worker/peergrouper/desired.go`

A shallow embedding of `desiredPeerGroup` and its helpers, followed by the
properties proved about it.

Conventions of the embedding.

* `info.machines` is a slice of machine pointers. A machine pointer is modelled
  by the position of the machine in `info.machines` (the cells are taken to be
  pairwise distinct, as `getPeerGroupInfo` allocates them).
* A `*replicaset.Member` is modelled by a position in a heap of member cells.
  The heap starts as the array `info.members` (so the pointer `&info.members[i]`
  is `i`) and grows at its end when the reducer allocates a new member.
  Writing through a pointer updates the heap, so the writes to the caller's
  `info.members` are visible in the final heap.
* The Go maps keyed by machine pointer are functions from machine positions.
  The order in which Go ranges over a map is unspecified; the two places where
  it matters take the order from the `Runtime` record, so every statement
  quantified over `Runtime` covers every iteration order.
* Go `int` values are integers (the reducer performs no arithmetic on them), a
  `float64` is its IEEE-754 bit pattern (the only value the reducer writes is
  `0.0`, whose pattern is `0`).
* A dereference of a nil pointer ends the run with a run-time panic; this is
  the `none` result of the functions that return an `Option`.
-/

namespace Peergrouper

/-- Modelled from the spec: `instance.Address` is declared outside the sources at hand;
the spec describes it as a network address with a scope tag. -/
structure Address where
  Value : String
  NetworkScope : String
  deriving DecidableEq

/-- The `machine` struct. -/
structure machine where
  id : String
  candidate : Bool
  addresses : List Address
  voting : Bool
  deriving DecidableEq

/-- Modelled from the spec: `replicaset.Member` is declared outside the sources at hand;
its fields are those the spec lists (`Tags` is a Go map, kept as an association list
read with `List.lookup`; `Priority` is a `*float64`). -/
structure Member where
  Id : Int
  Address : String
  Tags : List (String × String)
  Votes : Option Int
  Priority : Option Nat
  deriving DecidableEq

/-- Modelled from the spec: `replicaset.Status` is declared outside the sources at hand;
the spec keeps its id and says the reducer only needs the boolean `isReady(status)`,
which is recorded in `Ready`. -/
structure Status where
  Id : Int
  Ready : Bool
  deriving DecidableEq

/-- Modelled from the spec: `isReady` is defined outside the sources at hand; it is the
boolean predicate on a status that the spec names. -/
def isReady (status : Status) : Bool := status.Ready

/-- The `peerGroupInfo` struct. -/
structure peerGroupInfo where
  machines : List machine
  statuses : List Status
  members : List Member
  mongoPort : Int
  deriving DecidableEq

/-- What the reducer takes from outside `desired.go`:
`selectInternalAddress` is `instance.SelectInternalAddress` (not in the sources at hand);
`pick j` fixes which of the matching map entries the range over the map in `statusesMap`
meets first while status number `j` is handled; `order` fixes the order of the final
range over the map. -/
structure Runtime where
  selectInternalAddress : List Address → String
  pick : Nat → Nat
  order : List Nat

/-- The map `map[*machine]*replicaset.Member`: machine position to heap position. -/
abbrev MemberMap := Nat → Option Nat

/-- The map `map[*machine]replicaset.Status`. -/
abbrev StatusMap := Nat → Option Status

/-- Map assignment `m[k] = v`. -/
def mapSet {β : Type} (m : Nat → Option β) (k : Nat) (v : β) : Nat → Option β :=
  fun j => if j = k then some v else m j

/-- The function `min`. -/
def min (i j : Nat) : Nat := if i < j then i else j

/-- The result pair of `desiredPeerGroup`: a slice that may be nil, and an error. -/
structure Ret where
  members : Option (List Member)
  err : Option String
  deriving DecidableEq

/-- The mutable data of a run: the machines (for their `voting` flags), the heap of
member cells, the `members` map and the flag `changed`. -/
structure Vars where
  machines : List machine
  heap : List Member
  members : MemberMap
  changed : Bool

/-- The tag key `"juju-machine-id"`. -/
def machineIdTag : String := "juju-machine-id"

/-- The error of `desiredPeerGroup`. -/
def errExtraVoting : String := "voting non-machine member found in peer group"

/-- The test `member.Votes != nil && *member.Votes > 0`. -/
def votesPositive (member : Member) : Bool :=
  match member.Votes with
  | some v => decide (0 < v)
  | none => false

/-- The function `setMemberVoting`. -/
def setMemberVoting (member : Member) (voting : Bool) : Member :=
  if voting then
    { member with Votes := none, Priority := none }
  else
    { member with Votes := some 0, Priority := some 0 }

/-- The method `byId.Less` on two machines. -/
def byIdLess (a b : machine) : Prop := a.id.toList < b.id.toList

instance byIdLessDecidable (a b : machine) : Decidable (byIdLess a b) := by
  unfold byIdLess
  exact inferInstance

/-- The id of the machine at a position (empty for a position outside the slice). -/
def idAt (machines : List machine) (k : Nat) : String :=
  match machines[k]? with
  | some m => m.id
  | none => ""

/-- The order that `sort.Sort(byId(l))` establishes on a slice of machine pointers:
`a` may stand before `b` when `b` is not `Less` than `a`. -/
def byIdOrder (machines : List machine) (a b : Nat) : Prop :=
  ¬ (idAt machines b).toList < (idAt machines a).toList

instance byIdOrderDecidable (machines : List machine) : DecidableRel (byIdOrder machines) := by
  intro a b
  unfold byIdOrder
  exact inferInstance

/-- The call `sort.Sort(byId(l))`, as an insertion sort (for pairwise distinct ids every
sorting algorithm gives this result). -/
def sortById (machines : List machine) (l : List Nat) : List Nat :=
  List.insertionSort (byIdOrder machines) l

/-- The inner loop of `membersMap`:
`for _, m := range info.machines { if m.id == mid { found = m } }`, started at
position `k` with the current value of `found`. -/
def findMachine (mid : String) : List machine → Nat → Option Nat → Option Nat
  | [], _, found => found
  | m :: rest, k, found => findMachine mid rest (k + 1) (if m.id = mid then some k else found)

/-- The value of `found` for one member in `membersMap`. -/
def foundFor (machines : List machine) (member : Member) : Option Nat :=
  match member.Tags.lookup machineIdTag with
  | some mid => findMachine mid machines 0 none
  | none => none

/-- The outer loop of `membersMap`, started at member position `i`. -/
def membersMapLoop (machines : List machine) :
    List Member → Nat → MemberMap × List Member → MemberMap × List Member
  | [], _, acc => acc
  | member :: rest, i, acc =>
    match foundFor machines member with
    | some k => membersMapLoop machines rest (i + 1) (mapSet acc.1 k i, acc.2)
    | none => membersMapLoop machines rest (i + 1) (acc.1, acc.2 ++ [member])

/-- The method `peerGroupInfo.membersMap`. -/
def membersMap (info : peerGroupInfo) : MemberMap × List Member :=
  membersMapLoop info.machines info.members 0 (fun _ => none, [])

/-- The member cell that the map holds for a machine, if any. -/
def memberAt (heap : List Member) (members : MemberMap) (k : Nat) : Option Member :=
  match members k with
  | some p => heap[p]?
  | none => none

/-- The keys of a map over the machines, in ascending position. -/
def mapKeys {β : Type} (n : Nat) (m : Nat → Option β) : List Nat :=
  (List.range n).filter (fun k => (m k).isSome)

/-- The machines whose member has the id of the status: the entries at which the inner
loop of `statusesMap` can stop. -/
def statusMatches (n : Nat) (heap : List Member) (members : MemberMap) (status : Status) :
    List Nat :=
  (mapKeys n members).filter (fun k =>
    match memberAt heap members k with
    | some member => decide (member.Id = status.Id)
    | none => false)

/-- The outer loop of `statusesMap`, started at status position `j`. The inner range over
the map stops at the first matching entry it meets; which one that is, is `pick j`. -/
def statusesMapLoop (pick : Nat → Nat) (n : Nat) (heap : List Member) (members : MemberMap) :
    List Status → Nat → StatusMap → StatusMap
  | [], _, statuses => statuses
  | status :: rest, j, statuses =>
    let ks := statusMatches n heap members status
    match ks[pick j % ks.length]? with
    | some m => statusesMapLoop pick n heap members rest (j + 1) (mapSet statuses m status)
    | none => statusesMapLoop pick n heap members rest (j + 1) statuses

/-- The method `peerGroupInfo.statusesMap`. -/
def statusesMap (pick : Nat → Nat) (info : peerGroupInfo) (members : MemberMap) : StatusMap :=
  statusesMapLoop pick info.machines.length info.members members info.statuses 0 (fun _ => none)

/-- The loop over `extra` in `desiredPeerGroup`: `none` when it returns the error,
otherwise the value of `changed` after the loop. -/
def extraLoop : List Member → Bool → Option Bool
  | [], changed => some changed
  | member :: rest, _ => if votesPositive member then none else extraLoop rest true

/-- The three slices filled by the classification loop. -/
structure Buckets where
  toRemoveVote : List Nat
  toAddVote : List Nat
  toKeep : List Nat
  deriving DecidableEq

/-- The value of `isVoting` for the machine at position `k`. -/
def isVotingAt (heap : List Member) (members : MemberMap) (k : Nat) : Bool :=
  match memberAt heap members k with
  | some member => votesPositive member
  | none => false

/-- The test `status, ok := statuses[m]; ok && isReady(status)`. -/
def readyAt (statuses : StatusMap) (k : Nat) : Bool :=
  match statuses k with
  | some status => isReady status
  | none => false

/-- The `switch` of the classification loop for one machine. -/
def classifyOne (m : machine) (k : Nat) (isVoting ready : Bool) (b : Buckets) : Buckets :=
  if m.candidate && isVoting then
    { b with toKeep := b.toKeep ++ [k] }
  else if m.candidate && !isVoting then
    if ready then { b with toAddVote := b.toAddVote ++ [k] } else b
  else if !m.candidate && isVoting then
    { b with toRemoveVote := b.toRemoveVote ++ [k] }
  else
    { b with toKeep := b.toKeep ++ [k] }

/-- The classification loop `for _, m := range info.machines`, started at position `k`:
it stores `isVoting` in each machine and fills the three slices. -/
def classifyLoop (heap : List Member) (members : MemberMap) (statuses : StatusMap) :
    List machine → Nat → Buckets → List machine × Buckets
  | [], _, b => ([], b)
  | m :: rest, k, b =>
    let isVoting := isVotingAt heap members k
    let r := classifyLoop heap members statuses rest (k + 1)
      (classifyOne m k isVoting (readyAt statuses k) b)
    ({ m with voting := isVoting } :: r.1, r.2)

/-- Write to the cell of a slice, when the position is in range. -/
def updateAt {α : Type} (l : List α) (i : Nat) (f : α → α) : List α :=
  match l[i]? with
  | some a => l.set i (f a)
  | none => l

/-- The closure `setVoting`: `setMemberVoting(members[m], voting)`, `m.voting = voting`,
`changed = true`. A nil `members[m]` is a nil dereference. -/
def setVoting (st : Vars) (m : Nat) (voting : Bool) : Option Vars :=
  match st.members m with
  | none => none
  | some p =>
    some { st with
      heap := updateAt st.heap p (fun member => setMemberVoting member voting)
      machines := updateAt st.machines m (fun x => { x with voting := voting })
      changed := true }

/-- The swap loop `for i := 0; i < nreplace; i++`: it runs over the common length of the
two slices. -/
def swapLoop : List Nat → List Nat → Vars → Option Vars
  | src :: rs, dst :: as, st =>
    match setVoting st src false with
    | none => none
    | some st1 =>
      match setVoting st1 dst true with
      | none => none
      | some st2 => swapLoop rs as st2
  | _, _, st => some st

/-- A loop `for _, m := range l { setVoting(m, voting) }`. -/
def setVotingLoop (voting : Bool) : List Nat → Vars → Option Vars
  | [], st => some st
  | m :: rest, st =>
    match setVoting st m voting with
    | none => none
    | some st1 => setVotingLoop voting rest st1

/-- The member literal `&replicaset.Member{Tags: map[string]string{"juju-machine-id": id}}`. -/
def newMember (id : String) : Member :=
  { Id := 0, Address := "", Tags := [(machineIdTag, id)], Votes := none, Priority := none }

/-- The loop over `toKeep`: a machine without a member gets a new member cell, which is
then set non-voting. -/
def keepLoop : List Nat → Vars → Option Vars
  | [], st => some st
  | m :: rest, st =>
    match st.members m with
    | none =>
      let st1 : Vars := { st with
        heap := st.heap ++ [newMember (idAt st.machines m)]
        members := mapSet st.members m st.heap.length }
      match setVoting st1 m false with
      | none => none
      | some st2 => keepLoop rest st2
    | some _ => keepLoop rest st

/-- The function `net.JoinHostPort` of the Go library: a host with a colon or a percent
sign is put in brackets. -/
def JoinHostPort (host port : String) : String :=
  if host.toList.contains ':' || host.toList.contains '%' then
    "[" ++ host ++ "]:" ++ port
  else
    host ++ ":" ++ port

/-- The address composed for a machine: `net.JoinHostPort(addr, fmt.Sprint(info.mongoPort))`. -/
def composedAddr (addr : String) (mongoPort : Int) : String :=
  JoinHostPort addr (toString mongoPort)

/-- The address loop `for _, m := range info.machines`, started at position `k`.
Reading `members[m].Address` with a nil `members[m]` is a nil dereference. -/
def addressLoop (rt : Runtime) (mongoPort : Int) : List machine → Nat → Vars → Option Vars
  | [], _, st => some st
  | m :: rest, k, st =>
    let addr := rt.selectInternalAddress m.addresses
    if addr = "" then
      addressLoop rt mongoPort rest (k + 1) st
    else
      match memberAt st.heap st.members k, st.members k with
      | some member, some p =>
        if composedAddr addr mongoPort ≠ member.Address then
          addressLoop rt mongoPort rest (k + 1)
            { st with
              heap := st.heap.set p { member with Address := composedAddr addr mongoPort }
              changed := true }
        else
          addressLoop rt mongoPort rest (k + 1) st
      | _, _ => none

/-- An order in which a range over a map can meet its entries: the entry at position
`k % length` of those left is met next. Every order arises from some seed. -/
def rangeOrder {α : Type} : List Nat → List α → List α
  | _, [] => []
  | [], x :: xs => x :: xs
  | k :: ks, x :: xs =>
    match (x :: xs)[k % (xs.length + 1)]? with
    | some y => y :: rangeOrder ks ((x :: xs).eraseIdx (k % (xs.length + 1)))
    | none => x :: xs

/-- The member cells of the map, in ascending machine position. -/
def mapValues (st : Vars) : List Member :=
  (mapKeys st.machines.length st.members).filterMap (fun k => memberAt st.heap st.members k)

/-- The loop `for _, member := range members { memberSet = append(memberSet, *member) }`
on `var memberSet []replicaset.Member`: the slice stays nil when the map is empty. -/
def memberSet (order : List Nat) (st : Vars) : Option (List Member) :=
  match rangeOrder order (mapValues st) with
  | [] => none
  | x :: xs => some (x :: xs)

/-- The part of `desiredPeerGroup` after the loop over `extra`, from the state `st` in
which `changed` holds the outcome of that loop. -/
def planVotes (rt : Runtime) (info : peerGroupInfo) (st0 : Vars) : Option (Ret × Vars) :=
  let statuses := statusesMap rt.pick info st0.members
  let c := classifyLoop st0.heap st0.members statuses st0.machines 0 ⟨[], [], []⟩
  let toRemoveVote := sortById c.1 c.2.toRemoveVote
  let toAddVote := sortById c.1 c.2.toAddVote
  let toKeep := c.2.toKeep
  let st1 : Vars := { st0 with machines := c.1 }
  match swapLoop toRemoveVote toAddVote st1 with
  | none => none
  | some st2 =>
    let nreplace := min toRemoveVote.length toAddVote.length
    let toAddVote := toAddVote.drop nreplace
    let toRemoveVote := toRemoveVote.drop nreplace
    let padded :=
      if toAddVote.length > 0 then
        setVotingLoop true (toAddVote.take (toAddVote.length - toAddVote.length % 2)) st2
      else
        setVotingLoop false
          (toRemoveVote.take (toRemoveVote.length - toRemoveVote.length % 2)) st2
    match padded with
    | none => none
    | some st3 =>
      match keepLoop toKeep st3 with
      | none => none
      | some st4 =>
        match addressLoop rt info.mongoPort st4.machines 0 st4 with
        | none => none
        | some st5 =>
          if !st5.changed then
            some (⟨none, none⟩, st5)
          else
            some (⟨memberSet rt.order st5, none⟩, st5)

/-- The function `desiredPeerGroup`. The result is `none` when the run ends in a run-time
panic; otherwise it is the returned pair together with the final values of the machines,
the member cells and the `members` map. -/
def desiredPeerGroup (rt : Runtime) (info : peerGroupInfo) : Option (Ret × Vars) :=
  let mm := membersMap info
  let st0 : Vars := ⟨info.machines, info.members, mm.1, false⟩
  match extraLoop mm.2 false with
  | none => some (⟨none, some errExtraVoting⟩, st0)
  | some changed => planVotes rt info { st0 with changed := changed }

/-- The caller's `info` after the call: the machines with the flags written by the call
and the array `info.members` as written through the pointers into it. -/
def infoAfter (info : peerGroupInfo) (st : Vars) : peerGroupInfo :=
  { info with machines := st.machines, members := st.heap.take info.members.length }


/-! ## Derived descriptions used in the proofs -/

/-- The pair returned by a run, when the run returns. -/
def returned (rt : Runtime) (info : peerGroupInfo) : Option Ret :=
  (desiredPeerGroup rt info).map Prod.fst

/-- The caller's input after a run that returns. -/
def inputAfter (rt : Runtime) (info : peerGroupInfo) : Option peerGroupInfo :=
  (desiredPeerGroup rt info).map (fun x => infoAfter info x.2)

/-- The member that the `members` map holds for machine `k` when the run returns. -/
def finalMember (rt : Runtime) (info : peerGroupInfo) (k : Nat) : Option Member :=
  (desiredPeerGroup rt info).bind (fun x => memberAt x.2.heap x.2.members k)

/-- The member bound to machine `k` by `membersMap`, read from the input. -/
def boundMember (info : peerGroupInfo) (k : Nat) : Option Member :=
  memberAt info.members (membersMap info).1 k

/-- A live member is extra: it has no `juju-machine-id` tag, or its tag is the id of no
machine. -/
def isExtra (machines : List machine) (member : Member) : Prop :=
  match member.Tags.lookup machineIdTag with
  | none => True
  | some mid => ∀ m ∈ machines, m.id ≠ mid

instance isExtraDecidable (machines : List machine) (member : Member) :
    Decidable (isExtra machines member) := by
  unfold isExtra
  split <;> exact inferInstance

/-- A test on an optional value; it fails on `none`. -/
def optTest {β : Type} (q : β → Bool) (o : Option β) : Bool :=
  match o with
  | some b => q b
  | none => false

/-- A sequence of calls `setVoting(m, voting)`. -/
def setVotingSeq : List (Nat × Bool) → Vars → Option Vars
  | [], st => some st
  | op :: rest, st =>
    match setVoting st op.1 op.2 with
    | none => none
    | some st1 => setVotingSeq rest st1

/-- The calls of `setVoting` made by the swap loop. -/
def swapOps : List Nat → List Nat → List (Nat × Bool)
  | src :: rs, dst :: as => (src, false) :: (dst, true) :: swapOps rs as
  | _, _ => []

/-- The calls of `setVoting` made by the pad step on what the swap loop left. -/
def padOps (toRemoveVote toAddVote : List Nat) : List (Nat × Bool) :=
  if toAddVote.length > 0 then
    (toAddVote.take (toAddVote.length - toAddVote.length % 2)).map (fun m => (m, true))
  else
    (toRemoveVote.take (toRemoveVote.length - toRemoveVote.length % 2)).map (fun m => (m, false))

/-- All calls of `setVoting` of the swap loop and the pad step, for the two sorted slices. -/
def voteOps (toRemoveVote toAddVote : List Nat) : List (Nat × Bool) :=
  swapOps toRemoveVote toAddVote ++
    padOps (toRemoveVote.drop (min toRemoveVote.length toAddVote.length))
      (toAddVote.drop (min toRemoveVote.length toAddVote.length))

/-- What a sequence of `setVoting` calls asks for machine `k`, if anything. -/
def opOf (ops : List (Nat × Bool)) (k : Nat) : Option Bool :=
  if (k, false) ∈ ops then some false else if (k, true) ∈ ops then some true else none

/-- The effect of the requested call on a member. -/
def applyOp (o : Option Bool) (member : Member) : Member :=
  match o with
  | some v => setMemberVoting member v
  | none => member

/-- The effect of the requested call on a machine. -/
def flagOp (o : Option Bool) (m : machine) : machine :=
  match o with
  | some v => { m with voting := v }
  | none => m

/-- The pointers of the map are in range and no two machines share a member cell. -/
structure WF (N : Nat) (st : Vars) : Prop where
  len : st.machines.length = N
  dom : ∀ k p, st.members k = some p → k < N ∧ p < st.heap.length
  inj : ∀ k k' p, st.members k = some p → st.members k' = some p → k = k'

/-- The member of a machine after the address loop has handled the machine. -/
def refreshAddr (rt : Runtime) (mongoPort : Int) (m : machine) (member : Member) : Member :=
  if rt.selectInternalAddress m.addresses = "" then member
  else if composedAddr (rt.selectInternalAddress m.addresses) mongoPort ≠ member.Address then
    { member with Address := composedAddr (rt.selectInternalAddress m.addresses) mongoPort }
  else member

/-- The address loop writes the address of this member for this machine. -/
def needsRefresh (rt : Runtime) (mongoPort : Int) (m : machine) (member : Member) : Prop :=
  rt.selectInternalAddress m.addresses ≠ "" ∧
    composedAddr (rt.selectInternalAddress m.addresses) mongoPort ≠ member.Address

/-- The member that the loop over `toKeep` makes for the machine at position `k`. -/
def adoptedMember (machines : List machine) (k : Nat) : Member :=
  setMemberVoting (newMember (idAt machines k)) false

/-- The positions, from `k` on, of the machines of a slice that satisfy a test. -/
def positionsWhere (ms : List machine) (k : Nat) (test : machine → Nat → Bool) : List Nat :=
  ((ms.enumFrom k).filter (fun x => test x.2 x.1)).map Prod.fst

/-- The case of the `switch` that appends to `toAddVote`. -/
def inAddVote (heap : List Member) (members : MemberMap) (statuses : StatusMap)
    (m : machine) (k : Nat) : Bool :=
  m.candidate && !isVotingAt heap members k && readyAt statuses k

/-- The case of the `switch` that appends to `toRemoveVote`. -/
def inRemoveVote (heap : List Member) (members : MemberMap) (m : machine) (k : Nat) : Bool :=
  !m.candidate && isVotingAt heap members k

/-- The cases of the `switch` that append to `toKeep`. -/
def inKeep (heap : List Member) (members : MemberMap) (m : machine) (k : Nat) : Bool :=
  (m.candidate && isVotingAt heap members k) || (!m.candidate && !isVotingAt heap members k)

/-- The statuses map of a run. -/
def statusIndex (rt : Runtime) (info : peerGroupInfo) : StatusMap :=
  statusesMap rt.pick info (membersMap info).1

/-- The slice `toRemoveVote` of a run, after the sort. -/
def sortedRemove (info : peerGroupInfo) : List Nat :=
  sortById info.machines
    (positionsWhere info.machines 0 (inRemoveVote info.members (membersMap info).1))

/-- The slice `toAddVote` of a run, after the sort. -/
def sortedAdd (rt : Runtime) (info : peerGroupInfo) : List Nat :=
  sortById info.machines
    (positionsWhere info.machines 0
      (inAddVote info.members (membersMap info).1 (statusIndex rt info)))

/-- The slice `toKeep` of a run. -/
def keepList (info : peerGroupInfo) : List Nat :=
  positionsWhere info.machines 0 (inKeep info.members (membersMap info).1)

/-- The calls of `setVoting` that the swap loop and the pad step of a run make. -/
def votePlan (rt : Runtime) (info : peerGroupInfo) : List (Nat × Bool) :=
  voteOps (sortedRemove info) (sortedAdd rt info)

/-- The member of machine `k` when the address loop starts. -/
def plannedMember (rt : Runtime) (info : peerGroupInfo) (k : Nat) : Option Member :=
  match boundMember info k with
  | some member => some (applyOp (opOf (votePlan rt info) k) member)
  | none => if k ∈ keepList info then some (adoptedMember info.machines k) else none

/-- The member of machine `k` when the run ends. -/
def specMember (rt : Runtime) (info : peerGroupInfo) (k : Nat) : Option Member :=
  match info.machines[k]? with
  | some m => (plannedMember rt info k).map (refreshAddr rt info.mongoPort m)
  | none => none

/-- The voting flag of machine `k` when the run ends. -/
def specVoting (rt : Runtime) (info : peerGroupInfo) (k : Nat) : Bool :=
  match opOf (votePlan rt info) k with
  | some v => v
  | none => isVotingAt info.members (membersMap info).1 k

/-- The value of `changed` when the run ends, for its value `c` after the loop over the
extra members. -/
def specChanged (rt : Runtime) (info : peerGroupInfo) (c : Bool) : Prop :=
  c = true ∨ votePlan rt info ≠ [] ∨ (∃ k ∈ keepList info, boundMember info k = none) ∨
    ∃ k m member, info.machines[k]? = some m ∧ plannedMember rt info k = some member ∧
      needsRefresh rt info.mongoPort m member

/-- The run meets a nil member in the address loop. -/
def specPanics (rt : Runtime) (info : peerGroupInfo) : Prop :=
  ∃ k m, info.machines[k]? = some m ∧ rt.selectInternalAddress m.addresses ≠ "" ∧
    plannedMember rt info k = none

/-- The number of members with votes present and positive. -/
def votingCount (l : List Member) : Nat := l.countP votesPositive

/-- A member votes in the replica set: its votes are absent or positive. -/
def votesInSet (member : Member) : Bool :=
  match member.Votes with
  | some v => decide (0 < v)
  | none => true

/-- The tag `juju-machine-id` of a member, if it has one. -/
def machineTag (member : Member) : Option String := member.Tags.lookup machineIdTag

/-- The machine ids are pairwise distinct. -/
def distinctIds (machines : List machine) : Prop := (machines.map (fun m => m.id)).Nodup

/-- The `juju-machine-id` tag values of the members that have one are pairwise distinct. -/
def distinctTags (members : List Member) : Prop := (members.filterMap machineTag).Nodup

/-- The member ids are pairwise distinct. -/
def distinctMemberIds (members : List Member) : Prop := (members.map (fun m => m.Id)).Nodup

instance distinctIdsDecidable (machines : List machine) : Decidable (distinctIds machines) := by
  unfold distinctIds
  exact inferInstance

instance distinctTagsDecidable (members : List Member) : Decidable (distinctTags members) := by
  unfold distinctTags
  exact inferInstance

instance distinctMemberIdsDecidable (members : List Member) :
    Decidable (distinctMemberIds members) := by
  unfold distinctMemberIds
  exact inferInstance

/-- The member cells when a run returns. -/
def heapAfter (rt : Runtime) (info : peerGroupInfo) : Option (List Member) :=
  (desiredPeerGroup rt info).map (fun x => x.2.heap)

/-! ## Inputs for the examples -/

/-- An address selection for the examples: the value of the first address. -/
def firstAddress : List Address → String
  | [] => ""
  | a :: _ => a.Value

/-- A runtime for the examples. -/
def rtExample : Runtime := ⟨firstAddress, fun _ => 0, []⟩

/-- A machine for the examples, with at most one address. -/
def mkMachine (id : String) (candidate : Bool) (addr : String) : machine :=
  ⟨id, candidate, if addr = "" then [] else [⟨addr, "local-cloud"⟩], false⟩

/-- A tagged member for the examples. -/
def mkMember (id : Int) (tag : String) (votes : Option Int) (priority : Option Nat)
    (addr : String) : Member :=
  ⟨id, addr, [(machineIdTag, tag)], votes, priority⟩

/-- Scenario S6: an untagged voting member. -/
def infoExtraVoting : peerGroupInfo :=
  ⟨[mkMachine "1" true ""], [⟨1, true⟩],
    [mkMember 1 "1" (some 1) none "", ⟨2, "", [], some 1, none⟩], 37017⟩

/-- One voting candidate and one non-candidate machine that has no member yet. -/
def infoAdopt : peerGroupInfo :=
  ⟨[mkMachine "1" true "", mkMachine "2" false "h2"], [⟨1, true⟩],
    [mkMember 1 "1" (some 1) none ""], 37017⟩

/-- One steady voting candidate next to an untagged member that does not vote. -/
def infoExtraIdle : peerGroupInfo :=
  ⟨[mkMachine "1" true ""], [⟨1, true⟩],
    [mkMember 1 "1" (some 1) none "", ⟨2, "", [], some 0, some 0⟩], 37017⟩

/-- Scenario S1: three voting candidates with current addresses. -/
def infoSteady : peerGroupInfo :=
  ⟨[mkMachine "1" true "h1", mkMachine "2" true "h2", mkMachine "3" true ""],
    [⟨1, true⟩, ⟨2, true⟩, ⟨3, true⟩],
    [mkMember 1 "1" (some 1) none "h1:37017", mkMember 2 "2" (some 1) none "h2:37017",
      mkMember 3 "3" (some 1) none "old:1"], 37017⟩

/-- Scenario S3: the voting machine "3" is no longer a candidate and the candidate "4" is
ready and does not vote yet. -/
def infoSwap : peerGroupInfo :=
  ⟨[mkMachine "1" true "", mkMachine "2" true "", mkMachine "3" false "", mkMachine "4" true ""],
    [⟨1, true⟩, ⟨2, true⟩, ⟨3, true⟩, ⟨4, true⟩],
    [mkMember 1 "1" (some 1) none "", mkMember 2 "2" (some 1) none "",
      mkMember 3 "3" (some 1) none "", mkMember 4 "4" (some 0) (some 0) ""], 37017⟩

/-- The membership returned for scenario S3. -/
def planSwap : List Member :=
  [mkMember 1 "1" (some 1) none "", mkMember 2 "2" (some 1) none "",
    mkMember 3 "3" (some 0) (some 0) "", mkMember 4 "4" none none ""]

/-- Scenario S4: next to one voter, two ready candidates that do not vote yet. -/
def infoPadAdd : peerGroupInfo :=
  ⟨[mkMachine "1" true "", mkMachine "2" true "", mkMachine "3" true ""],
    [⟨1, true⟩, ⟨2, true⟩, ⟨3, true⟩],
    [mkMember 1 "1" (some 1) none "", mkMember 2 "2" (some 0) (some 0) "",
      mkMember 3 "3" (some 0) (some 0) ""], 37017⟩

/-- The membership returned for scenario S4: both candidates are promoted, which leaves
their votes and priority absent. -/
def planPadAdd : List Member :=
  [mkMember 1 "1" (some 1) none "", mkMember 2 "2" none none "", mkMember 3 "3" none none ""]

/-- The input of the next cycle after scenario S4: the live members are the returned plan. -/
def infoPadAddNext : peerGroupInfo :=
  { infoPadAdd with members := planPadAdd }

/-- Scenario S3 with its machines and its live members in another order. -/
def infoSwapReordered : peerGroupInfo :=
  ⟨[mkMachine "4" true "", mkMachine "1" true "", mkMachine "3" false "", mkMachine "2" true ""],
    infoSwap.statuses,
    [mkMember 3 "3" (some 1) none "", mkMember 4 "4" (some 0) (some 0) "",
      mkMember 1 "1" (some 1) none "", mkMember 2 "2" (some 1) none ""], infoSwap.mongoPort⟩

/-- The number of machines of `toAddVote` that are granted a vote, from the lengths of
`toRemoveVote` and `toAddVote`. -/
def grantCount (r a : Nat) : Nat :=
  if a - min r a > 0 then min r a + ((a - min r a) - (a - min r a) % 2) else min r a

/-- The number of machines of `toRemoveVote` whose vote is revoked. -/
def revokeCount (r a : Nat) : Nat :=
  if a - min r a > 0 then min r a else min r a + ((r - min r a) - (r - min r a) % 2)

/-- The machines that the run grants a vote. -/
def granted (rt : Runtime) (info : peerGroupInfo) : List Nat :=
  (sortedAdd rt info).take (grantCount (sortedRemove info).length (sortedAdd rt info).length)

/-- The machines whose vote the run revokes. -/
def revoked (rt : Runtime) (info : peerGroupInfo) : List Nat :=
  (sortedRemove info).take (revokeCount (sortedRemove info).length (sortedAdd rt info).length)

/-- The last status of a slice that has the given id. -/
def lastStatus (statuses : List Status) (id : Int) : Option Status :=
  statuses.foldl (fun acc s => if s.Id = id then some s else acc) none

/-- The order of `byId.Less` on ids: `a` may stand before `b`. -/
def idLe (a b : String) : Prop := ¬ b.toList < a.toList

instance idLeDecidable : DecidableRel idLe := by
  intro a b
  unfold idLe
  exact inferInstance

instance idLeTotal : IsTotal String idLe :=
  ⟨fun a b => by
    unfold idLe
    rcases lt_trichotomy a.toList b.toList with h | h | h
    · exact Or.inl (lt_asymm h)
    · exact Or.inl (by rw [h]; exact lt_irrefl _)
    · exact Or.inr (lt_asymm h)⟩

instance idLeTrans : IsTrans String idLe :=
  ⟨fun a b c h1 h2 => by
    unfold idLe at *
    exact not_lt.2 (le_trans (not_lt.1 h1) (not_lt.1 h2))⟩

instance idLeAntisymm : IsAntisymm String idLe :=
  ⟨fun a b h1 h2 => by
    unfold idLe at h1 h2
    exact String.ext (le_antisymm (not_lt.1 h2) (not_lt.1 h1)).symm⟩

instance byIdOrderTotal (machines : List machine) : IsTotal Nat (byIdOrder machines) :=
  ⟨fun a b => idLeTotal.total (idAt machines a) (idAt machines b)⟩

instance byIdOrderTrans (machines : List machine) : IsTrans Nat (byIdOrder machines) :=
  ⟨fun a b c h1 h2 =>
    idLeTrans.trans (idAt machines a) (idAt machines b) (idAt machines c) h1 h2⟩

/-- Two results are the same up to the order of the returned members: both runs panic, or
both return the same error and nil or memberships that are permutations of each other. -/
def sameResult : Option Ret → Option Ret → Prop
  | some ⟨some l1, e1⟩, some ⟨some l2, e2⟩ => l1.Perm l2 ∧ e1 = e2
  | some ⟨none, e1⟩, some ⟨none, e2⟩ => e1 = e2
  | none, none => True
  | _, _ => False

/-- The second input is the first with its machines and its live members reordered, and
the machine ids, the tag values and the member ids of the first are pairwise distinct. -/
structure Reordered (info1 info2 : peerGroupInfo) : Prop where
  machines : info1.machines.Perm info2.machines
  members : info1.members.Perm info2.members
  statuses : info1.statuses = info2.statuses
  mongoPort : info1.mongoPort = info2.mongoPort
  ids : distinctIds info1.machines
  tags : distinctTags info1.members
  memberIds : distinctMemberIds info1.members

/-- No extra member has votes present and positive. -/
def noVotingExtra (info : peerGroupInfo) : Prop :=
  ∀ member ∈ info.members, isExtra info.machines member → votesPositive member = false

instance noVotingExtraDecidable (info : peerGroupInfo) : Decidable (noVotingExtra info) := by
  unfold noVotingExtra
  exact inferInstance

/-- The voting flag of the machine at a position of a slice (false outside the slice). -/
def votingAt (machines : List machine) (k : Nat) : Bool :=
  optTest (fun m : machine => m.voting) machines[k]?

/-- The machine at position `k` is bound to a member with votes present and positive in the
input: the value of `isVoting` for it. -/
def wasVoting (info : peerGroupInfo) (k : Nat) : Bool :=
  isVotingAt info.members (membersMap info).1 k

/-- The number of non-candidate machines bound to a voting member. -/
def removableCount (info : peerGroupInfo) : Nat :=
  (List.range info.machines.length).countP (fun k =>
    optTest (fun m : machine => !m.candidate) info.machines[k]? && wasVoting info k)

/-- The number of candidate machines bound to a non-voting member whose status is ready. -/
def addableCount (rt : Runtime) (info : peerGroupInfo) : Nat :=
  (List.range info.machines.length).countP (fun k =>
    optTest (fun m : machine => m.candidate) info.machines[k]? &&
      optTest (fun b : Member => !votesPositive b) (boundMember info k) &&
      readyAt (statusIndex rt info) k)

/-- The number of machines bound to a voting member in the input whose flag is false in the
machines after the call. -/
def revokedAfter (info : peerGroupInfo) (machines : List machine) : Nat :=
  (List.range info.machines.length).countP (fun k => wasVoting info k && !votingAt machines k)

/-- The number of machines not bound to a voting member in the input whose flag is true in
the machines after the call. -/
def grantedAfter (info : peerGroupInfo) (machines : List machine) : Nat :=
  (List.range info.machines.length).countP (fun k => !wasVoting info k && votingAt machines k)

/-- A candidate with an IPv6 internal address, bound to a voting member. -/
def infoIPv6 : peerGroupInfo :=
  ⟨[mkMachine "1" true "::1"], [⟨1, true⟩], [mkMember 1 "1" (some 1) none "old:1"], 37017⟩

/-- Scenario S7: steady membership, the internal address of machine "2" has changed. -/
def infoStale : peerGroupInfo :=
  ⟨[mkMachine "1" true "h1", mkMachine "2" true "h2", mkMachine "3" true ""],
    [⟨1, true⟩, ⟨2, true⟩, ⟨3, true⟩],
    [mkMember 1 "1" (some 1) none "h1:37017", mkMember 2 "2" (some 1) none "old:37017",
      mkMember 3 "3" (some 1) none "x:1"], 37017⟩

/-- The membership returned for scenario S7. -/
def planStale : List Member :=
  [mkMember 1 "1" (some 1) none "h1:37017", mkMember 2 "2" (some 1) none "h2:37017",
    mkMember 3 "3" (some 1) none "x:1"]

/-- A bound member with a stale address next to an untagged member that votes. -/
def infoStaleExtraVoting : peerGroupInfo :=
  ⟨[mkMachine "1" true "h1"], [⟨1, true⟩],
    [mkMember 1 "1" (some 1) none "old:37017", ⟨2, "", [], some 1, none⟩], 37017⟩

/-- Scenario S2 without addresses: three voting candidates and the new candidate "4", which
is not yet in the replica set. -/
def infoNewCandidate : peerGroupInfo :=
  ⟨[mkMachine "1" true "", mkMachine "2" true "", mkMachine "3" true "", mkMachine "4" true ""],
    [⟨1, true⟩, ⟨2, true⟩, ⟨3, true⟩],
    [mkMember 1 "1" (some 1) none "", mkMember 2 "2" (some 1) none "",
      mkMember 3 "3" (some 1) none ""], 37017⟩

/-- A voting candidate and a second candidate that has an internal address and is not yet
in the replica set. -/
def infoUnboundCandidate : peerGroupInfo :=
  ⟨[mkMachine "1" true "", mkMachine "2" true "h2"], [⟨1, true⟩],
    [mkMember 1 "1" (some 1) none ""], 37017⟩

/-- Scenario S3 with a further candidate "5" that has an internal address and is not yet in
the replica set. -/
def infoSwapUnbound : peerGroupInfo :=
  { infoSwap with machines := infoSwap.machines ++ [mkMachine "5" true "h5"] }

/-- Two live members carry the tag of machine "1", whose internal address has changed. -/
def infoSharedTag : peerGroupInfo :=
  ⟨[mkMachine "1" true "h1"], [⟨2, true⟩],
    [mkMember 1 "1" (some 1) none "a:1", mkMember 2 "1" (some 1) none "b:1"], 37017⟩

instance needsRefreshDecidable (rt : Runtime) (mongoPort : Int) (m : machine) (member : Member) :
    Decidable (needsRefresh rt mongoPort m member) := by
  unfold needsRefresh
  exact inferInstance

/-- The input of `infoNewCandidate` with machine "4" not a candidate. -/
def infoNewNonCandidate : peerGroupInfo :=
  ⟨[mkMachine "1" true "", mkMachine "2" true "", mkMachine "3" true "", mkMachine "4" false ""],
    [⟨1, true⟩, ⟨2, true⟩, ⟨3, true⟩],
    [mkMember 1 "1" (some 1) none "", mkMember 2 "2" (some 1) none "",
      mkMember 3 "3" (some 1) none ""], 37017⟩

/-- The machine at position `k` is eligible for promotion: a candidate bound to a member
that does not vote, with a ready status. -/
def promotable (rt : Runtime) (info : peerGroupInfo) (k : Nat) : Bool :=
  optTest (fun m : machine => m.candidate) info.machines[k]? &&
    optTest (fun b : Member => !votesPositive b) (boundMember info k) &&
    readyAt (statusIndex rt info) k

/-- The machine at position `k` is a non-candidate bound to a voting member. -/
def demotable (info : peerGroupInfo) (k : Nat) : Bool :=
  optTest (fun m : machine => !m.candidate) info.machines[k]? && wasVoting info k

/-- The machine at position `k` was not bound to a voting member in the input and is flagged
voting in the machines after the call. -/
def voteGranted (info : peerGroupInfo) (machines : List machine) (k : Nat) : Bool :=
  !wasVoting info k && votingAt machines k

/-- The machine at position `k` was bound to a voting member in the input and is not flagged
voting in the machines after the call. -/
def voteRevoked (info : peerGroupInfo) (machines : List machine) (k : Nat) : Bool :=
  wasVoting info k && !votingAt machines k

/-- The records of the machines without their voting flags. -/
def withoutFlags (machines : List machine) : List machine :=
  machines.map (fun m : machine => { m with voting := false })

/-- One voter and three ready candidates that do not vote yet, the machines out of id
order. -/
def infoDefer : peerGroupInfo :=
  ⟨[mkMachine "4" true "", mkMachine "2" true "", mkMachine "1" true "", mkMachine "3" true ""],
    [⟨1, true⟩, ⟨2, true⟩, ⟨3, true⟩, ⟨4, true⟩],
    [mkMember 1 "1" (some 1) none "", mkMember 2 "2" (some 0) (some 0) "",
      mkMember 3 "3" (some 0) (some 0) "", mkMember 4 "4" (some 0) (some 0) ""], 37017⟩

/-- The machines of `infoDefer` after the call. -/
def machinesDefer : List machine :=
  [mkMachine "4" true "", { mkMachine "2" true "" with voting := true },
    { mkMachine "1" true "" with voting := true }, { mkMachine "3" true "" with voting := true }]

/-- The machines of scenario S3 after the call. -/
def machinesSwap : List machine :=
  [{ mkMachine "1" true "" with voting := true }, { mkMachine "2" true "" with voting := true },
    mkMachine "3" false "", { mkMachine "4" true "" with voting := true }]

/-- A candidate that is not yet in the replica set, next to an untagged member that does
not vote. -/
def infoExtraOnly : peerGroupInfo :=
  ⟨[mkMachine "1" true ""], [], [⟨9, "", [], some 0, some 0⟩], 37017⟩

/-- No machine at all, and an untagged member that does not vote. -/
def infoNoMachine : peerGroupInfo :=
  ⟨[], [], [⟨9, "", [], some 0, some 0⟩], 37017⟩

/-- A voting candidate, a candidate with an internal address that is not yet in the replica
set, and an untagged member that does not vote. -/
def infoExtraUnbound : peerGroupInfo :=
  ⟨[mkMachine "1" true "", mkMachine "2" true "h2"], [⟨1, true⟩],
    [mkMember 1 "1" (some 1) none "", ⟨9, "", [], some 0, some 0⟩], 37017⟩

/-- A voting candidate, a non-candidate machine without a member, and a candidate with an
internal address that is not yet in the replica set. -/
def infoKeepUnbound : peerGroupInfo :=
  ⟨[mkMachine "1" true "", mkMachine "2" false "", mkMachine "3" true "h3"], [⟨1, true⟩],
    [mkMember 1 "1" (some 1) none ""], 37017⟩

/-- Two statuses share the id of the member bound to the one machine. -/
def infoTwoStatuses : peerGroupInfo :=
  ⟨[mkMachine "1" true ""], [⟨1, false⟩, ⟨2, true⟩, ⟨1, true⟩],
    [mkMember 1 "1" (some 0) (some 0) ""], 37017⟩

/-- Live members of which one is untagged and one is tagged with the id of no machine. -/
def infoPartition : peerGroupInfo :=
  ⟨[mkMachine "1" true "", mkMachine "2" true ""], [],
    [mkMember 1 "2" (some 1) none "", ⟨2, "", [], some 0, some 0⟩,
      mkMember 3 "7" (some 0) (some 0) "", mkMember 4 "1" (some 1) none ""], 37017⟩

/-- The live members of `infoDefer` after the call. -/
def membersDefer : List Member :=
  [mkMember 1 "1" (some 1) none "", mkMember 2 "2" none none "", mkMember 3 "3" none none "",
    mkMember 4 "4" (some 0) (some 0) ""]

/-- A machine-to-member map that binds the machine at position 0 to the member cell 0. -/
def oneBinding : MemberMap := fun k => if k = 0 then some 0 else none

/-! ## The member index -/

theorem findMachine_eq_none_iff (mid : String) (l : List machine) (k : Nat) (found : Option Nat) :
    findMachine mid l k found = none ↔ found = none ∧ ∀ m ∈ l, m.id ≠ mid := by
  induction l generalizing k found with
  | nil => simp [findMachine]
  | cons m rest ih =>
    simp only [findMachine, ih, List.mem_cons, forall_eq_or_imp]
    by_cases h : m.id = mid
    · simp [h]
    · simp [h]

theorem foundFor_eq_none_iff (machines : List machine) (member : Member) :
    foundFor machines member = none ↔ isExtra machines member := by
  unfold foundFor isExtra
  cases h : member.Tags.lookup machineIdTag with
  | none => simp
  | some mid => simp [findMachine_eq_none_iff]

theorem membersMapLoop_extra (machines : List machine) (l : List Member) (i : Nat)
    (acc : MemberMap × List Member) :
    (membersMapLoop machines l i acc).2 =
      acc.2 ++ l.filter (fun m => (foundFor machines m).isNone) := by
  induction l generalizing i acc with
  | nil => simp [membersMapLoop]
  | cons member rest ih =>
    unfold membersMapLoop
    cases h : foundFor machines member with
    | none => simp [ih, h, List.filter_cons]
    | some k => simp [ih, h, List.filter_cons]

theorem mem_membersMap_extra (info : peerGroupInfo) (member : Member) :
    member ∈ (membersMap info).2 ↔ member ∈ info.members ∧ isExtra info.machines member := by
  unfold membersMap
  rw [membersMapLoop_extra]
  simp [List.mem_filter, ← foundFor_eq_none_iff]

/-! ## The loop over the extra members -/

theorem extraLoop_eq_none_iff (l : List Member) (c : Bool) :
    extraLoop l c = none ↔ ∃ m ∈ l, votesPositive m = true := by
  induction l generalizing c with
  | nil => simp [extraLoop]
  | cons m rest ih =>
    unfold extraLoop
    by_cases h : votesPositive m = true
    · simp [h]
    · simp [h, ih]

theorem extraLoop_eq_some (l : List Member) (c c' : Bool) (h : extraLoop l c = some c') :
    c' = (c || !l.isEmpty) := by
  induction l generalizing c with
  | nil => simpa [extraLoop, eq_comm] using h
  | cons m rest ih =>
    unfold extraLoop at h
    by_cases hv : votesPositive m = true
    · simp [hv] at h
    · simp only [hv] at h
      have := ih true h
      simpa using this

theorem planVotes_err (rt : Runtime) (info : peerGroupInfo) (st0 st : Vars) (r : Ret)
    (h : planVotes rt info st0 = some (r, st)) : r.err = none := by
  unfold planVotes at h
  simp only [] at h
  split at h
  · exact absurd h (by simp)
  · split at h
    · exact absurd h (by simp)
    · split at h
      · exact absurd h (by simp)
      · split at h
        · exact absurd h (by simp)
        · split at h
          · simp only [Option.some.injEq, Prod.mk.injEq] at h
            rw [← h.1]
          · simp only [Option.some.injEq, Prod.mk.injEq] at h
            rw [← h.1]


/-! ## Writes to cells -/

theorem length_updateAt {α : Type} (l : List α) (i : Nat) (f : α → α) :
    (updateAt l i f).length = l.length := by
  unfold updateAt
  cases l[i]? <;> simp

theorem getElem?_updateAt {α : Type} (l : List α) (i j : Nat) (f : α → α) :
    (updateAt l i f)[j]? = if j = i then (l[j]?).map f else l[j]? := by
  unfold updateAt
  cases h : l[i]? with
  | none =>
    by_cases hj : j = i
    · subst hj; simp [h]
    · simp [hj]
  | some a =>
    by_cases hj : j = i
    · subst hj
      have hlt : j < l.length := by
        rcases List.getElem?_eq_some_iff.1 h with ⟨hlt, _⟩
        exact hlt
      simp [List.getElem?_set, h, hlt]
    · have : ¬ i = j := fun e => hj e.symm
      simp [List.getElem?_set, hj, this]

theorem memberAt_updateAt (heap : List Member) (members : MemberMap) (p k : Nat)
    (f : Member → Member) :
    memberAt (updateAt heap p f) members k =
      if members k = some p then (memberAt heap members k).map f else memberAt heap members k := by
  unfold memberAt
  cases h : members k with
  | none => simp
  | some q =>
    simp only [getElem?_updateAt, Option.some.injEq]

theorem setMemberVoting_idem (member : Member) (v : Bool) :
    setMemberVoting (setMemberVoting member v) v = setMemberVoting member v := by
  cases v <;> rfl

/-! ## Sequences of `setVoting` calls -/

theorem swapLoop_eq_seq (rs as : List Nat) (st : Vars) :
    swapLoop rs as st = setVotingSeq (swapOps rs as) st := by
  induction rs generalizing as st with
  | nil => cases as <;> simp [swapLoop, swapOps, setVotingSeq]
  | cons r rs ih =>
    cases as with
    | nil => simp [swapLoop, swapOps, setVotingSeq]
    | cons a as =>
      simp only [swapLoop, swapOps, setVotingSeq]
      cases setVoting st r false with
      | none => rfl
      | some st1 =>
        simp only []
        cases setVoting st1 a true with
        | none => rfl
        | some st2 => exact ih as st2

theorem setVotingLoop_eq_seq (v : Bool) (l : List Nat) (st : Vars) :
    setVotingLoop v l st = setVotingSeq (l.map (fun m => (m, v))) st := by
  induction l generalizing st with
  | nil => simp [setVotingLoop, setVotingSeq]
  | cons m rest ih =>
    simp only [setVotingLoop, List.map_cons, setVotingSeq]
    cases setVoting st m v with
    | none => rfl
    | some st1 => exact ih st1

theorem setVotingSeq_append (a b : List (Nat × Bool)) (st : Vars) :
    setVotingSeq (a ++ b) st = (setVotingSeq a st).bind (setVotingSeq b) := by
  induction a generalizing st with
  | nil => simp [setVotingSeq]
  | cons op rest ih =>
    simp only [List.cons_append, setVotingSeq]
    cases setVoting st op.1 op.2 with
    | none => rfl
    | some st1 => exact ih st1

theorem opOf_nil (k : Nat) : opOf [] k = none := by
  simp [opOf]

theorem opOf_cons_self (ops : List (Nat × Bool)) (m : Nat) (v : Bool)
    (hc : ∀ v', (m, v') ∈ ops → v' = v) : opOf ((m, v) :: ops) m = some v := by
  unfold opOf
  cases v with
  | false => simp
  | true =>
    have : (m, false) ∉ ops := fun h => by simpa using hc false h
    simp [this]

theorem opOf_cons_ne (ops : List (Nat × Bool)) (m k : Nat) (v : Bool) (h : k ≠ m) :
    opOf ((m, v) :: ops) k = opOf ops k := by
  simp [opOf, h]

theorem opOf_rest_self (ops : List (Nat × Bool)) (m : Nat) (v : Bool)
    (hc : ∀ v', (m, v') ∈ ops → v' = v) : opOf ops m = none ∨ opOf ops m = some v := by
  unfold opOf
  by_cases h1 : (m, false) ∈ ops
  · right
    have := hc false h1
    subst this
    simp [h1]
  · by_cases h2 : (m, true) ∈ ops
    · right
      have := hc true h2
      subst this
      simp [h1, h2]
    · left; simp [h1, h2]

theorem map_applyOp_none (o : Option Member) : o.map (applyOp none) = o := by
  cases o <;> rfl

theorem map_flagOp_none (o : Option machine) : o.map (flagOp none) = o := by
  cases o <;> rfl

theorem setVotingSeq_spec (N : Nat) (ops : List (Nat × Bool)) (st : Vars) (hwf : WF N st)
    (hm : ∀ op ∈ ops, st.members op.1 ≠ none)
    (hc : ∀ m v v', (m, v) ∈ ops → (m, v') ∈ ops → v = v') :
    ∃ st', setVotingSeq ops st = some st' ∧ WF N st' ∧ st'.members = st.members ∧
      st'.heap.length = st.heap.length ∧ st'.changed = (st.changed || !ops.isEmpty) ∧
      (∀ k, memberAt st'.heap st'.members k =
        (memberAt st.heap st.members k).map (applyOp (opOf ops k))) ∧
      (∀ k, st'.machines[k]? = (st.machines[k]?).map (flagOp (opOf ops k))) ∧
      (∀ q, (∀ k, st.members k ≠ some q) → st'.heap[q]? = st.heap[q]?) := by
  induction ops generalizing st with
  | nil =>
    refine ⟨st, rfl, hwf, rfl, rfl, by simp, ?_, ?_, fun _ _ => rfl⟩
    · intro k; rw [opOf_nil, map_applyOp_none]
    · intro k; rw [opOf_nil, map_flagOp_none]
  | cons op rest ih =>
    obtain ⟨m, v⟩ := op
    have hmm : st.members m ≠ none := hm (m, v) (by simp)
    obtain ⟨p, hp⟩ := Option.ne_none_iff_exists'.1 hmm
    have hstep : setVoting st m v = some
        { st with
          heap := updateAt st.heap p (fun member => setMemberVoting member v)
          machines := updateAt st.machines m (fun x => { x with voting := v })
          changed := true } := by
      simp [setVoting, hp]
    have hwf1 : WF N { st with
          heap := updateAt st.heap p (fun member => setMemberVoting member v)
          machines := updateAt st.machines m (fun x => { x with voting := v })
          changed := true } :=
      ⟨by simp [length_updateAt, hwf.len],
       fun k q hk => by simpa [length_updateAt] using hwf.dom k q hk,
       fun k k' q hk hk' => hwf.inj k k' q hk hk'⟩
    obtain ⟨st', h1, h2, h3, h4, h5, h6, h7, h8⟩ := ih _ hwf1
      (fun op hop => hm op (List.mem_cons_of_mem _ hop))
      (fun a b c hb hc' => hc a b c (List.mem_cons_of_mem _ hb) (List.mem_cons_of_mem _ hc'))
    have hcm : ∀ v', (m, v') ∈ rest → v' = v := fun v' hv' =>
      hc m v' v (List.mem_cons_of_mem _ hv') (by simp)
    refine ⟨st', by simp [setVotingSeq, hstep, h1], h2, h3, by simpa [length_updateAt] using h4,
      by simpa using h5, ?_, ?_, ?_⟩
    · intro k
      rw [h6 k]
      simp only [memberAt_updateAt]
      by_cases hk : k = m
      · subst hk
        rw [opOf_cons_self rest k v hcm]
        simp only [hp, if_true, Option.map_map]
        rcases opOf_rest_self rest k v hcm with h | h
        · rw [h]; cases memberAt st.heap st.members k <;> simp [applyOp]
        · rw [h]; cases memberAt st.heap st.members k <;> simp [applyOp, setMemberVoting_idem]
      · have : st.members k ≠ some p := fun e => hk (hwf.inj k m p e hp)
        simp [this, opOf_cons_ne rest m k v hk]
    · intro k
      rw [h7 k]
      simp only [getElem?_updateAt]
      by_cases hk : k = m
      · subst hk
        rw [opOf_cons_self rest k v hcm]
        simp only [if_true, Option.map_map]
        rcases opOf_rest_self rest k v hcm with h | h
        · rw [h]; cases st.machines[k]? <;> simp [flagOp]
        · rw [h]; cases st.machines[k]? <;> simp [flagOp]
      · simp [hk, opOf_cons_ne rest m k v hk]
    · intro q hq
      rw [h8 q hq]
      simp only [getElem?_updateAt]
      have : q ≠ p := fun e => hq m (e ▸ hp)
      simp [this]

/-! ## The loop over `toKeep` -/

theorem memberAt_eq_none_iff (N : Nat) (st : Vars) (hwf : WF N st) (k : Nat) :
    memberAt st.heap st.members k = none ↔ st.members k = none := by
  unfold memberAt
  cases h : st.members k with
  | none => simp
  | some p =>
    have := (hwf.dom k p h).2
    simp [List.getElem?_eq_none_iff, this]

theorem idAt_updateAt (machines : List machine) (m k : Nat) (v : Bool) :
    idAt (updateAt machines m (fun x => { x with voting := v })) k = idAt machines k := by
  unfold idAt
  rw [getElem?_updateAt]
  by_cases h : k = m
  · subst h
    cases machines[k]? <;> simp
  · simp [h]

theorem updateAt_append_length (heap : List Member) (x : Member) (f : Member → Member) :
    updateAt (heap ++ [x]) heap.length f = heap ++ [f x] := by
  unfold updateAt
  simp

theorem keepLoop_spec (N : Nat) (l : List Nat) (st : Vars) (hwf : WF N st)
    (hl : ∀ m ∈ l, m < N) :
    ∃ st', keepLoop l st = some st' ∧ WF N st' ∧
      (∀ k, st'.members k = none ↔ (st.members k = none ∧ k ∉ l)) ∧
      (∀ k p, st.members k = some p → st'.members k = some p) ∧
      (∀ k, memberAt st'.heap st'.members k =
        if st.members k = none ∧ k ∈ l then some (adoptedMember st.machines k)
        else memberAt st.heap st.members k) ∧
      (st'.changed = true ↔ st.changed = true ∨ ∃ k ∈ l, st.members k = none) ∧
      (∀ k, st'.machines[k]? =
        if st.members k = none ∧ k ∈ l then (st.machines[k]?).map (flagOp (some false))
        else st.machines[k]?) ∧
      (∀ q, q < st.heap.length → st'.heap[q]? = st.heap[q]?) ∧
      st.heap.length ≤ st'.heap.length ∧
      ((∀ k ∈ l, st.members k ≠ none) → st' = st) ∧
      (∀ k p, st'.members k = some p → st.members k = some p ∨ st.heap.length ≤ p) := by
  induction l generalizing st with
  | nil =>
    refine ⟨st, rfl, hwf, by simp, fun _ _ h => h, by simp, by simp, by simp, fun _ _ => rfl,
      le_refl _, fun _ => rfl, fun _ _ h => Or.inl h⟩
  | cons m rest ih =>
    have hrest : ∀ x ∈ rest, x < N := fun x hx => hl x (List.mem_cons_of_mem _ hx)
    cases hmm : st.members m with
    | some p =>
      obtain ⟨st', h1, h2, h3, h4, h5, h6, h7, h8, h9, h10, h11⟩ := ih st hwf hrest
      refine ⟨st', by simp [keepLoop, hmm, h1], h2, ?_, h4, ?_, ?_, ?_, h8, h9, ?_, h11⟩
      · intro k
        rw [h3 k]
        by_cases hk : k = m
        · subst hk; simp [hmm]
        · simp [hk]
      · intro k
        rw [h5 k]
        by_cases hk : k = m
        · subst hk; simp [hmm]
        · simp [hk]
      · rw [h6]
        constructor
        · rintro (h | ⟨k, hk, hn⟩)
          · exact Or.inl h
          · exact Or.inr ⟨k, List.mem_cons_of_mem _ hk, hn⟩
        · rintro (h | ⟨k, hk, hn⟩)
          · exact Or.inl h
          · rcases List.mem_cons.1 hk with e | hk'
            · subst e; simp [hmm] at hn
            · exact Or.inr ⟨k, hk', hn⟩
      · intro k
        rw [h7 k]
        by_cases hk : k = m
        · subst hk; simp [hmm]
        · simp [hk]
      · intro hall
        exact h10 (fun k hk => hall k (List.mem_cons_of_mem _ hk))
    | none =>
      have hmN : m < N := hl m (by simp)
      let st2 : Vars :=
        { heap := st.heap ++ [adoptedMember st.machines m]
          machines := updateAt st.machines m (fun x => { x with voting := false })
          members := mapSet st.members m st.heap.length
          changed := true }
      have hstep : keepLoop (m :: rest) st = keepLoop rest st2 := by
        simp [keepLoop, hmm, setVoting, mapSet, updateAt_append_length, st2, adoptedMember]
      have hwf2 : WF N st2 := by
        refine ⟨by simp [st2, length_updateAt, hwf.len], ?_, ?_⟩
        · intro k p hk
          simp only [st2, mapSet] at hk
          by_cases hkm : k = m
          · subst hkm
            simp only [if_true, Option.some.injEq] at hk
            subst hk
            simp [st2, hmN]
          · simp only [hkm, if_false] at hk
            have := hwf.dom k p hk
            simp only [st2, List.length_append, List.length_singleton]
            omega
        · intro k k' p hk hk'
          simp only [st2, mapSet] at hk hk'
          by_cases hkm : k = m
          · by_cases hkm' : k' = m
            · rw [hkm, hkm']
            · simp only [hkm, if_true, Option.some.injEq] at hk
              simp only [hkm', if_false] at hk'
              have := (hwf.dom k' p hk').2
              omega
          · by_cases hkm' : k' = m
            · simp only [hkm', if_true, Option.some.injEq] at hk'
              simp only [hkm, if_false] at hk
              have := (hwf.dom k p hk).2
              omega
            · simp only [hkm, hkm', if_false] at hk hk'
              exact hwf.inj k k' p hk hk'
      have hview2 : ∀ k, memberAt st2.heap st2.members k =
          if k = m then some (adoptedMember st.machines m) else memberAt st.heap st.members k := by
        intro k
        simp only [memberAt, st2, mapSet]
        by_cases hkm : k = m
        · simp [hkm]
        · simp only [hkm, if_false]
          cases hk : st.members k with
          | none => rfl
          | some q =>
            have := (hwf.dom k q hk).2
            simp [List.getElem?_append_left this]
      obtain ⟨st', h1, h2, h3, h4, h5, h6, h7, h8, h9, _, h11⟩ := ih st2 hwf2 hrest
      refine ⟨st', by rw [hstep, h1], h2, ?_, ?_, ?_, ?_, ?_, ?_, ?_, ?_, ?_⟩
      · intro k
        rw [h3 k]
        simp only [st2, mapSet]
        by_cases hk : k = m
        · subst hk; simp
        · simp [hk]
      · intro k p hk
        apply h4
        simp only [st2, mapSet]
        have : k ≠ m := fun e => by rw [e, hmm] at hk; exact absurd hk (by simp)
        simpa [this] using hk
      · intro k
        rw [h5 k, hview2 k]
        by_cases hk : k = m
        · subst hk
          simp [st2, mapSet, hmm]
        · simp only [st2, mapSet, hk, if_false, List.mem_cons, false_or]
          by_cases hc : st.members k = none ∧ k ∈ rest
          · simp [hc, adoptedMember, idAt_updateAt]
          · simp [hc]
      · rw [h6]
        simp only [st2, true_or, true_iff]
        exact Or.inr ⟨m, by simp, hmm⟩
      · intro k
        rw [h7 k]
        simp only [st2, mapSet, getElem?_updateAt]
        by_cases hk : k = m
        · subst hk
          simp only [hmm, List.mem_cons, true_or, and_self, if_true]
          rfl
        · simp only [hk, if_false, List.mem_cons, false_or]
      · intro q hq
        rw [h8 q (by simp [st2]; omega)]
        simp [st2, List.getElem?_append_left hq]
      · have : st2.heap.length = st.heap.length + 1 := by simp [st2]
        omega
      · intro hall
        exact absurd hmm (hall m (by simp))
      · intro k p hk
        have hlen2 : st2.heap.length = st.heap.length + 1 := by simp [st2]
        rcases h11 k p hk with h | h
        · simp only [st2, mapSet] at h
          by_cases hkm : k = m
          · simp only [hkm, if_true, Option.some.injEq] at h
            exact Or.inr (by omega)
          · simp only [hkm, if_false] at h
            exact Or.inl h
        · exact Or.inr (by omega)

/-! ## The address loop -/

theorem set_eq_updateAt {α : Type} (l : List α) (p : Nat) (a : α) (f : α → α)
    (h : l[p]? = some a) : l.set p (f a) = updateAt l p f := by
  simp [updateAt, h]

theorem refreshAddr_of_empty (rt : Runtime) (mongoPort : Int) (m : machine) (member : Member)
    (h : rt.selectInternalAddress m.addresses = "") :
    refreshAddr rt mongoPort m member = member := by
  simp [refreshAddr, h]

theorem addressLoop_spec (rt : Runtime) (mongoPort : Int) (N : Nat) (ms : List machine)
    (k : Nat) (st : Vars) (hwf : WF N st) :
    (addressLoop rt mongoPort ms k st = none ↔
      ∃ i m, ms[i]? = some m ∧ rt.selectInternalAddress m.addresses ≠ "" ∧
        st.members (k + i) = none) ∧
    ∀ st', addressLoop rt mongoPort ms k st = some st' →
      WF N st' ∧ st'.members = st.members ∧ st'.machines = st.machines ∧
      st'.heap.length = st.heap.length ∧
      (∀ i m, ms[i]? = some m → memberAt st'.heap st'.members (k + i) =
        (memberAt st.heap st.members (k + i)).map (refreshAddr rt mongoPort m)) ∧
      (∀ j, (j < k ∨ k + ms.length ≤ j) →
        memberAt st'.heap st'.members j = memberAt st.heap st.members j) ∧
      (st'.changed = true ↔ st.changed = true ∨
        ∃ i m member, ms[i]? = some m ∧ memberAt st.heap st.members (k + i) = some member ∧
          needsRefresh rt mongoPort m member) ∧
      (∀ q, (∀ j, st.members j ≠ some q) → st'.heap[q]? = st.heap[q]?) ∧
      ((¬ ∃ i m member, ms[i]? = some m ∧ memberAt st.heap st.members (k + i) = some member ∧
          needsRefresh rt mongoPort m member) → st' = st) := by
  induction ms generalizing k st with
  | nil =>
    refine ⟨by simp [addressLoop], ?_⟩
    intro st' h
    simp only [addressLoop, Option.some.injEq] at h
    subst h
    refine ⟨hwf, rfl, rfl, rfl, by simp, fun _ _ => rfl, by simp, fun _ _ => rfl, fun _ => rfl⟩
  | cons m rest ih =>
    -- the state after the first machine, and what it did
    have hone : ∃ st1, WF N st1 ∧ st1.members = st.members ∧ st1.machines = st.machines ∧
        st1.heap.length = st.heap.length ∧
        (rt.selectInternalAddress m.addresses ≠ "" ∧ st.members k = none →
          addressLoop rt mongoPort (m :: rest) k st = none) ∧
        (¬ (rt.selectInternalAddress m.addresses ≠ "" ∧ st.members k = none) →
          addressLoop rt mongoPort (m :: rest) k st = addressLoop rt mongoPort rest (k + 1) st1) ∧
        (∀ j, memberAt st1.heap st1.members j =
          if j = k then (memberAt st.heap st.members j).map (refreshAddr rt mongoPort m)
          else memberAt st.heap st.members j) ∧
        (st1.changed = true ↔ st.changed = true ∨
          ∃ member, memberAt st.heap st.members k = some member ∧
            needsRefresh rt mongoPort m member) ∧
        (∀ q, (∀ j, st.members j ≠ some q) → st1.heap[q]? = st.heap[q]?) ∧
        ((¬ ∃ member, memberAt st.heap st.members k = some member ∧
            needsRefresh rt mongoPort m member) → st1 = st) := by
      by_cases haddr : rt.selectInternalAddress m.addresses = ""
      · refine ⟨st, hwf, rfl, rfl, rfl, fun h => absurd haddr h.1,
          fun _ => by simp [addressLoop, haddr], ?_, ?_, fun _ _ => rfl, fun _ => rfl⟩
        · intro j
          by_cases hj : j = k
          · subst hj
            cases h : memberAt st.heap st.members j <;> simp [refreshAddr_of_empty, haddr]
          · simp [hj]
        · simp [needsRefresh, haddr]
      · cases hmk : st.members k with
        | none =>
          refine ⟨st, hwf, rfl, rfl, rfl, fun _ => by simp [addressLoop, haddr, memberAt, hmk],
            fun h => absurd ⟨haddr, rfl⟩ h, ?_, ?_, fun _ _ => rfl, fun _ => rfl⟩
          · intro j
            by_cases hj : j = k
            · subst hj; simp [memberAt, hmk]
            · simp [hj]
          · simp [memberAt, hmk]
        | some p =>
          have hp := (hwf.dom k p hmk).2
          have hview : memberAt st.heap st.members k = some st.heap[p] := by
            simp [memberAt, hmk, List.getElem?_eq_getElem hp]
          by_cases hne : composedAddr (rt.selectInternalAddress m.addresses) mongoPort ≠
              st.heap[p].Address
          · refine ⟨{ st with
                heap := updateAt st.heap p (fun member =>
                  { member with
                    Address := composedAddr (rt.selectInternalAddress m.addresses) mongoPort })
                changed := true }, ?_, rfl, rfl, by simp [length_updateAt],
              fun h => by simp [hmk] at h, ?_, ?_, ?_, ?_, ?_⟩
            · exact ⟨hwf.len, fun j q hj => by simpa [length_updateAt] using hwf.dom j q hj,
                hwf.inj⟩
            · intro _
              rw [← set_eq_updateAt st.heap p st.heap[p] _ (List.getElem?_eq_getElem hp)]
              simp [addressLoop, haddr, hview, hmk, hne]
            · intro j
              simp only [memberAt_updateAt]
              by_cases hj : j = k
              · subst hj
                simp only [hmk, if_true, hview, Option.map_some']
                simp [refreshAddr, haddr, hne]
              · have : st.members j ≠ some p := fun e => hj (hwf.inj j k p e hmk)
                simp [this, hj]
            · simp only [true_iff]
              exact Or.inr ⟨st.heap[p], hview, haddr, hne⟩
            · intro q hq
              simp only [getElem?_updateAt]
              have : q ≠ p := fun e => hq k (e ▸ hmk)
              simp [this]
            · intro h
              exact absurd ⟨st.heap[p], hview, haddr, hne⟩ h
          · have hne' : composedAddr (rt.selectInternalAddress m.addresses) mongoPort =
                st.heap[p].Address := not_not.1 hne
            refine ⟨st, hwf, rfl, rfl, rfl, fun h => by simp [hmk] at h, ?_, ?_, ?_,
              fun _ _ => rfl, fun _ => rfl⟩
            · intro _
              simp [addressLoop, haddr, hview, hmk, hne']
            · intro j
              by_cases hj : j = k
              · subst hj
                simp only [if_true, hview, Option.map_some']
                simp [refreshAddr, haddr, hne']
              · simp [hj]
            · constructor
              · exact fun h => Or.inl h
              · rintro (h | ⟨member, hm1, hm2⟩)
                · exact h
                · rw [hview] at hm1
                  simp only [Option.some.injEq] at hm1
                  subst hm1
                  exact absurd hne' hm2.2
    obtain ⟨st1, hwf1, hmem1, hmach1, hlen1, hnone1, hstep1, hview1, hch1, hfr1, hsame1⟩ := hone
    obtain ⟨ihN, ihS⟩ := ih (k + 1) st1 hwf1
    constructor
    · constructor
      · intro h
        by_cases hc : rt.selectInternalAddress m.addresses ≠ "" ∧ st.members k = none
        · exact ⟨0, m, by simp, hc.1, by simpa using hc.2⟩
        · rw [hstep1 hc] at h
          obtain ⟨i, m', h1, h2, h3⟩ := ihN.1 h
          refine ⟨i + 1, m', by simpa using h1, h2, ?_⟩
          rw [hmem1] at h3
          rw [← h3]
          congr 1
          omega
      · rintro ⟨i, m', h1, h2, h3⟩
        by_cases hc : rt.selectInternalAddress m.addresses ≠ "" ∧ st.members k = none
        · exact hnone1 hc
        · rw [hstep1 hc]
          apply ihN.2
          cases i with
          | zero =>
            simp only [List.getElem?_cons_zero, Option.some.injEq] at h1
            subst h1
            exact absurd ⟨h2, by simpa using h3⟩ hc
          | succ i =>
            refine ⟨i, m', by simpa using h1, h2, ?_⟩
            rw [hmem1, ← h3]
            congr 1
            omega
    · intro st' hst'
      by_cases hc : rt.selectInternalAddress m.addresses ≠ "" ∧ st.members k = none
      · rw [hnone1 hc] at hst'
        exact absurd hst' (by simp)
      · rw [hstep1 hc] at hst'
        obtain ⟨g1, g2, g3, g4, g5, g6, g7, g8, g9⟩ := ihS st' hst'
        refine ⟨g1, by rw [g2, hmem1], by rw [g3, hmach1], by rw [g4, hlen1], ?_, ?_, ?_, ?_, ?_⟩
        · intro i m' hi
          cases i with
          | zero =>
            simp only [List.getElem?_cons_zero, Option.some.injEq] at hi
            subst hi
            rw [g6 (k + 0) (Or.inl (by omega)), hview1]
            simp
          | succ i =>
            have hi' : rest[i]? = some m' := by simpa using hi
            have e : k + (i + 1) = k + 1 + i := by omega
            rw [e, g5 i m' hi', hview1]
            have : k + 1 + i ≠ k := by omega
            simp [this]
        · intro j hj
          have hj' : j < k + 1 ∨ k + 1 + rest.length ≤ j := by
            rcases hj with h | h
            · exact Or.inl (by omega)
            · exact Or.inr (by simp only [List.length_cons] at h; omega)
          have hjk : j ≠ k := by
            rcases hj with h | h
            · omega
            · simp only [List.length_cons] at h; omega
          by_cases hlt : j < k + 1
          · rw [g6 j (Or.inl hlt), hview1]
            simp [hjk]
          · rw [g6 j (Or.inr (by omega)), hview1]
            simp [hjk]
        · rw [g7, hch1]
          constructor
          · rintro ((h | ⟨member, hm1, hm2⟩) | ⟨i, m', member, h1, h2, h3⟩)
            · exact Or.inl h
            · exact Or.inr ⟨0, m, member, by simp, by simpa using hm1, hm2⟩
            · refine Or.inr ⟨i + 1, m', member, by simpa using h1, ?_, h3⟩
              have e : k + (i + 1) = k + 1 + i := by omega
              rw [e, ← h2, hview1]
              have : k + 1 + i ≠ k := by omega
              simp [this]
          · rintro (h | ⟨i, m', member, h1, h2, h3⟩)
            · exact Or.inl (Or.inl h)
            · cases i with
              | zero =>
                simp only [List.getElem?_cons_zero, Option.some.injEq] at h1
                subst h1
                exact Or.inl (Or.inr ⟨member, by simpa using h2, h3⟩)
              | succ i =>
                refine Or.inr ⟨i, m', member, by simpa using h1, ?_, h3⟩
                have e : k + (i + 1) = k + 1 + i := by omega
                rw [hview1, ← e]
                have : k + (i + 1) ≠ k := by omega
                simp [this, h2]
        · intro q hq
          rw [g8 q (by rw [hmem1]; exact hq), hfr1 q hq]
        · intro hno
          have h1 : st1 = st := hsame1 (fun ⟨member, hm1, hm2⟩ =>
            hno ⟨0, m, member, by simp, by simpa using hm1, hm2⟩)
          rw [g9, h1]
          rintro ⟨i, m', member, h2, h3, h4⟩
          rw [h1] at h3
          exact hno ⟨i + 1, m', member, by simpa using h2,
            by rw [← h3]; congr 1; omega, h4⟩

/-! ## The classification loop -/

theorem mem_positionsWhere (ms : List machine) (k : Nat) (test : machine → Nat → Bool) (x : Nat) :
    x ∈ positionsWhere ms k test ↔ ∃ i m, ms[i]? = some m ∧ x = k + i ∧ test m x = true := by
  induction ms generalizing k with
  | nil => simp [positionsWhere]
  | cons a rest ih =>
    have hcons : positionsWhere (a :: rest) k test =
        (if test a k then [k] else []) ++ positionsWhere rest (k + 1) test := by
      simp only [positionsWhere, List.enumFrom_cons, List.filter_cons]
      by_cases h : test a k = true <;> simp [h]
    rw [hcons, List.mem_append, ih]
    constructor
    · rintro (h | ⟨i, m, h1, h2, h3⟩)
      · by_cases ht : test a k = true
        · simp only [ht, if_true, List.mem_singleton] at h
          subst h
          exact ⟨0, a, by simp, by simp, ht⟩
        · simp [ht] at h
      · exact ⟨i + 1, m, by simpa using h1, by omega, h3⟩
    · rintro ⟨i, m, h1, h2, h3⟩
      cases i with
      | zero =>
        simp only [List.getElem?_cons_zero, Option.some.injEq] at h1
        subst h1
        have : x = k := by omega
        subst this
        left
        simp [h3]
      | succ i => exact Or.inr ⟨i, m, by simpa using h1, by omega, h3⟩

theorem positionsWhere_lt (ms : List machine) (k : Nat) (test : machine → Nat → Bool) (x : Nat)
    (h : x ∈ positionsWhere ms k test) : k ≤ x ∧ x < k + ms.length := by
  obtain ⟨i, m, h1, h2, _⟩ := (mem_positionsWhere ms k test x).1 h
  have := (List.getElem?_eq_some_iff.1 h1).1
  omega

theorem positionsWhere_nodup (ms : List machine) (k : Nat) (test : machine → Nat → Bool) :
    (positionsWhere ms k test).Nodup := by
  induction ms generalizing k with
  | nil => simp [positionsWhere]
  | cons a rest ih =>
    have hcons : positionsWhere (a :: rest) k test =
        (if test a k then [k] else []) ++ positionsWhere rest (k + 1) test := by
      simp only [positionsWhere, List.enumFrom_cons, List.filter_cons]
      by_cases h : test a k = true <;> simp [h]
    rw [hcons]
    by_cases h : test a k = true
    · simp only [h, if_true, List.singleton_append, List.nodup_cons]
      refine ⟨fun hk => ?_, ih (k + 1)⟩
      have := (positionsWhere_lt rest (k + 1) test k hk).1
      omega
    · simpa [h] using ih (k + 1)

theorem classifyLoop_buckets (heap : List Member) (members : MemberMap) (statuses : StatusMap)
    (ms : List machine) (k : Nat) (b : Buckets) :
    (classifyLoop heap members statuses ms k b).2 =
      ⟨b.toRemoveVote ++ positionsWhere ms k (inRemoveVote heap members),
       b.toAddVote ++ positionsWhere ms k (inAddVote heap members statuses),
       b.toKeep ++ positionsWhere ms k (inKeep heap members)⟩ := by
  induction ms generalizing k b with
  | nil => simp [classifyLoop, positionsWhere]
  | cons a rest ih =>
    have hcons : ∀ test : machine → Nat → Bool, positionsWhere (a :: rest) k test =
        (if test a k then [k] else []) ++ positionsWhere rest (k + 1) test := by
      intro test
      simp only [positionsWhere, List.enumFrom_cons, List.filter_cons]
      by_cases h : test a k = true <;> simp [h]
    simp only [classifyLoop, ih, hcons]
    cases hc : a.candidate <;> cases hv : isVotingAt heap members k <;>
      cases hr : readyAt statuses k <;>
      simp [classifyOne, inRemoveVote, inAddVote, inKeep, hc, hv, hr]

theorem classifyLoop_machines (heap : List Member) (members : MemberMap) (statuses : StatusMap)
    (ms : List machine) (k : Nat) (b : Buckets) (i : Nat) :
    (classifyLoop heap members statuses ms k b).1[i]? =
      (ms[i]?).map (fun m => { m with voting := isVotingAt heap members (k + i) }) := by
  induction ms generalizing k b i with
  | nil => simp [classifyLoop]
  | cons a rest ih =>
    simp only [classifyLoop]
    cases i with
    | zero => simp
    | succ i =>
      simp only [List.getElem?_cons_succ, ih]
      have : k + 1 + i = k + (i + 1) := by omega
      rw [this]

theorem classifyLoop_length (heap : List Member) (members : MemberMap) (statuses : StatusMap)
    (ms : List machine) (k : Nat) (b : Buckets) :
    (classifyLoop heap members statuses ms k b).1.length = ms.length := by
  induction ms generalizing k b with
  | nil => simp [classifyLoop]
  | cons a rest ih => simp [classifyLoop, ih]

/-! ## The status index -/

theorem mem_statusMatches (n : Nat) (heap : List Member) (members : MemberMap) (status : Status)
    (k : Nat) :
    k ∈ statusMatches n heap members status ↔
      k < n ∧ ∃ member, memberAt heap members k = some member ∧ member.Id = status.Id := by
  unfold statusMatches mapKeys
  simp only [List.mem_filter, List.mem_range]
  constructor
  · rintro ⟨⟨h1, _⟩, h3⟩
    cases hm : memberAt heap members k with
    | none => simp [hm] at h3
    | some member =>
      simp only [hm, decide_eq_true_eq] at h3
      exact ⟨h1, member, rfl, h3⟩
  · rintro ⟨h1, member, h2, h3⟩
    refine ⟨⟨h1, ?_⟩, by simp [h2, h3]⟩
    unfold memberAt at h2
    cases hk : members k with
    | none => simp [hk] at h2
    | some p => simp

theorem statusesMapLoop_some (pick : Nat → Nat) (n : Nat) (heap : List Member)
    (members : MemberMap) (l : List Status) (j : Nat) (acc : StatusMap) (k : Nat) (s : Status)
    (h : statusesMapLoop pick n heap members l j acc k = some s) :
    acc k = some s ∨
      (s ∈ l ∧ k < n ∧ ∃ member, memberAt heap members k = some member ∧ member.Id = s.Id) := by
  induction l generalizing j acc with
  | nil => exact Or.inl h
  | cons status rest ih =>
    unfold statusesMapLoop at h
    simp only [] at h
    cases hm : (statusMatches n heap members status)[pick j %
        (statusMatches n heap members status).length]? with
    | some m =>
      rw [hm] at h
      rcases ih _ _ h with h' | ⟨h1, h2⟩
      · simp only [mapSet] at h'
        by_cases hk : k = m
        · simp only [hk, if_true, Option.some.injEq] at h'
          subst h'
          right
          have hmem := List.getElem?_mem hm
          rw [mem_statusMatches] at hmem
          exact ⟨by simp, hk ▸ hmem⟩
        · simp only [hk, if_false] at h'
          exact Or.inl h'
      · exact Or.inr ⟨List.mem_cons_of_mem _ h1, h2⟩
    | none =>
      rw [hm] at h
      rcases ih _ _ h with h' | ⟨h1, h2⟩
      · exact Or.inl h'
      · exact Or.inr ⟨List.mem_cons_of_mem _ h1, h2⟩

theorem statusesMap_some (pick : Nat → Nat) (info : peerGroupInfo) (members : MemberMap)
    (k : Nat) (s : Status) (h : statusesMap pick info members k = some s) :
    s ∈ info.statuses ∧ k < info.machines.length ∧
      ∃ member, memberAt info.members members k = some member ∧ member.Id = s.Id := by
  rcases statusesMapLoop_some pick _ _ members _ 0 _ k s h with h' | h'
  · simp at h'
  · exact h'

/-! ## The member index, continued -/

theorem findMachine_eq_some (mid : String) (l : List machine) (k : Nat) (found : Option Nat)
    (j : Nat) (h : findMachine mid l k found = some j) :
    found = some j ∨ ∃ i m, l[i]? = some m ∧ j = k + i ∧ m.id = mid := by
  induction l generalizing k found with
  | nil => exact Or.inl h
  | cons a rest ih =>
    simp only [findMachine] at h
    rcases ih _ _ h with h' | ⟨i, m, h1, h2, h3⟩
    · by_cases ha : a.id = mid
      · simp only [ha, if_true, Option.some.injEq] at h'
        exact Or.inr ⟨0, a, by simp, by omega, ha⟩
      · simp only [ha, if_false] at h'
        exact Or.inl h'
    · exact Or.inr ⟨i + 1, m, by simpa using h1, by omega, h3⟩

theorem foundFor_eq_some (machines : List machine) (member : Member) (k : Nat)
    (h : foundFor machines member = some k) :
    ∃ m, machines[k]? = some m ∧ member.Tags.lookup machineIdTag = some m.id := by
  unfold foundFor at h
  cases ht : member.Tags.lookup machineIdTag with
  | none => simp [ht] at h
  | some mid =>
    simp only [ht] at h
    rcases findMachine_eq_some mid machines 0 none k h with h' | ⟨i, m, h1, h2, h3⟩
    · simp at h'
    · have : k = i := by omega
      subst this
      exact ⟨m, h1, by rw [h3]⟩

theorem membersMapLoop_some (machines : List machine) (l pre : List Member)
    (acc : MemberMap × List Member)
    (hacc : ∀ k p, acc.1 k = some p →
      ∃ member, pre[p]? = some member ∧ foundFor machines member = some k)
    (k p : Nat) (h : (membersMapLoop machines l pre.length acc).1 k = some p) :
    ∃ member, (pre ++ l)[p]? = some member ∧ foundFor machines member = some k := by
  induction l generalizing pre acc with
  | nil => simpa using hacc k p h
  | cons a rest ih =>
    have hlen : (pre ++ [a]).length = pre.length + 1 := by simp
    have happ : pre ++ a :: rest = (pre ++ [a]) ++ rest := by simp
    rw [happ]
    simp only [membersMapLoop] at h
    cases hf : foundFor machines a with
    | none =>
      simp only [hf] at h
      rw [← hlen] at h
      refine ih (pre ++ [a]) _ ?_ h
      intro k' p' hk'
      obtain ⟨member, h1, h2⟩ := hacc k' p' hk'
      have := (List.getElem?_eq_some_iff.1 h1).1
      exact ⟨member, by rw [List.getElem?_append_left this]; exact h1, h2⟩
    | some m =>
      simp only [hf] at h
      rw [← hlen] at h
      refine ih (pre ++ [a]) _ ?_ h
      intro k' p' hk'
      simp only [mapSet] at hk'
      by_cases hkm : k' = m
      · simp only [hkm, if_true, Option.some.injEq] at hk'
        subst hk'
        exact ⟨a, by simp, by rw [hkm]; exact hf⟩
      · simp only [hkm, if_false] at hk'
        obtain ⟨member, h1, h2⟩ := hacc k' p' hk'
        have := (List.getElem?_eq_some_iff.1 h1).1
        exact ⟨member, by rw [List.getElem?_append_left this]; exact h1, h2⟩

theorem membersMap_some (info : peerGroupInfo) (k p : Nat) (h : (membersMap info).1 k = some p) :
    ∃ member, info.members[p]? = some member ∧ foundFor info.machines member = some k := by
  have := membersMapLoop_some info.machines info.members [] (fun _ => none, [])
    (by simp) k p h
  simpa using this

theorem membersMap_wf (info : peerGroupInfo) (c : Bool) :
    WF info.machines.length ⟨info.machines, info.members, (membersMap info).1, c⟩ := by
  refine ⟨rfl, ?_, ?_⟩
  · intro k p h
    obtain ⟨member, h1, h2⟩ := membersMap_some info k p h
    obtain ⟨m, h3, _⟩ := foundFor_eq_some _ _ _ h2
    exact ⟨(List.getElem?_eq_some_iff.1 h3).1, (List.getElem?_eq_some_iff.1 h1).1⟩
  · intro k k' p h h'
    obtain ⟨member, h1, h2⟩ := membersMap_some info k p h
    obtain ⟨member', h1', h2'⟩ := membersMap_some info k' p h'
    rw [h1] at h1'
    simp only [Option.some.injEq] at h1'
    subst h1'
    rw [h2] at h2'
    simpa using h2'

theorem boundMember_tag (info : peerGroupInfo) (k : Nat) (member : Member)
    (h : boundMember info k = some member) :
    member ∈ info.members ∧
      ∃ m, info.machines[k]? = some m ∧ member.Tags.lookup machineIdTag = some m.id := by
  unfold boundMember memberAt at h
  cases hk : (membersMap info).1 k with
  | none => simp [hk] at h
  | some p =>
    simp only [hk] at h
    obtain ⟨member', h1, h2⟩ := membersMap_some info k p hk
    rw [h] at h1
    simp only [Option.some.injEq] at h1
    subst h1
    exact ⟨List.getElem?_mem h, foundFor_eq_some _ _ _ h2⟩

/-! ## The vote plan -/

theorem mem_swapOps (rs as : List Nat) (m : Nat) (v : Bool) (h : (m, v) ∈ swapOps rs as) :
    (v = false ∧ m ∈ rs) ∨ (v = true ∧ m ∈ as) := by
  induction rs generalizing as with
  | nil => cases as <;> simp [swapOps] at h
  | cons r rs ih =>
    cases as with
    | nil => simp [swapOps] at h
    | cons a as =>
      simp only [swapOps, List.mem_cons, Prod.mk.injEq] at h
      rcases h with ⟨h1, h2⟩ | ⟨h1, h2⟩ | h
      · exact Or.inl ⟨h2, by simp [h1]⟩
      · exact Or.inr ⟨h2, by simp [h1]⟩
      · rcases ih as h with ⟨h1, h2⟩ | ⟨h1, h2⟩
        · exact Or.inl ⟨h1, List.mem_cons_of_mem _ h2⟩
        · exact Or.inr ⟨h1, List.mem_cons_of_mem _ h2⟩

theorem mem_padOps (rs as : List Nat) (m : Nat) (v : Bool) (h : (m, v) ∈ padOps rs as) :
    (v = false ∧ m ∈ rs) ∨ (v = true ∧ m ∈ as) := by
  unfold padOps at h
  split at h
  · simp only [List.mem_map, Prod.mk.injEq] at h
    obtain ⟨x, hx, h1, h2⟩ := h
    exact Or.inr ⟨h2.symm, h1 ▸ List.mem_of_mem_take hx⟩
  · simp only [List.mem_map, Prod.mk.injEq] at h
    obtain ⟨x, hx, h1, h2⟩ := h
    exact Or.inl ⟨h2.symm, h1 ▸ List.mem_of_mem_take hx⟩

theorem mem_voteOps (rs as : List Nat) (m : Nat) (v : Bool) (h : (m, v) ∈ voteOps rs as) :
    (v = false ∧ m ∈ rs) ∨ (v = true ∧ m ∈ as) := by
  unfold voteOps at h
  rcases List.mem_append.1 h with h | h
  · exact mem_swapOps rs as m v h
  · rcases mem_padOps _ _ m v h with ⟨h1, h2⟩ | ⟨h1, h2⟩
    · exact Or.inl ⟨h1, List.mem_of_mem_drop h2⟩
    · exact Or.inr ⟨h1, List.mem_of_mem_drop h2⟩

theorem setVotingSeq_padOps (rs as : List Nat) (st : Vars) :
    setVotingSeq (padOps rs as) st =
      if as.length > 0 then setVotingLoop true (as.take (as.length - as.length % 2)) st
      else setVotingLoop false (rs.take (rs.length - rs.length % 2)) st := by
  unfold padOps
  split <;> rw [setVotingLoop_eq_seq]

theorem idAt_congr_sort (ms ms' : List machine) (h : ∀ k, idAt ms k = idAt ms' k) (l : List Nat) :
    sortById ms l = sortById ms' l := by
  have hins : ∀ (a : Nat) (l : List Nat), List.orderedInsert (byIdOrder ms) a l =
      List.orderedInsert (byIdOrder ms') a l := by
    intro a l
    induction l with
    | nil => rfl
    | cons b rest ih =>
      simp only [List.orderedInsert, byIdOrder, h, ih]
  unfold sortById
  induction l with
  | nil => rfl
  | cons a rest ih => simp only [List.insertionSort, ih, hins]

theorem mem_sortById (ms : List machine) (l : List Nat) (x : Nat) :
    x ∈ sortById ms l ↔ x ∈ l :=
  (List.perm_insertionSort (byIdOrder ms) l).mem_iff

theorem isVotingAt_some (heap : List Member) (members : MemberMap) (k : Nat)
    (h : isVotingAt heap members k = true) : members k ≠ none := by
  intro hn
  simp [isVotingAt, memberAt, hn] at h

theorem mem_sortedRemove (info : peerGroupInfo) (k : Nat) :
    k ∈ sortedRemove info ↔ ∃ m, info.machines[k]? = some m ∧ m.candidate = false ∧
      isVotingAt info.members (membersMap info).1 k = true := by
  unfold sortedRemove
  rw [mem_sortById, mem_positionsWhere]
  constructor
  · rintro ⟨i, m, h1, h2, h3⟩
    have : k = i := by omega
    subst this
    exact ⟨m, h1, by simpa [inRemoveVote] using h3⟩
  · rintro ⟨m, h1, h2⟩
    exact ⟨k, m, h1, by omega, by simpa [inRemoveVote] using h2⟩

theorem mem_sortedAdd (rt : Runtime) (info : peerGroupInfo) (k : Nat) :
    k ∈ sortedAdd rt info ↔ ∃ m, info.machines[k]? = some m ∧ m.candidate = true ∧
      isVotingAt info.members (membersMap info).1 k = false ∧
      readyAt (statusIndex rt info) k = true := by
  unfold sortedAdd
  rw [mem_sortById, mem_positionsWhere]
  constructor
  · rintro ⟨i, m, h1, h2, h3⟩
    have : k = i := by omega
    subst this
    exact ⟨m, h1, by simpa [inAddVote, and_assoc] using h3⟩
  · rintro ⟨m, h1, h2⟩
    exact ⟨k, m, h1, by omega, by simpa [inAddVote, and_assoc] using h2⟩

theorem mem_keepList (info : peerGroupInfo) (k : Nat) :
    k ∈ keepList info ↔ ∃ m, info.machines[k]? = some m ∧
      (m.candidate = isVotingAt info.members (membersMap info).1 k) := by
  have key : ∀ (c v : Bool), ((c && v) || (!c && !v)) = true ↔ c = v := by decide
  unfold keepList
  rw [mem_positionsWhere]
  constructor
  · rintro ⟨i, m, h1, h2, h3⟩
    have : k = i := by omega
    subst this
    exact ⟨m, h1, (key _ _).1 h3⟩
  · rintro ⟨m, h1, h2⟩
    exact ⟨k, m, h1, by omega, (key _ _).2 h2⟩

theorem readyAt_some (rt : Runtime) (info : peerGroupInfo) (k : Nat)
    (h : readyAt (statusIndex rt info) k = true) : (membersMap info).1 k ≠ none := by
  unfold readyAt at h
  cases hs : statusIndex rt info k with
  | none => simp [hs] at h
  | some s =>
    obtain ⟨_, _, member, h1, _⟩ := statusesMap_some rt.pick info _ k s hs
    intro hn
    simp [memberAt, hn] at h1

theorem votePlan_target (rt : Runtime) (info : peerGroupInfo) (m : Nat) (v : Bool)
    (h : (m, v) ∈ votePlan rt info) :
    (membersMap info).1 m ≠ none ∧ m < info.machines.length ∧
      isVotingAt info.members (membersMap info).1 m = !v := by
  rcases mem_voteOps _ _ m v h with ⟨h1, h2⟩ | ⟨h1, h2⟩
  · obtain ⟨x, hx, _, hv⟩ := (mem_sortedRemove info m).1 h2
    exact ⟨isVotingAt_some _ _ _ hv, (List.getElem?_eq_some_iff.1 hx).1, by simp [h1, hv]⟩
  · obtain ⟨x, hx, _, hv, hr⟩ := (mem_sortedAdd rt info m).1 h2
    exact ⟨readyAt_some rt info m hr, (List.getElem?_eq_some_iff.1 hx).1, by simp [h1, hv]⟩

theorem votePlan_consistent (rt : Runtime) (info : peerGroupInfo) (m : Nat) (v v' : Bool)
    (h : (m, v) ∈ votePlan rt info) (h' : (m, v') ∈ votePlan rt info) : v = v' := by
  have h1 := (votePlan_target rt info m v h).2.2
  have h2 := (votePlan_target rt info m v' h').2.2
  rw [h1] at h2
  cases v <;> cases v' <;> simp at h2 ⊢

/-! ## The whole run after the loop over the extra members -/

theorem classified_buckets (rt : Runtime) (info : peerGroupInfo) :
    (classifyLoop info.members (membersMap info).1 (statusIndex rt info) info.machines 0
      ⟨[], [], []⟩).2 =
      ⟨positionsWhere info.machines 0 (inRemoveVote info.members (membersMap info).1),
       positionsWhere info.machines 0
        (inAddVote info.members (membersMap info).1 (statusIndex rt info)),
       keepList info⟩ := by
  rw [classifyLoop_buckets]
  simp [keepList]

theorem classified_idAt (rt : Runtime) (info : peerGroupInfo) (k : Nat) :
    idAt (classifyLoop info.members (membersMap info).1 (statusIndex rt info) info.machines 0
      ⟨[], [], []⟩).1 k = idAt info.machines k := by
  unfold idAt
  rw [classifyLoop_machines]
  cases info.machines[k]? <;> simp

theorem seq_append_some (a b : List (Nat × Bool)) (st st3 : Vars)
    (h : setVotingSeq (a ++ b) st = some st3) :
    ∃ st2, setVotingSeq a st = some st2 ∧ setVotingSeq b st2 = some st3 := by
  rw [setVotingSeq_append] at h
  cases h2 : setVotingSeq a st with
  | none => simp [h2] at h
  | some st2 => exact ⟨st2, rfl, by simpa [h2] using h⟩

theorem planVotes_unfold (rt : Runtime) (info : peerGroupInfo) (c : Bool) (st3 : Vars)
    (h : setVotingSeq (votePlan rt info)
      ⟨(classifyLoop info.members (membersMap info).1 (statusIndex rt info) info.machines 0
        ⟨[], [], []⟩).1, info.members, (membersMap info).1, c⟩ = some st3) :
    planVotes rt info ⟨info.machines, info.members, (membersMap info).1, c⟩ =
      match keepLoop (keepList info) st3 with
      | none => none
      | some st4 =>
        match addressLoop rt info.mongoPort st4.machines 0 st4 with
        | none => none
        | some st5 =>
          if !st5.changed then some (⟨none, none⟩, st5)
          else some (⟨memberSet rt.order st5, none⟩, st5) := by
  obtain ⟨st2, h2, h3⟩ := seq_append_some _ _ _ _ h
  rw [← swapLoop_eq_seq] at h2
  rw [setVotingSeq_padOps] at h3
  have hR : sortById (classifyLoop info.members (membersMap info).1
      (statusesMap rt.pick info (membersMap info).1) info.machines 0 ⟨[], [], []⟩).1
      (classifyLoop info.members (membersMap info).1
      (statusesMap rt.pick info (membersMap info).1) info.machines 0 ⟨[], [], []⟩).2.toRemoveVote =
      sortedRemove info := by
    have e1 := idAt_congr_sort _ _ (classified_idAt rt info)
    have e2 := classified_buckets rt info
    unfold statusIndex at e1 e2
    rw [e1, e2]
    rfl
  have hA : sortById (classifyLoop info.members (membersMap info).1
      (statusesMap rt.pick info (membersMap info).1) info.machines 0 ⟨[], [], []⟩).1
      (classifyLoop info.members (membersMap info).1
      (statusesMap rt.pick info (membersMap info).1) info.machines 0 ⟨[], [], []⟩).2.toAddVote =
      sortedAdd rt info := by
    have e1 := idAt_congr_sort _ _ (classified_idAt rt info)
    have e2 := classified_buckets rt info
    unfold statusIndex at e1 e2
    rw [e1, e2]
    rfl
  have hK : (classifyLoop info.members (membersMap info).1
      (statusesMap rt.pick info (membersMap info).1) info.machines 0 ⟨[], [], []⟩).2.toKeep =
      keepList info := by
    have e2 := classified_buckets rt info
    unfold statusIndex at e2
    rw [e2]
  unfold planVotes
  simp only []
  rw [hR, hA, hK]
  have h2' : swapLoop (sortedRemove info) (sortedAdd rt info)
      ⟨(classifyLoop info.members (membersMap info).1
        (statusesMap rt.pick info (membersMap info).1) info.machines 0 ⟨[], [], []⟩).1,
        info.members, (membersMap info).1, c⟩ = some st2 := h2
  rw [h2']
  simp only []
  rw [h3]

theorem planned_eq_none_iff (rt : Runtime) (info : peerGroupInfo) (k : Nat) :
    plannedMember rt info k = none ↔ (membersMap info).1 k = none ∧ k ∉ keepList info := by
  have hwf := membersMap_wf info false
  have hn := memberAt_eq_none_iff _ _ hwf k
  simp only [] at hn
  unfold plannedMember boundMember
  cases hb : memberAt info.members (membersMap info).1 k with
  | none =>
    have := hn.1 hb
    by_cases hk : k ∈ keepList info <;> simp [hk, this]
  | some member =>
    have : (membersMap info).1 k ≠ none := fun e => by
      rw [hn.2 e] at hb
      exact absurd hb (by simp)
    simp [this]

theorem planVotes_spec (rt : Runtime) (info : peerGroupInfo) (c : Bool) :
    (planVotes rt info ⟨info.machines, info.members, (membersMap info).1, c⟩ = none ↔
      specPanics rt info) ∧
    ∀ r st, planVotes rt info ⟨info.machines, info.members, (membersMap info).1, c⟩ =
        some (r, st) →
      WF info.machines.length st ∧
      (∀ k, memberAt st.heap st.members k = specMember rt info k) ∧
      (∀ k, st.machines[k]? =
        (info.machines[k]?).map (fun m : machine => { m with voting := specVoting rt info k })) ∧
      (st.changed = true ↔ specChanged rt info c) ∧
      r = (if st.changed then ⟨memberSet rt.order st, none⟩ else ⟨none, none⟩) ∧
      (∀ q, (∀ k, (membersMap info).1 k ≠ some q) → q < info.members.length →
        st.heap[q]? = info.members[q]?) ∧
      info.members.length ≤ st.heap.length ∧
      (∀ k p, (membersMap info).1 k = some p → st.members k = some p) ∧
      (∀ k p, st.members k = some p →
        (membersMap info).1 k = some p ∨ info.members.length ≤ p) := by
  -- the state after the classification loop
  have hwf1 : WF info.machines.length
      ⟨(classifyLoop info.members (membersMap info).1 (statusIndex rt info) info.machines 0
        ⟨[], [], []⟩).1, info.members, (membersMap info).1, c⟩ := by
    have h0 := membersMap_wf info c
    exact ⟨by simp [classifyLoop_length], h0.dom, h0.inj⟩
  -- the swap loop and the pad step
  obtain ⟨st3, hseq, hwf3, hmem3, hlen3, hch3, hview3, hmach3, hfr3⟩ :=
    setVotingSeq_spec _ (votePlan rt info) _ hwf1
      (fun op hop => (votePlan_target rt info op.1 op.2 hop).1)
      (fun m v v' h h' => votePlan_consistent rt info m v v' h h')
  simp only [] at hmem3 hlen3 hch3 hview3 hmach3 hfr3
  -- the loop over toKeep
  obtain ⟨st4, hkeep, hwf4, hnone4, hsome4, hview4, hch4, hmach4, hpre4, hlen4, _, hfresh4⟩ :=
    keepLoop_spec _ (keepList info) st3 hwf3 (fun m hm => by
      have := positionsWhere_lt _ _ _ _ hm
      omega)
  rw [planVotes_unfold rt info c st3 hseq, hkeep]
  simp only []
  -- the machines keep their ids and addresses
  have hm3 : ∀ k, st3.machines[k]? =
      (info.machines[k]?).map (fun m : machine => { m with voting := specVoting rt info k }) := by
    intro k
    rw [hmach3, classifyLoop_machines]
    unfold specVoting
    cases info.machines[k]? with
    | none => rfl
    | some m => cases opOf (votePlan rt info) k <;> simp [flagOp]
  have hm4 : ∀ k, st4.machines[k]? =
      (info.machines[k]?).map (fun m : machine => { m with voting := specVoting rt info k }) := by
    intro k
    rw [hmach4, hm3]
    by_cases hc : st3.members k = none ∧ k ∈ keepList info
    · rw [if_pos hc]
      have hv : specVoting rt info k = false := by
        unfold specVoting
        have hk : (membersMap info).1 k = none := by rw [← hmem3]; exact hc.1
        have : opOf (votePlan rt info) k = none := by
          unfold opOf
          have h1 : (k, false) ∉ votePlan rt info := fun h =>
            (votePlan_target rt info k false h).1 hk
          have h2 : (k, true) ∉ votePlan rt info := fun h =>
            (votePlan_target rt info k true h).1 hk
          simp [h1, h2]
        rw [this]
        simp [isVotingAt, memberAt, hk]
      cases info.machines[k]? with
      | none => rfl
      | some m => simp [flagOp, hv]
    · rw [if_neg hc]
  have hid3 : ∀ k, idAt st3.machines k = idAt info.machines k := by
    intro k
    unfold idAt
    rw [hm3]
    cases info.machines[k]? <;> rfl
  -- the members before the address loop
  have hplanned : ∀ k, memberAt st4.heap st4.members k = plannedMember rt info k := by
    intro k
    rw [hview4, hview3, hmem3]
    unfold plannedMember boundMember
    have hn := memberAt_eq_none_iff _ _ (membersMap_wf info c) k
    simp only [] at hn
    cases hb : memberAt info.members (membersMap info).1 k with
    | none =>
      have := hn.1 hb
      by_cases hk : k ∈ keepList info
      · simp [hk, this, adoptedMember, hid3]
      · simp [hk]
    | some member =>
      have : (membersMap info).1 k ≠ none := fun e => by
        rw [hn.2 e] at hb
        exact absurd hb (by simp)
      simp [this]
  obtain ⟨haN, haS⟩ := addressLoop_spec rt info.mongoPort _ st4.machines 0 st4 hwf4
  have hget : ∀ (k : Nat) (m : machine), st4.machines[k]? = some m →
      ∃ m0 : machine, info.machines[k]? = some m0 ∧ m.addresses = m0.addresses := by
    intro k m h
    rw [hm4] at h
    cases h0 : info.machines[k]? with
    | none => simp [h0] at h
    | some m0 =>
      simp only [h0, Option.map_some', Option.some.injEq] at h
      exact ⟨m0, rfl, by rw [← h]⟩
  have hget' : ∀ (k : Nat) (m0 : machine), info.machines[k]? = some m0 →
      ∃ m : machine, st4.machines[k]? = some m ∧ m.addresses = m0.addresses := by
    intro k m0 h
    exact ⟨{ m0 with voting := specVoting rt info k }, by rw [hm4, h]; rfl, rfl⟩
  have hrefresh : ∀ (m m0 : machine) (member : Member), m.addresses = m0.addresses →
      refreshAddr rt info.mongoPort m member = refreshAddr rt info.mongoPort m0 member := by
    intro m m0 member h
    simp [refreshAddr, h]
  have hneeds : ∀ (m m0 : machine) (member : Member), m.addresses = m0.addresses →
      (needsRefresh rt info.mongoPort m member ↔ needsRefresh rt info.mongoPort m0 member) := by
    intro m m0 member h
    simp [needsRefresh, h]
  constructor
  · -- the run panics exactly when the address loop meets a nil member
    constructor
    · intro h
      cases ha : addressLoop rt info.mongoPort st4.machines 0 st4 with
      | none =>
        obtain ⟨i, m, h1, h2, h3⟩ := haN.1 ha
        obtain ⟨m0, h4, h5⟩ := hget i m h1
        refine ⟨i, m0, h4, by rw [← h5]; exact h2, ?_⟩
        rw [← hplanned]
        rw [Nat.zero_add] at h3
        exact (memberAt_eq_none_iff _ _ hwf4 i).2 h3
      | some st5 =>
        rw [ha] at h
        simp only [] at h
        split at h <;> exact absurd h (by simp)
    · rintro ⟨k, m0, h1, h2, h3⟩
      obtain ⟨m, h4, h5⟩ := hget' k m0 h1
      have : addressLoop rt info.mongoPort st4.machines 0 st4 = none := by
        apply haN.2
        refine ⟨k, m, h4, by rw [h5]; exact h2, ?_⟩
        rw [Nat.zero_add]
        rw [← hplanned] at h3
        exact (memberAt_eq_none_iff _ _ hwf4 k).1 h3
      rw [this]
  · intro r st hrun
    cases ha : addressLoop rt info.mongoPort st4.machines 0 st4 with
    | none =>
      rw [ha] at hrun
      exact absurd hrun (by simp)
    | some st5 =>
      rw [ha] at hrun
      simp only [] at hrun
      obtain ⟨g1, g2, g3, g4, g5, g6, g7, g8, _⟩ := haS st5 ha
      have hst : st = st5 ∧
          r = (if st5.changed then ⟨memberSet rt.order st5, none⟩ else ⟨none, none⟩) := by
        cases hc5 : st5.changed with
        | false =>
          simp only [hc5, Bool.not_false, if_true, Option.some.injEq, Prod.mk.injEq] at hrun
          exact ⟨hrun.2.symm, by simp [hrun.1]⟩
        | true =>
          simp only [hc5, Bool.not_true, Bool.false_eq_true, if_false, Option.some.injEq,
            Prod.mk.injEq] at hrun
          exact ⟨hrun.2.symm, by simp [hrun.1]⟩
      obtain ⟨hst1, hst2⟩ := hst
      subst hst1
      refine ⟨g1, ?_, ?_, ?_, hst2, ?_, ?_, ?_, ?_⟩
      · intro k
        unfold specMember
        cases h0 : info.machines[k]? with
        | none =>
          simp only []
          have hk : info.machines.length ≤ k := List.getElem?_eq_none_iff.1 h0
          rw [g6 k (Or.inr (by rw [hwf4.len]; omega)), hplanned]
          rw [planned_eq_none_iff]
          constructor
          · cases hmk : (membersMap info).1 k with
            | none => rfl
            | some p =>
              have := ((membersMap_wf info c).dom k p hmk).1
              omega
          · intro hk'
            have := positionsWhere_lt _ _ _ _ hk'
            omega
        | some m0 =>
          obtain ⟨m, h4, h5⟩ := hget' k m0 h0
          have := g5 k m h4
          rw [Nat.zero_add] at this
          rw [this, hplanned]
          simp only []
          cases plannedMember rt info k with
          | none => rfl
          | some member => simp [hrefresh m m0 member h5]
      · intro k
        rw [g3, hm4]
      · rw [g7, hch4, hch3]
        unfold specChanged
        simp only [Bool.or_eq_true, Bool.not_eq_true', List.isEmpty_eq_false,
          ← List.isEmpty_iff, ne_eq]
        constructor
        · rintro (((h | h) | ⟨k, hk, hn⟩) | ⟨i, m, member, h1, h2, h3⟩)
          · exact Or.inl h
          · exact Or.inr (Or.inl (by simpa using h))
          · refine Or.inr (Or.inr (Or.inl ⟨k, hk, ?_⟩))
            rw [hmem3] at hn
            unfold boundMember
            exact (memberAt_eq_none_iff _ _ (membersMap_wf info c) k).2 hn
          · obtain ⟨m0, h4, h5⟩ := hget i m h1
            rw [Nat.zero_add, hplanned] at h2
            exact Or.inr (Or.inr (Or.inr ⟨i, m0, member, h4, h2, (hneeds m m0 member h5).1 h3⟩))
        · rintro (h | h | ⟨k, hk, hn⟩ | ⟨i, m0, member, h1, h2, h3⟩)
          · exact Or.inl (Or.inl (Or.inl h))
          · exact Or.inl (Or.inl (Or.inr (by simpa using h)))
          · refine Or.inl (Or.inr ⟨k, hk, ?_⟩)
            rw [hmem3]
            unfold boundMember at hn
            exact (memberAt_eq_none_iff _ _ (membersMap_wf info c) k).1 hn
          · obtain ⟨m, h4, h5⟩ := hget' i m0 h1
            refine Or.inr ⟨i, m, member, h4, ?_, (hneeds m m0 member h5).2 h3⟩
            rw [Nat.zero_add, hplanned]
            exact h2
      · intro q hq hlt
        have hq3 : ∀ k, st3.members k ≠ some q := by rw [hmem3]; exact hq
        have hq4 : ∀ k, st4.members k ≠ some q := by
          intro k hk
          rcases hfresh4 k q hk with h | h
          · exact hq3 k h
          · rw [hlen3] at h
            omega
        rw [g8 q hq4, hpre4 q (by rw [hlen3]; exact hlt), hfr3 q hq]
      · rw [g4]
        have : st3.heap.length = info.members.length := hlen3
        omega
      · intro k p hk
        rw [g2]
        exact hsome4 k p (by rw [hmem3]; exact hk)
      · intro k p hk
        rw [g2] at hk
        rcases hfresh4 k p hk with h | h
        · exact Or.inl (by rw [← hmem3]; exact h)
        · exact Or.inr (by rw [← hlen3]; exact h)

/-! ## The run as a whole -/

theorem desiredPeerGroup_eq (rt : Runtime) (info : peerGroupInfo) :
    desiredPeerGroup rt info =
      match extraLoop (membersMap info).2 false with
      | none => some (⟨none, some errExtraVoting⟩,
          ⟨info.machines, info.members, (membersMap info).1, false⟩)
      | some c => planVotes rt info ⟨info.machines, info.members, (membersMap info).1, c⟩ :=
  rfl

theorem extraLoop_membersMap (info : peerGroupInfo) :
    (extraLoop (membersMap info).2 false = none ↔
      ∃ member ∈ info.members, isExtra info.machines member ∧ votesPositive member = true) ∧
    ∀ c, extraLoop (membersMap info).2 false = some c →
      (c = true ↔ ∃ member ∈ info.members, isExtra info.machines member) := by
  constructor
  · rw [extraLoop_eq_none_iff]
    constructor
    · rintro ⟨m, hm, hv⟩
      exact ⟨m, ((mem_membersMap_extra info m).1 hm).1, ((mem_membersMap_extra info m).1 hm).2, hv⟩
    · rintro ⟨m, hm, he, hv⟩
      exact ⟨m, (mem_membersMap_extra info m).2 ⟨hm, he⟩, hv⟩
  · intro c hc
    rw [extraLoop_eq_some _ _ _ hc]
    simp only [Bool.false_or, Bool.not_eq_true', List.isEmpty_eq_false]
    constructor
    · intro h
      cases hl : (membersMap info).2 with
      | nil => rw [hl] at h; simp at h
      | cons a rest =>
        have : a ∈ (membersMap info).2 := by rw [hl]; simp
        exact ⟨a, (mem_membersMap_extra info a).1 this⟩
    · rintro ⟨m, hm⟩
      have := (mem_membersMap_extra info m).2 hm
      cases hl : (membersMap info).2 with
      | nil => rw [hl] at this; simp at this
      | cons a rest => simp

theorem returned_error_iff (rt : Runtime) (info : peerGroupInfo) :
    returned rt info = some ⟨none, some errExtraVoting⟩ ↔
      extraLoop (membersMap info).2 false = none := by
  unfold returned
  rw [desiredPeerGroup_eq]
  cases hx : extraLoop (membersMap info).2 false with
  | none => simp
  | some c =>
    simp only [reduceCtorEq, iff_false]
    intro h
    cases hp : planVotes rt info ⟨info.machines, info.members, (membersMap info).1, c⟩ with
    | none => rw [hp] at h; simp at h
    | some x =>
      rw [hp] at h
      have := planVotes_err rt info _ x.2 x.1 hp
      simp only [Option.map_some', Option.some.injEq] at h
      rw [h] at this
      simp at this

theorem returned_error_iff_extra (rt : Runtime) (info : peerGroupInfo) :
    returned rt info = some ⟨none, some errExtraVoting⟩ ↔
      ∃ member ∈ info.members, isExtra info.machines member ∧ votesPositive member = true := by
  rw [returned_error_iff, (extraLoop_membersMap info).1]

/-- Where the run does not return the error, it is the run of `planVotes`. -/
theorem run_of_no_error (rt : Runtime) (info : peerGroupInfo) (r : Ret) (st : Vars)
    (h : desiredPeerGroup rt info = some (r, st)) (hr : r ≠ ⟨none, some errExtraVoting⟩) :
    ∃ c, extraLoop (membersMap info).2 false = some c ∧
      planVotes rt info ⟨info.machines, info.members, (membersMap info).1, c⟩ = some (r, st) := by
  rw [desiredPeerGroup_eq] at h
  cases hx : extraLoop (membersMap info).2 false with
  | none =>
    rw [hx] at h
    simp only [Option.some.injEq, Prod.mk.injEq] at h
    exact absurd h.1.symm hr
  | some c =>
    rw [hx] at h
    exact ⟨c, rfl, h⟩

/-! ## The order of the returned slice -/

theorem perm_cons_eraseIdx {α : Type} (l : List α) (i : Nat) (y : α) (h : l[i]? = some y) :
    (y :: l.eraseIdx i).Perm l := by
  induction l generalizing i with
  | nil => simp at h
  | cons a rest ih =>
    cases i with
    | zero =>
      simp only [List.getElem?_cons_zero, Option.some.injEq] at h
      subst h
      simp
    | succ i =>
      simp only [List.getElem?_cons_succ] at h
      simp only [List.eraseIdx_cons_succ]
      exact (List.Perm.swap a y _).trans ((ih i h).cons a)

theorem rangeOrder_perm {α : Type} (ks : List Nat) (l : List α) : (rangeOrder ks l).Perm l := by
  induction ks generalizing l with
  | nil => cases l <;> simp [rangeOrder]
  | cons k ks ih =>
    cases l with
    | nil => simp [rangeOrder]
    | cons x xs =>
      simp only [rangeOrder]
      cases h : (x :: xs)[k % (xs.length + 1)]? with
      | none => simp
      | some y =>
        simp only []
        exact ((ih _).cons y).trans (perm_cons_eraseIdx _ _ y h)

theorem mem_mapValues (st : Vars) (member : Member) :
    member ∈ mapValues st ↔
      ∃ k, k < st.machines.length ∧ memberAt st.heap st.members k = some member := by
  unfold mapValues mapKeys
  simp only [List.mem_filterMap, List.mem_filter, List.mem_range]
  constructor
  · rintro ⟨k, ⟨h1, _⟩, h2⟩
    exact ⟨k, h1, h2⟩
  · rintro ⟨k, h1, h2⟩
    refine ⟨k, ⟨h1, ?_⟩, h2⟩
    unfold memberAt at h2
    cases hk : st.members k with
    | none => simp [hk] at h2
    | some p => simp

theorem memberSet_perm (order : List Nat) (st : Vars) (ms : List Member)
    (h : memberSet order st = some ms) : ms.Perm (mapValues st) := by
  unfold memberSet at h
  have hp := rangeOrder_perm order (mapValues st)
  cases hr : rangeOrder order (mapValues st) with
  | nil => rw [hr] at h; simp at h
  | cons x xs =>
    rw [hr] at h hp
    simp only [Option.some.injEq] at h
    rw [← h]
    exact hp

theorem memberSet_eq_none (order : List Nat) (st : Vars) :
    memberSet order st = none ↔ mapValues st = [] := by
  unfold memberSet
  have hp := rangeOrder_perm order (mapValues st)
  cases hr : rangeOrder order (mapValues st) with
  | nil =>
    rw [hr] at hp
    simp [hp.symm.eq_nil]
  | cons x xs =>
    rw [hr] at hp
    simp only [reduceCtorEq, false_iff]
    intro h
    rw [h] at hp
    exact absurd hp.eq_nil (by simp)

/-! ## Fields that the run never writes -/

theorem setMemberVoting_tags (member : Member) (v : Bool) :
    (setMemberVoting member v).Tags = member.Tags ∧ (setMemberVoting member v).Id = member.Id ∧
      (setMemberVoting member v).Address = member.Address := by
  cases v <;> simp [setMemberVoting]

theorem applyOp_tags (o : Option Bool) (member : Member) :
    (applyOp o member).Tags = member.Tags ∧ (applyOp o member).Id = member.Id ∧
      (applyOp o member).Address = member.Address := by
  cases o with
  | none => simp [applyOp]
  | some v => exact setMemberVoting_tags member v

theorem refreshAddr_fields (rt : Runtime) (mongoPort : Int) (m : machine) (member : Member) :
    (refreshAddr rt mongoPort m member).Tags = member.Tags ∧
      (refreshAddr rt mongoPort m member).Id = member.Id ∧
      (refreshAddr rt mongoPort m member).Votes = member.Votes ∧
      (refreshAddr rt mongoPort m member).Priority = member.Priority := by
  unfold refreshAddr
  split
  · simp
  · split <;> simp

theorem lookup_machineIdTag_newMember (id : String) :
    (newMember id).Tags.lookup machineIdTag = some id := by
  simp [newMember, List.lookup]

theorem idAt_of_getElem? (machines : List machine) (k : Nat) (m : machine)
    (h : machines[k]? = some m) : idAt machines k = m.id := by
  simp [idAt, h]

theorem plannedMember_tag (rt : Runtime) (info : peerGroupInfo) (k : Nat) (member : Member)
    (h : plannedMember rt info k = some member) :
    ∃ m, info.machines[k]? = some m ∧ member.Tags.lookup machineIdTag = some m.id := by
  unfold plannedMember at h
  cases hb : boundMember info k with
  | some b =>
    simp only [hb, Option.some.injEq] at h
    obtain ⟨_, m, h1, h2⟩ := boundMember_tag info k b hb
    exact ⟨m, h1, by rw [← h, (applyOp_tags _ b).1]; exact h2⟩
  | none =>
    simp only [hb] at h
    by_cases hk : k ∈ keepList info
    · simp only [hk, if_true, Option.some.injEq] at h
      obtain ⟨m, h1, _⟩ := (mem_keepList info k).1 hk
      refine ⟨m, h1, ?_⟩
      rw [← h]
      unfold adoptedMember
      rw [(setMemberVoting_tags _ false).1, lookup_machineIdTag_newMember,
        idAt_of_getElem? _ _ _ h1]
    · simp [hk] at h

theorem specMember_tag (rt : Runtime) (info : peerGroupInfo) (k : Nat) (member : Member)
    (h : specMember rt info k = some member) :
    ∃ m, info.machines[k]? = some m ∧ member.Tags.lookup machineIdTag = some m.id := by
  unfold specMember at h
  cases h0 : info.machines[k]? with
  | none => simp [h0] at h
  | some m0 =>
    simp only [h0] at h
    cases hp : plannedMember rt info k with
    | none => simp [hp] at h
    | some b =>
      simp only [hp, Option.map_some', Option.some.injEq] at h
      obtain ⟨m, h1, h2⟩ := plannedMember_tag rt info k b hp
      exact ⟨m, by rw [← h1, h0], by rw [← h, (refreshAddr_fields _ _ _ _).1]; exact h2⟩

/-! ## Distinct ids and distinct tags -/

theorem nodup_map_index_inj {α β : Type} (f : α → β) (l : List α) (h : (l.map f).Nodup)
    (i j : Nat) (a b : α) (hi : l[i]? = some a) (hj : l[j]? = some b) (hf : f a = f b) :
    i = j := by
  induction l generalizing i j with
  | nil => simp at hi
  | cons x xs ih =>
    simp only [List.map_cons, List.nodup_cons, List.mem_map, not_exists, not_and] at h
    cases i with
    | zero =>
      cases j with
      | zero => rfl
      | succ j =>
        simp only [List.getElem?_cons_zero, Option.some.injEq] at hi
        simp only [List.getElem?_cons_succ] at hj
        subst hi
        exact absurd hf.symm (h.1 b (List.getElem?_mem hj))
    | succ i =>
      cases j with
      | zero =>
        simp only [List.getElem?_cons_zero, Option.some.injEq] at hj
        simp only [List.getElem?_cons_succ] at hi
        subst hj
        exact absurd hf (h.1 a (List.getElem?_mem hi))
      | succ j =>
        simp only [List.getElem?_cons_succ] at hi hj
        rw [ih h.2 i j hi hj]

theorem nodup_filterMap_index_inj {α β : Type} (f : α → Option β) (l : List α)
    (h : (l.filterMap f).Nodup) (i j : Nat) (a b : α) (t : β) (hi : l[i]? = some a)
    (hj : l[j]? = some b) (ha : f a = some t) (hb : f b = some t) : i = j := by
  induction l generalizing i j with
  | nil => simp at hi
  | cons x xs ih =>
    have hmem : ∀ c ∈ xs, f c = some t → t ∈ xs.filterMap f := fun c hc hfc =>
      List.mem_filterMap.2 ⟨c, hc, hfc⟩
    cases i with
    | zero =>
      cases j with
      | zero => rfl
      | succ j =>
        simp only [List.getElem?_cons_zero, Option.some.injEq] at hi
        simp only [List.getElem?_cons_succ] at hj
        subst hi
        rw [List.filterMap_cons_some ha, List.nodup_cons] at h
        exact absurd (hmem b (List.getElem?_mem hj) hb) h.1
    | succ i =>
      cases j with
      | zero =>
        simp only [List.getElem?_cons_zero, Option.some.injEq] at hj
        simp only [List.getElem?_cons_succ] at hi
        subst hj
        rw [List.filterMap_cons_some hb, List.nodup_cons] at h
        exact absurd (hmem a (List.getElem?_mem hi) ha) h.1
      | succ j =>
        simp only [List.getElem?_cons_succ] at hi hj
        have h' : (xs.filterMap f).Nodup := by
          cases hx : f x with
          | none => rw [List.filterMap_cons_none hx] at h; exact h
          | some y => rw [List.filterMap_cons_some hx, List.nodup_cons] at h; exact h.2
        rw [ih h' i j hi hj]

theorem distinctTags_eq (members : List Member) (h : distinctTags members) (a b : Member)
    (t : String) (ha : a ∈ members) (hb : b ∈ members) (hta : machineTag a = some t)
    (htb : machineTag b = some t) : a = b := by
  obtain ⟨i, hi⟩ := List.mem_iff_getElem?.1 ha
  obtain ⟨j, hj⟩ := List.mem_iff_getElem?.1 hb
  have := nodup_filterMap_index_inj machineTag members h i j a b t hi hj hta htb
  subst this
  rw [hi] at hj
  simpa using hj

theorem membersMapLoop_mono (machines : List machine) (l : List Member) (i : Nat)
    (acc : MemberMap × List Member) (k : Nat) (h : acc.1 k ≠ none) :
    (membersMapLoop machines l i acc).1 k ≠ none := by
  induction l generalizing i acc with
  | nil => exact h
  | cons a rest ih =>
    simp only [membersMapLoop]
    cases hf : foundFor machines a with
    | none => exact ih _ _ h
    | some m =>
      refine ih _ _ ?_
      simp only [mapSet]
      by_cases hk : k = m
      · simp [hk]
      · simpa [hk] using h

theorem membersMapLoop_complete (machines : List machine) (l : List Member) (i : Nat)
    (acc : MemberMap × List Member) (k : Nat)
    (h : ∃ member ∈ l, foundFor machines member = some k) :
    (membersMapLoop machines l i acc).1 k ≠ none := by
  induction l generalizing i acc with
  | nil => simp at h
  | cons a rest ih =>
    obtain ⟨member, hmem, hf⟩ := h
    simp only [membersMapLoop]
    rcases List.mem_cons.1 hmem with e | hmem'
    · subst e
      rw [hf]
      exact membersMapLoop_mono _ _ _ _ _ (by simp [mapSet])
    · cases hfa : foundFor machines a with
      | none => exact ih _ _ ⟨member, hmem', hf⟩
      | some m => exact ih _ _ ⟨member, hmem', hf⟩

theorem foundFor_of_tag (machines : List machine) (hids : distinctIds machines) (k : Nat)
    (m : machine) (member : Member) (hm : machines[k]? = some m)
    (ht : machineTag member = some m.id) : foundFor machines member = some k := by
  cases hf : foundFor machines member with
  | none =>
    have := (foundFor_eq_none_iff machines member).1 hf
    unfold isExtra at this
    unfold machineTag at ht
    rw [ht] at this
    exact absurd rfl (this m (List.getElem?_mem hm))
  | some k' =>
    obtain ⟨m', h1, h2⟩ := foundFor_eq_some machines member k' hf
    unfold machineTag at ht
    rw [ht] at h2
    simp only [Option.some.injEq] at h2
    have := nodup_map_index_inj (fun m : machine => m.id) machines hids k k' m m' hm h1 h2
    rw [this]

/-- With distinct machine ids and distinct tags, the member bound to a machine is the live
member tagged with the id of the machine. -/
theorem boundMember_of_tag (info : peerGroupInfo) (hids : distinctIds info.machines)
    (htags : distinctTags info.members) (k : Nat) (m : machine) (member : Member)
    (hm : info.machines[k]? = some m) (hmem : member ∈ info.members)
    (ht : machineTag member = some m.id) : boundMember info k = some member := by
  have hf := foundFor_of_tag info.machines hids k m member hm ht
  have hne : (membersMap info).1 k ≠ none :=
    membersMapLoop_complete _ _ _ _ _ ⟨member, hmem, hf⟩
  have hb : boundMember info k ≠ none := by
    unfold boundMember
    rw [Ne, memberAt_eq_none_iff _ _ (membersMap_wf info false) k]
    exact hne
  obtain ⟨b, hb'⟩ := Option.ne_none_iff_exists'.1 hb
  obtain ⟨h1, m', h2, h3⟩ := boundMember_tag info k b hb'
  rw [hm] at h2
  simp only [Option.some.injEq] at h2
  subst h2
  rw [hb', distinctTags_eq info.members htags b member m.id h1 hmem h3 ht]

theorem isVotingAt_eq (info : peerGroupInfo) (k : Nat) :
    isVotingAt info.members (membersMap info).1 k = optTest votesPositive (boundMember info k) := by
  unfold isVotingAt boundMember optTest
  cases memberAt info.members (membersMap info).1 k <;> rfl

/-! ## Who is granted a vote and whose vote is revoked -/

theorem min_succ (i j : Nat) : min (i + 1) (j + 1) = min i j + 1 := by
  unfold min
  by_cases h : i < j
  · simp [h]
  · simp [h]

theorem min_le_both (i j : Nat) : min i j ≤ i ∧ min i j ≤ j := by
  unfold min
  split <;> omega

theorem mem_swapOps_true (rs as : List Nat) (k : Nat) :
    (k, true) ∈ swapOps rs as ↔ k ∈ as.take (min rs.length as.length) := by
  induction rs generalizing as with
  | nil => cases as <;> simp [swapOps, min]
  | cons r rs ih =>
    cases as with
    | nil => simp [swapOps, min]
    | cons a as =>
      simp only [swapOps, List.length_cons, min_succ, List.take_succ_cons, List.mem_cons,
        Prod.mk.injEq, Bool.true_eq_false, and_false, false_or, and_true, ih]

theorem mem_swapOps_false (rs as : List Nat) (k : Nat) :
    (k, false) ∈ swapOps rs as ↔ k ∈ rs.take (min rs.length as.length) := by
  induction rs generalizing as with
  | nil => cases as <;> simp [swapOps, min]
  | cons r rs ih =>
    cases as with
    | nil => simp [swapOps, min]
    | cons a as =>
      simp only [swapOps, List.length_cons, min_succ, List.take_succ_cons, List.mem_cons,
        Prod.mk.injEq, Bool.false_eq_true, and_false, false_or, and_true, ih]

theorem mem_take_add {α : Type} (l : List α) (m n : Nat) (x : α) :
    x ∈ l.take (m + n) ↔ x ∈ l.take m ∨ x ∈ (l.drop m).take n := by
  rw [List.take_add, List.mem_append]

theorem mem_map_pair (l : List Nat) (k : Nat) (v v' : Bool) :
    (k, v) ∈ l.map (fun m => (m, v')) ↔ v = v' ∧ k ∈ l := by
  simp only [List.mem_map, Prod.mk.injEq]
  constructor
  · rintro ⟨a, h1, h2, h3⟩
    exact ⟨h3.symm, h2 ▸ h1⟩
  · rintro ⟨h1, h2⟩
    exact ⟨k, h2, rfl, h1.symm⟩

theorem mem_padOps_true (rs as : List Nat) (k : Nat) :
    (k, true) ∈ padOps rs as ↔
      as.length > 0 ∧ k ∈ as.take (as.length - as.length % 2) := by
  unfold padOps
  by_cases h : as.length > 0
  · rw [if_pos h, mem_map_pair]
    simp [h]
  · rw [if_neg h, mem_map_pair]
    simp [h]

theorem mem_padOps_false (rs as : List Nat) (k : Nat) :
    (k, false) ∈ padOps rs as ↔
      ¬ as.length > 0 ∧ k ∈ rs.take (rs.length - rs.length % 2) := by
  unfold padOps
  by_cases h : as.length > 0
  · rw [if_pos h, mem_map_pair]
    simp [h]
  · rw [if_neg h, mem_map_pair]
    simp [h]

theorem mem_voteOps_true (rs as : List Nat) (k : Nat) :
    (k, true) ∈ voteOps rs as ↔ k ∈ as.take (grantCount rs.length as.length) := by
  unfold voteOps grantCount
  rw [List.mem_append, mem_swapOps_true, mem_padOps_true, List.length_drop]
  by_cases h : as.length - min rs.length as.length > 0
  · rw [if_pos h, mem_take_add]
    simp [h]
  · rw [if_neg h]
    simp [h]

theorem mem_voteOps_false (rs as : List Nat) (k : Nat) :
    (k, false) ∈ voteOps rs as ↔ k ∈ rs.take (revokeCount rs.length as.length) := by
  unfold voteOps revokeCount
  rw [List.mem_append, mem_swapOps_false, mem_padOps_false, List.length_drop, List.length_drop]
  by_cases h : as.length - min rs.length as.length > 0
  · rw [if_pos h]
    simp [h]
  · rw [if_neg h, mem_take_add]
    simp [h]

theorem grantCount_le (r a : Nat) : grantCount r a ≤ a := by
  unfold grantCount
  have := min_le_both r a
  split <;> omega

theorem revokeCount_le (r a : Nat) : revokeCount r a ≤ r := by
  unfold revokeCount
  have := min_le_both r a
  split <;> omega

theorem grant_revoke_parity (r a : Nat) : grantCount r a % 2 = revokeCount r a % 2 := by
  unfold grantCount revokeCount
  have := min_le_both r a
  split <;> omega

theorem mem_granted (rt : Runtime) (info : peerGroupInfo) (k : Nat) :
    k ∈ granted rt info ↔ (k, true) ∈ votePlan rt info := by
  unfold granted votePlan
  rw [mem_voteOps_true]

theorem mem_revoked (rt : Runtime) (info : peerGroupInfo) (k : Nat) :
    k ∈ revoked rt info ↔ (k, false) ∈ votePlan rt info := by
  unfold revoked votePlan
  rw [mem_voteOps_false]

theorem sortById_nodup (ms : List machine) (l : List Nat) (h : l.Nodup) :
    (sortById ms l).Nodup :=
  (List.perm_insertionSort (byIdOrder ms) l).nodup_iff.2 h

theorem granted_nodup (rt : Runtime) (info : peerGroupInfo) : (granted rt info).Nodup := by
  unfold granted sortedAdd
  exact (sortById_nodup _ _ (positionsWhere_nodup _ _ _)).sublist (List.take_sublist _ _)

theorem revoked_nodup (rt : Runtime) (info : peerGroupInfo) : (revoked rt info).Nodup := by
  unfold revoked sortedRemove
  exact (sortById_nodup _ _ (positionsWhere_nodup _ _ _)).sublist (List.take_sublist _ _)

theorem granted_length (rt : Runtime) (info : peerGroupInfo) :
    (granted rt info).length =
      grantCount (sortedRemove info).length (sortedAdd rt info).length := by
  unfold granted
  rw [List.length_take]
  have := grantCount_le (sortedRemove info).length (sortedAdd rt info).length
  omega

theorem revoked_length (rt : Runtime) (info : peerGroupInfo) :
    (revoked rt info).length =
      revokeCount (sortedRemove info).length (sortedAdd rt info).length := by
  unfold revoked
  rw [List.length_take]
  have := revokeCount_le (sortedRemove info).length (sortedAdd rt info).length
  omega

theorem opOf_eq_some_true (rt : Runtime) (info : peerGroupInfo) (k : Nat) :
    opOf (votePlan rt info) k = some true ↔ k ∈ granted rt info := by
  rw [mem_granted]
  unfold opOf
  by_cases h1 : (k, false) ∈ votePlan rt info
  · have : (k, true) ∉ votePlan rt info := fun h2 => by
      have := votePlan_consistent rt info k false true h1 h2
      simp at this
    simp [h1, this]
  · by_cases h2 : (k, true) ∈ votePlan rt info <;> simp [h1, h2]

theorem opOf_eq_some_false (rt : Runtime) (info : peerGroupInfo) (k : Nat) :
    opOf (votePlan rt info) k = some false ↔ k ∈ revoked rt info := by
  rw [mem_revoked]
  unfold opOf
  by_cases h1 : (k, false) ∈ votePlan rt info
  · simp [h1]
  · by_cases h2 : (k, true) ∈ votePlan rt info <;> simp [h1, h2]

/-! ## Counting -/

theorem countP_add_countP_diff {α : Type} (p q : α → Bool) (l : List α) :
    l.countP p + l.countP (fun x => q x && !p x) = l.countP q + l.countP (fun x => p x && !q x) := by
  induction l with
  | nil => rfl
  | cons a rest ih =>
    simp only [List.countP_cons]
    cases p a <;> cases q a <;> simp <;> omega

theorem countP_mem_range (N : Nat) (l : List Nat) (hl : l.Nodup) (hlt : ∀ k ∈ l, k < N) :
    (List.range N).countP (fun k => decide (k ∈ l)) = l.length := by
  rw [List.countP_eq_length_filter]
  apply List.Perm.length_eq
  rw [List.perm_ext_iff_of_nodup ((List.nodup_range N).filter _) hl]
  intro k
  simp only [List.mem_filter, List.mem_range, decide_eq_true_eq]
  exact ⟨fun h => h.2, fun h => ⟨hlt k h, h⟩⟩

theorem countP_filterMap_any {α β : Type} (f : α → Option β) (q : β → Bool) (l : List α) :
    (l.filterMap f).countP q = l.countP (fun k => optTest q (f k)) := by
  induction l with
  | nil => rfl
  | cons a rest ih =>
    cases h : f a with
    | none => simp [List.filterMap_cons_none h, List.countP_cons, h, ih, optTest]
    | some b => simp [List.filterMap_cons_some h, List.countP_cons, h, ih, optTest]

theorem specVoting_cases (rt : Runtime) (info : peerGroupInfo) (k : Nat) :
    (specVoting rt info k && !isVotingAt info.members (membersMap info).1 k) =
        decide (k ∈ granted rt info) ∧
      (isVotingAt info.members (membersMap info).1 k && !specVoting rt info k) =
        decide (k ∈ revoked rt info) := by
  unfold specVoting
  cases ho : opOf (votePlan rt info) k with
  | none =>
    have h1 : k ∉ granted rt info := fun h => by
      rw [← opOf_eq_some_true, ho] at h; simp at h
    have h2 : k ∉ revoked rt info := fun h => by
      rw [← opOf_eq_some_false, ho] at h; simp at h
    simp [h1, h2]
  | some v =>
    cases v with
    | true =>
      have h1 : k ∈ granted rt info := (opOf_eq_some_true rt info k).1 ho
      have h2 : k ∉ revoked rt info := fun h => by
        rw [← opOf_eq_some_false, ho] at h; simp at h
      have h3 := (votePlan_target rt info k true ((mem_granted rt info k).1 h1)).2.2
      simp [h1, h2, h3]
    | false =>
      have h1 : k ∈ revoked rt info := (opOf_eq_some_false rt info k).1 ho
      have h2 : k ∉ granted rt info := fun h => by
        rw [← opOf_eq_some_true, ho] at h; simp at h
      have h3 := (votePlan_target rt info k false ((mem_revoked rt info k).1 h1)).2.2
      simp [h1, h2, h3]

/-- The number of machines flagged voting when the run ends, plus the number of revoked
votes, is the number of machines bound to a voting member plus the number of granted votes. -/
theorem voting_flags_count (rt : Runtime) (info : peerGroupInfo) :
    (List.range info.machines.length).countP (specVoting rt info) + (revoked rt info).length =
      (List.range info.machines.length).countP
        (isVotingAt info.members (membersMap info).1) + (granted rt info).length := by
  have h := countP_add_countP_diff (specVoting rt info)
    (isVotingAt info.members (membersMap info).1) (List.range info.machines.length)
  have hg : (fun k => specVoting rt info k && !isVotingAt info.members (membersMap info).1 k) =
      fun k => decide (k ∈ granted rt info) := funext fun k => (specVoting_cases rt info k).1
  have hr : (fun k => isVotingAt info.members (membersMap info).1 k && !specVoting rt info k) =
      fun k => decide (k ∈ revoked rt info) := funext fun k => (specVoting_cases rt info k).2
  rw [hg, hr] at h
  rw [countP_mem_range _ _ (granted_nodup rt info) (fun k hk =>
      (votePlan_target rt info k true ((mem_granted rt info k).1 hk)).2.1),
    countP_mem_range _ _ (revoked_nodup rt info) (fun k hk =>
      (votePlan_target rt info k false ((mem_revoked rt info k).1 hk)).2.1)] at h
  omega

theorem voting_flags_parity (rt : Runtime) (info : peerGroupInfo) :
    (List.range info.machines.length).countP (specVoting rt info) % 2 =
      (List.range info.machines.length).countP
        (isVotingAt info.members (membersMap info).1) % 2 := by
  have h1 := voting_flags_count rt info
  have h2 := grant_revoke_parity (sortedRemove info).length (sortedAdd rt info).length
  rw [← granted_length, ← revoked_length] at h2
  omega

/-! ## Counting the voting members -/

theorem nodup_of_nodup_filterMap {α β : Type} (f : α → Option β) (l : List α)
    (h : (l.filterMap f).Nodup) (hs : ∀ x ∈ l, f x ≠ none) : l.Nodup := by
  induction l with
  | nil => exact List.nodup_nil
  | cons x xs ih =>
    obtain ⟨t, ht⟩ := Option.ne_none_iff_exists'.1 (hs x (by simp))
    rw [List.filterMap_cons_some ht, List.nodup_cons] at h
    rw [List.nodup_cons]
    refine ⟨fun hx => h.1 (List.mem_filterMap.2 ⟨x, hx, ht⟩),
      ih h.2 (fun y hy => hs y (List.mem_cons_of_mem _ hy))⟩

theorem filterMap_filter_of_none {α β : Type} (p : α → Bool) (f : α → Option β) (l : List α)
    (h : ∀ x, p x = false → f x = none) : (l.filter p).filterMap f = l.filterMap f := by
  induction l with
  | nil => rfl
  | cons a rest ih =>
    cases hp : p a with
    | true => 
      rw [List.filter_cons_of_pos hp]
      cases hf : f a with
      | none => rw [List.filterMap_cons_none hf, List.filterMap_cons_none hf, ih]
      | some b => rw [List.filterMap_cons_some hf, List.filterMap_cons_some hf, ih]
    | false =>
      rw [List.filter_cons_of_neg (by simp [hp]), List.filterMap_cons_none (h a hp), ih]

theorem mapValues_eq (st : Vars) :
    mapValues st =
      (List.range st.machines.length).filterMap (fun k => memberAt st.heap st.members k) := by
  unfold mapValues mapKeys
  apply filterMap_filter_of_none
  intro k hk
  cases hm : st.members k with
  | none => simp [memberAt, hm]
  | some p => simp [hm] at hk

theorem boundMember_inj (info : peerGroupInfo) (htags : distinctTags info.members)
    (k k' : Nat) (b : Member) (h : boundMember info k = some b)
    (h' : boundMember info k' = some b) : k = k' := by
  obtain ⟨_, m, _, ht⟩ := boundMember_tag info k b h
  unfold boundMember memberAt at h h'
  cases hk : (membersMap info).1 k with
  | none => simp [hk] at h
  | some p =>
    cases hk' : (membersMap info).1 k' with
    | none => simp [hk'] at h'
    | some p' =>
      simp only [hk] at h
      simp only [hk'] at h'
      have := nodup_filterMap_index_inj machineTag info.members htags p p' b b m.id h h' ht ht
      subst this
      exact (membersMap_wf info false).inj k k' p hk hk'

theorem boundMember_lt (info : peerGroupInfo) (k : Nat) (b : Member)
    (h : boundMember info k = some b) : k < info.machines.length := by
  obtain ⟨_, m, hm, _⟩ := boundMember_tag info k b h
  exact (List.getElem?_eq_some_iff.1 hm).1

theorem boundMember_of_found (info : peerGroupInfo) (htags : distinctTags info.members)
    (member : Member) (k : Nat) (hmem : member ∈ info.members)
    (hf : foundFor info.machines member = some k) : boundMember info k = some member := by
  have hne : (membersMap info).1 k ≠ none :=
    membersMapLoop_complete _ _ _ _ _ ⟨member, hmem, hf⟩
  have hb : boundMember info k ≠ none := by
    unfold boundMember
    rw [Ne, memberAt_eq_none_iff _ _ (membersMap_wf info false) k]
    exact hne
  obtain ⟨b, hb'⟩ := Option.ne_none_iff_exists'.1 hb
  obtain ⟨h1, m', h2, h3⟩ := boundMember_tag info k b hb'
  obtain ⟨m, h4, h5⟩ := foundFor_eq_some _ _ _ hf
  rw [h2] at h4
  simp only [Option.some.injEq] at h4
  subst h4
  rw [hb', distinctTags_eq info.members htags b member m'.id h1 hmem h3 h5]

/-- With distinct tags and no voting extra member, the machines bound to a voting member
are as many as the live members with votes present and positive. -/
theorem bound_voting_count (info : peerGroupInfo) (htags : distinctTags info.members)
    (hnx : ∀ member ∈ info.members, isExtra info.machines member → votesPositive member = false) :
    (List.range info.machines.length).countP (isVotingAt info.members (membersMap info).1) =
      votingCount info.members := by
  have e1 : (List.range info.machines.length).countP
      (isVotingAt info.members (membersMap info).1) =
      ((List.range info.machines.length).filterMap (boundMember info)).countP votesPositive := by
    rw [countP_filterMap_any]
    exact congrArg (fun f => List.countP f _) (funext (isVotingAt_eq info))
  rw [e1]
  unfold votingCount
  rw [List.countP_eq_length_filter, List.countP_eq_length_filter]
  apply List.Perm.length_eq
  have hnd1 : (((List.range info.machines.length).filterMap (boundMember info)).filter
      votesPositive).Nodup := by
    apply List.Nodup.filter
    apply List.Nodup.filterMap _ (List.nodup_range _)
    intro k k' b hb hb'
    exact boundMember_inj info htags k k' b hb hb'
  have hnd2 : (info.members.filter votesPositive).Nodup := by
    apply nodup_of_nodup_filterMap machineTag
    · exact htags.sublist ((List.filter_sublist info.members).filterMap machineTag)
    · intro x hx
      rw [List.mem_filter] at hx
      intro hnone
      have hex : isExtra info.machines x := by
        unfold isExtra
        unfold machineTag at hnone
        rw [hnone]
        trivial
      rw [hnx x hx.1 hex] at hx
      exact absurd hx.2 (by simp)
  rw [List.perm_ext_iff_of_nodup hnd1 hnd2]
  intro x
  simp only [List.mem_filter, List.mem_filterMap, List.mem_range]
  constructor
  · rintro ⟨⟨k, _, hk⟩, hv⟩
    exact ⟨(boundMember_tag info k x hk).1, hv⟩
  · rintro ⟨hx, hv⟩
    refine ⟨?_, hv⟩
    cases hf : foundFor info.machines x with
    | none =>
      have := hnx x hx ((foundFor_eq_none_iff _ _).1 hf)
      rw [this] at hv
      exact absurd hv (by simp)
    | some k =>
      have hb := boundMember_of_found info htags x k hx hf
      exact ⟨k, boundMember_lt info k x hb, hb⟩

theorem votesInSet_refresh (rt : Runtime) (mongoPort : Int) (m : machine) (member : Member) :
    votesInSet (refreshAddr rt mongoPort m member) = votesInSet member := by
  unfold votesInSet
  rw [(refreshAddr_fields rt mongoPort m member).2.2.1]

/-- For an input whose live members all have their votes present, the member of a machine
votes in the replica set when the run ends exactly when the machine is flagged voting. -/
theorem specMember_votes (rt : Runtime) (info : peerGroupInfo)
    (hv : ∀ member ∈ info.members, member.Votes ≠ none) (k : Nat) :
    optTest votesInSet (specMember rt info k) =
      (specVoting rt info k && decide (k < info.machines.length)) := by
  unfold specMember
  cases hm : info.machines[k]? with
  | none =>
    have : ¬ k < info.machines.length := by
      intro h
      rw [List.getElem?_eq_getElem h] at hm
      exact absurd hm (by simp)
    simp [this, optTest]
  | some m =>
    have hlt : k < info.machines.length := (List.getElem?_eq_some_iff.1 hm).1
    simp only [hlt, decide_True, Bool.and_true]
    unfold plannedMember specVoting
    cases hb : boundMember info k with
    | some b =>
      simp only [Option.map_some', optTest, votesInSet_refresh]
      have hvb := hv b (boundMember_tag info k b hb).1
      cases ho : opOf (votePlan rt info) k with
      | none =>
        simp only [applyOp]
        rw [isVotingAt_eq, hb]
        simp only [votesInSet, votesPositive, optTest]
        cases hvv : b.Votes with
        | none => exact absurd hvv hvb
        | some v => rfl
      | some v => cases v <;> simp [applyOp, setMemberVoting, votesInSet]
    | none =>
      have hk : (membersMap info).1 k = none :=
        (memberAt_eq_none_iff _ _ (membersMap_wf info false) k).1 hb
      have ho : opOf (votePlan rt info) k = none := by
        unfold opOf
        have h1 : (k, false) ∉ votePlan rt info := fun h =>
          (votePlan_target rt info k false h).1 hk
        have h2 : (k, true) ∉ votePlan rt info := fun h =>
          (votePlan_target rt info k true h).1 hk
        simp [h1, h2]
      rw [ho, isVotingAt_eq, hb]
      by_cases hkl : k ∈ keepList info
      · simp only [hkl, if_true, Option.map_some', optTest, votesInSet_refresh]
        rfl
      · simp [hkl, optTest]

/-! ## The status index with distinct member ids -/

theorem statusMatches_unique (info : peerGroupInfo) (hmids : distinctMemberIds info.members)
    (status : Status) (k k' : Nat)
    (h : k ∈ statusMatches info.machines.length info.members (membersMap info).1 status)
    (h' : k' ∈ statusMatches info.machines.length info.members (membersMap info).1 status) :
    k = k' := by
  rw [mem_statusMatches] at h h'
  obtain ⟨_, b, hb, hid⟩ := h
  obtain ⟨_, b', hb', hid'⟩ := h'
  unfold memberAt at hb hb'
  cases hk : (membersMap info).1 k with
  | none => simp [hk] at hb
  | some p =>
    cases hk' : (membersMap info).1 k' with
    | none => simp [hk'] at hb'
    | some p' =>
      simp only [hk] at hb
      simp only [hk'] at hb'
      have := nodup_map_index_inj (fun m : Member => m.Id) info.members hmids p p' b b' hb hb'
        (hid.trans hid'.symm)
      subst this
      exact (membersMap_wf info false).inj k k' p hk hk'

theorem statusesMapLoop_fold (pick : Nat → Nat) (n : Nat) (heap : List Member)
    (members : MemberMap)
    (hu : ∀ status k k', k ∈ statusMatches n heap members status →
      k' ∈ statusMatches n heap members status → k = k')
    (l : List Status) (j : Nat) (acc : StatusMap) (k : Nat) :
    statusesMapLoop pick n heap members l j acc k =
      l.foldl (fun a s => if k ∈ statusMatches n heap members s then some s else a) (acc k) := by
  induction l generalizing j acc with
  | nil => rfl
  | cons status rest ih =>
    unfold statusesMapLoop
    simp only [List.foldl_cons]
    cases hm : (statusMatches n heap members status)[pick j %
        (statusMatches n heap members status).length]? with
    | some m =>
      simp only []
      rw [ih]
      have hmem := List.getElem?_mem hm
      by_cases hk : k = m
      · subst hk
        simp [mapSet, hmem]
      · have : k ∉ statusMatches n heap members status := fun hin => hk (hu status k m hin hmem)
        simp [mapSet, hk, this]
    | none =>
      simp only []
      rw [ih]
      have hnil : statusMatches n heap members status = [] := by
        cases hl : statusMatches n heap members status with
        | nil => rfl
        | cons a as =>
          rw [hl] at hm
          have hlt : pick j % (a :: as).length < (a :: as).length :=
            Nat.mod_lt _ (by simp)
          rw [List.getElem?_eq_getElem hlt] at hm
          exact absurd hm (by simp)
      simp [hnil]

theorem lastStatus_fold (l : List Status) (id : Int) (init : Option Status) :
    l.foldl (fun acc s => if s.Id = id then some s else acc) init =
      match lastStatus l id with
      | some s => some s
      | none => init := by
  unfold lastStatus
  induction l generalizing init with
  | nil => rfl
  | cons a rest ih =>
    simp only [List.foldl_cons]
    rw [ih, ih (if a.Id = id then some a else none)]
    cases List.foldl (fun acc s => if s.Id = id then some s else acc) none rest with
    | some s => rfl
    | none =>
      by_cases h : a.Id = id <;> simp [h]

/-- With distinct member ids, the status of a machine is the last status that has the id
of the member bound to the machine. -/
theorem statusIndex_eq (rt : Runtime) (info : peerGroupInfo)
    (hmids : distinctMemberIds info.members) (k : Nat) :
    statusIndex rt info k =
      match boundMember info k with
      | some b => lastStatus info.statuses b.Id
      | none => none := by
  unfold statusIndex statusesMap
  rw [statusesMapLoop_fold _ _ _ _ (statusMatches_unique info hmids)]
  cases hb : boundMember info k with
  | none =>
    simp only []
    have : ∀ s, k ∉ statusMatches info.machines.length info.members (membersMap info).1 s := by
      intro s hin
      rw [mem_statusMatches] at hin
      obtain ⟨_, b, h1, _⟩ := hin
      unfold boundMember at hb
      rw [hb] at h1
      exact absurd h1 (by simp)
    simp only [this, if_false]
    induction info.statuses with
    | nil => rfl
    | cons a rest ih => simp
  | some b =>
    simp only []
    have hlt := boundMember_lt info k b hb
    have : ∀ s, k ∈ statusMatches info.machines.length info.members (membersMap info).1 s ↔
        s.Id = b.Id := by
      intro s
      rw [mem_statusMatches]
      unfold boundMember at hb
      constructor
      · rintro ⟨_, b', h1, h2⟩
        rw [hb] at h1
        simp only [Option.some.injEq] at h1
        rw [h1, h2]
      · intro h
        exact ⟨hlt, b, hb, h.symm⟩
    simp only [this]
    rw [lastStatus_fold]
    cases lastStatus info.statuses b.Id <;> rfl

/-! ## Two runs on reordered inputs -/

theorem Reordered.symm {info1 info2 : peerGroupInfo} (h : Reordered info1 info2) :
    Reordered info2 info1 :=
  ⟨h.machines.symm, h.members.symm, h.statuses.symm, h.mongoPort.symm,
    ((h.machines.map _).nodup_iff).1 h.ids,
    ((h.members.filterMap machineTag).nodup_iff).1 h.tags,
    ((h.members.map _).nodup_iff).1 h.memberIds⟩

theorem bound_reordered_some {info1 info2 : peerGroupInfo} (h : Reordered info1 info2)
    (k1 k2 : Nat) (m : machine) (h1 : info1.machines[k1]? = some m)
    (h2 : info2.machines[k2]? = some m) (b : Member) (hb : boundMember info1 k1 = some b) :
    boundMember info2 k2 = some b := by
  obtain ⟨hmem, m', hm', ht⟩ := boundMember_tag info1 k1 b hb
  rw [h1] at hm'
  simp only [Option.some.injEq] at hm'
  subst hm'
  exact boundMember_of_tag info2 h.symm.ids h.symm.tags k2 m b h2 (h.members.mem_iff.1 hmem) ht

theorem bound_reordered {info1 info2 : peerGroupInfo} (h : Reordered info1 info2)
    (k1 k2 : Nat) (m : machine) (h1 : info1.machines[k1]? = some m)
    (h2 : info2.machines[k2]? = some m) : boundMember info1 k1 = boundMember info2 k2 := by
  cases hb : boundMember info1 k1 with
  | some b => rw [bound_reordered_some h k1 k2 m h1 h2 b hb]
  | none =>
    cases hb' : boundMember info2 k2 with
    | none => rfl
    | some b =>
      rw [bound_reordered_some h.symm k2 k1 m h2 h1 b hb'] at hb
      exact absurd hb (by simp)

theorem isVoting_reordered {info1 info2 : peerGroupInfo} (h : Reordered info1 info2)
    (k1 k2 : Nat) (m : machine) (h1 : info1.machines[k1]? = some m)
    (h2 : info2.machines[k2]? = some m) :
    isVotingAt info1.members (membersMap info1).1 k1 =
      isVotingAt info2.members (membersMap info2).1 k2 := by
  rw [isVotingAt_eq, isVotingAt_eq, bound_reordered h k1 k2 m h1 h2]

theorem ready_reordered (rt1 rt2 : Runtime) {info1 info2 : peerGroupInfo}
    (h : Reordered info1 info2) (k1 k2 : Nat) (m : machine)
    (h1 : info1.machines[k1]? = some m) (h2 : info2.machines[k2]? = some m) :
    readyAt (statusIndex rt1 info1) k1 = readyAt (statusIndex rt2 info2) k2 := by
  unfold readyAt
  rw [statusIndex_eq rt1 info1 h.memberIds, statusIndex_eq rt2 info2 h.symm.memberIds,
    bound_reordered h k1 k2 m h1 h2, h.statuses]

theorem position_reordered {info1 info2 : peerGroupInfo} (h : Reordered info1 info2)
    (k1 : Nat) (m : machine) (h1 : info1.machines[k1]? = some m) :
    ∃ k2 : Nat, info2.machines[k2]? = some m :=
  List.mem_iff_getElem?.1 (h.machines.mem_iff.1 (List.getElem?_mem h1))

theorem sortedAdd_reordered (rt1 rt2 : Runtime) {info1 info2 : peerGroupInfo}
    (h : Reordered info1 info2) (k1 k2 : Nat) (m : machine)
    (h1 : info1.machines[k1]? = some m) (h2 : info2.machines[k2]? = some m) :
    k1 ∈ sortedAdd rt1 info1 ↔ k2 ∈ sortedAdd rt2 info2 := by
  rw [mem_sortedAdd, mem_sortedAdd, h1, h2, isVoting_reordered h k1 k2 m h1 h2,
    ready_reordered rt1 rt2 h k1 k2 m h1 h2]

theorem sortedRemove_reordered {info1 info2 : peerGroupInfo}
    (h : Reordered info1 info2) (k1 k2 : Nat) (m : machine)
    (h1 : info1.machines[k1]? = some m) (h2 : info2.machines[k2]? = some m) :
    k1 ∈ sortedRemove info1 ↔ k2 ∈ sortedRemove info2 := by
  rw [mem_sortedRemove, mem_sortedRemove, h1, h2, isVoting_reordered h k1 k2 m h1 h2]

theorem keepList_reordered {info1 info2 : peerGroupInfo}
    (h : Reordered info1 info2) (k1 k2 : Nat) (m : machine)
    (h1 : info1.machines[k1]? = some m) (h2 : info2.machines[k2]? = some m) :
    k1 ∈ keepList info1 ↔ k2 ∈ keepList info2 := by
  rw [mem_keepList, mem_keepList, h1, h2, isVoting_reordered h k1 k2 m h1 h2]

/-! ## The sorted slices as lists of ids -/

theorem sortById_ids_sorted (machines : List machine) (l : List Nat) :
    ((sortById machines l).map (idAt machines)).Sorted idLe := by
  have h := List.sorted_insertionSort (byIdOrder machines) l
  exact List.Pairwise.map (idAt machines) (fun a b hab => hab) h

theorem idAt_inj (machines : List machine) (hids : distinctIds machines) (k k' : Nat)
    (hk : k < machines.length) (hk' : k' < machines.length)
    (h : idAt machines k = idAt machines k') : k = k' := by
  have e1 : machines[k]? = some machines[k] := List.getElem?_eq_getElem hk
  have e2 : machines[k']? = some machines[k'] := List.getElem?_eq_getElem hk'
  rw [idAt_of_getElem? _ _ _ e1, idAt_of_getElem? _ _ _ e2] at h
  exact nodup_map_index_inj (fun m : machine => m.id) machines hids k k' _ _ e1 e2 h

theorem ids_nodup (machines : List machine) (hids : distinctIds machines) (l : List Nat)
    (hl : l.Nodup) (hlt : ∀ k ∈ l, k < machines.length) : (l.map (idAt machines)).Nodup := by
  apply List.Nodup.map_on _ hl
  intro a ha b hb hab
  exact idAt_inj machines hids a b (hlt a ha) (hlt b hb) hab

theorem sortedAdd_lt (rt : Runtime) (info : peerGroupInfo) (k : Nat)
    (h : k ∈ sortedAdd rt info) : k < info.machines.length := by
  obtain ⟨m, hm, _⟩ := (mem_sortedAdd rt info k).1 h
  exact (List.getElem?_eq_some_iff.1 hm).1

theorem sortedRemove_lt (info : peerGroupInfo) (k : Nat)
    (h : k ∈ sortedRemove info) : k < info.machines.length := by
  obtain ⟨m, hm, _⟩ := (mem_sortedRemove info k).1 h
  exact (List.getElem?_eq_some_iff.1 hm).1

theorem sortedAdd_nodup (rt : Runtime) (info : peerGroupInfo) : (sortedAdd rt info).Nodup :=
  sortById_nodup _ _ (positionsWhere_nodup _ _ _)

theorem sortedRemove_nodup (info : peerGroupInfo) : (sortedRemove info).Nodup :=
  sortById_nodup _ _ (positionsWhere_nodup _ _ _)

theorem mem_ids_iff (machines : List machine) (l : List Nat) (x : String) :
    x ∈ l.map (idAt machines) ↔ ∃ k ∈ l, idAt machines k = x := by
  simp [List.mem_map]

theorem addIds_reordered (rt1 rt2 : Runtime) {info1 info2 : peerGroupInfo}
    (h : Reordered info1 info2) :
    (sortedAdd rt1 info1).map (idAt info1.machines) =
      (sortedAdd rt2 info2).map (idAt info2.machines) := by
  refine List.eq_of_perm_of_sorted ?_ (sortById_ids_sorted _ _) (sortById_ids_sorted _ _)
  show ((sortedAdd rt1 info1).map (idAt info1.machines)).Perm
    ((sortedAdd rt2 info2).map (idAt info2.machines))
  rw [List.perm_ext_iff_of_nodup
    (ids_nodup _ h.ids _ (sortedAdd_nodup rt1 info1) (sortedAdd_lt rt1 info1))
    (ids_nodup _ h.symm.ids _ (sortedAdd_nodup rt2 info2) (sortedAdd_lt rt2 info2))]
  intro x
  rw [mem_ids_iff, mem_ids_iff]
  constructor
  · rintro ⟨k1, hk1, hx⟩
    obtain ⟨m, hm, _⟩ := (mem_sortedAdd rt1 info1 k1).1 hk1
    obtain ⟨k2, hk2⟩ := position_reordered h k1 m hm
    refine ⟨k2, (sortedAdd_reordered rt1 rt2 h k1 k2 m hm hk2).1 hk1, ?_⟩
    rw [← hx, idAt_of_getElem? _ _ _ hm, idAt_of_getElem? _ _ _ hk2]
  · rintro ⟨k2, hk2, hx⟩
    obtain ⟨m, hm, _⟩ := (mem_sortedAdd rt2 info2 k2).1 hk2
    obtain ⟨k1, hk1⟩ := position_reordered h.symm k2 m hm
    refine ⟨k1, (sortedAdd_reordered rt1 rt2 h k1 k2 m hk1 hm).2 hk2, ?_⟩
    rw [← hx, idAt_of_getElem? _ _ _ hm, idAt_of_getElem? _ _ _ hk1]

theorem removeIds_reordered {info1 info2 : peerGroupInfo} (h : Reordered info1 info2) :
    (sortedRemove info1).map (idAt info1.machines) =
      (sortedRemove info2).map (idAt info2.machines) := by
  refine List.eq_of_perm_of_sorted ?_ (sortById_ids_sorted _ _) (sortById_ids_sorted _ _)
  show ((sortedRemove info1).map (idAt info1.machines)).Perm
    ((sortedRemove info2).map (idAt info2.machines))
  rw [List.perm_ext_iff_of_nodup
    (ids_nodup _ h.ids _ (sortedRemove_nodup info1) (sortedRemove_lt info1))
    (ids_nodup _ h.symm.ids _ (sortedRemove_nodup info2) (sortedRemove_lt info2))]
  intro x
  rw [mem_ids_iff, mem_ids_iff]
  constructor
  · rintro ⟨k1, hk1, hx⟩
    obtain ⟨m, hm, _⟩ := (mem_sortedRemove info1 k1).1 hk1
    obtain ⟨k2, hk2⟩ := position_reordered h k1 m hm
    refine ⟨k2, (sortedRemove_reordered h k1 k2 m hm hk2).1 hk1, ?_⟩
    rw [← hx, idAt_of_getElem? _ _ _ hm, idAt_of_getElem? _ _ _ hk2]
  · rintro ⟨k2, hk2, hx⟩
    obtain ⟨m, hm, _⟩ := (mem_sortedRemove info2 k2).1 hk2
    obtain ⟨k1, hk1⟩ := position_reordered h.symm k2 m hm
    refine ⟨k1, (sortedRemove_reordered h k1 k2 m hk1 hm).2 hk2, ?_⟩
    rw [← hx, idAt_of_getElem? _ _ _ hm, idAt_of_getElem? _ _ _ hk1]

theorem sortedAdd_length_reordered (rt1 rt2 : Runtime) {info1 info2 : peerGroupInfo}
    (h : Reordered info1 info2) : (sortedAdd rt1 info1).length = (sortedAdd rt2 info2).length := by
  have := congrArg List.length (addIds_reordered rt1 rt2 h)
  simpa using this

theorem sortedRemove_length_reordered {info1 info2 : peerGroupInfo}
    (h : Reordered info1 info2) : (sortedRemove info1).length = (sortedRemove info2).length := by
  have := congrArg List.length (removeIds_reordered h)
  simpa using this

theorem mem_take_ids (machines : List machine) (hids : distinctIds machines) (l : List Nat)
    (hlt : ∀ k ∈ l, k < machines.length) (g k : Nat) (hk : k < machines.length) :
    k ∈ l.take g ↔ idAt machines k ∈ (l.map (idAt machines)).take g := by
  rw [← List.map_take]
  constructor
  · exact fun h => List.mem_map_of_mem _ h
  · intro h
    obtain ⟨k', hk', he⟩ := List.mem_map.1 h
    have := idAt_inj machines hids k' k (hlt k' (List.mem_of_mem_take hk')) hk he
    rw [← this]
    exact hk'

theorem granted_reordered (rt1 rt2 : Runtime) {info1 info2 : peerGroupInfo}
    (h : Reordered info1 info2) (k1 k2 : Nat) (m : machine)
    (h1 : info1.machines[k1]? = some m) (h2 : info2.machines[k2]? = some m) :
    k1 ∈ granted rt1 info1 ↔ k2 ∈ granted rt2 info2 := by
  unfold granted
  rw [mem_take_ids _ h.ids _ (sortedAdd_lt rt1 info1) _ k1 (List.getElem?_eq_some_iff.1 h1).1,
    mem_take_ids _ h.symm.ids _ (sortedAdd_lt rt2 info2) _ k2 (List.getElem?_eq_some_iff.1 h2).1,
    addIds_reordered rt1 rt2 h, sortedAdd_length_reordered rt1 rt2 h,
    sortedRemove_length_reordered h, idAt_of_getElem? _ _ _ h1, idAt_of_getElem? _ _ _ h2]

theorem revoked_reordered (rt1 rt2 : Runtime) {info1 info2 : peerGroupInfo}
    (h : Reordered info1 info2) (k1 k2 : Nat) (m : machine)
    (h1 : info1.machines[k1]? = some m) (h2 : info2.machines[k2]? = some m) :
    k1 ∈ revoked rt1 info1 ↔ k2 ∈ revoked rt2 info2 := by
  unfold revoked
  rw [mem_take_ids _ h.ids _ (sortedRemove_lt info1) _ k1 (List.getElem?_eq_some_iff.1 h1).1,
    mem_take_ids _ h.symm.ids _ (sortedRemove_lt info2) _ k2 (List.getElem?_eq_some_iff.1 h2).1,
    removeIds_reordered h, sortedAdd_length_reordered rt1 rt2 h,
    sortedRemove_length_reordered h, idAt_of_getElem? _ _ _ h1, idAt_of_getElem? _ _ _ h2]

theorem opOf_reordered (rt1 rt2 : Runtime) {info1 info2 : peerGroupInfo}
    (h : Reordered info1 info2) (k1 k2 : Nat) (m : machine)
    (h1 : info1.machines[k1]? = some m) (h2 : info2.machines[k2]? = some m) :
    opOf (votePlan rt1 info1) k1 = opOf (votePlan rt2 info2) k2 := by
  have hg := granted_reordered rt1 rt2 h k1 k2 m h1 h2
  have hr := revoked_reordered rt1 rt2 h k1 k2 m h1 h2
  rw [← opOf_eq_some_true, ← opOf_eq_some_true] at hg
  rw [← opOf_eq_some_false, ← opOf_eq_some_false] at hr
  cases ho : opOf (votePlan rt1 info1) k1 with
  | none =>
    cases ho' : opOf (votePlan rt2 info2) k2 with
    | none => rfl
    | some v =>
      cases v with
      | true => rw [hg.2 ho'] at ho; exact absurd ho (by simp)
      | false => rw [hr.2 ho'] at ho; exact absurd ho (by simp)
  | some v =>
    cases v with
    | true => rw [hg.1 ho]
    | false => rw [hr.1 ho]

theorem planned_reordered (rt1 rt2 : Runtime) {info1 info2 : peerGroupInfo}
    (h : Reordered info1 info2) (k1 k2 : Nat) (m : machine)
    (h1 : info1.machines[k1]? = some m) (h2 : info2.machines[k2]? = some m) :
    plannedMember rt1 info1 k1 = plannedMember rt2 info2 k2 := by
  unfold plannedMember
  rw [bound_reordered h k1 k2 m h1 h2, opOf_reordered rt1 rt2 h k1 k2 m h1 h2]
  cases boundMember info2 k2 with
  | some b => rfl
  | none =>
    simp only []
    have hk := keepList_reordered h k1 k2 m h1 h2
    have hid : adoptedMember info1.machines k1 = adoptedMember info2.machines k2 := by
      unfold adoptedMember
      rw [idAt_of_getElem? _ _ _ h1, idAt_of_getElem? _ _ _ h2]
    by_cases hc : k1 ∈ keepList info1
    · rw [if_pos hc, if_pos (hk.1 hc), hid]
    · rw [if_neg hc, if_neg (fun h' => hc (hk.2 h'))]

theorem refreshAddr_congr (rt1 rt2 : Runtime)
    (hsel : rt1.selectInternalAddress = rt2.selectInternalAddress) (p : Int) (m : machine)
    (member : Member) : refreshAddr rt1 p m member = refreshAddr rt2 p m member := by
  unfold refreshAddr
  rw [hsel]

theorem spec_reordered (rt1 rt2 : Runtime)
    (hsel : rt1.selectInternalAddress = rt2.selectInternalAddress)
    {info1 info2 : peerGroupInfo} (h : Reordered info1 info2) (k1 k2 : Nat) (m : machine)
    (h1 : info1.machines[k1]? = some m) (h2 : info2.machines[k2]? = some m) :
    specMember rt1 info1 k1 = specMember rt2 info2 k2 := by
  unfold specMember
  rw [h1, h2, planned_reordered rt1 rt2 h k1 k2 m h1 h2, h.mongoPort]
  simp only []
  cases plannedMember rt2 info2 k2 with
  | none => rfl
  | some b => simp [refreshAddr_congr rt1 rt2 hsel]

theorem panics_reordered (rt1 rt2 : Runtime)
    (hsel : rt1.selectInternalAddress = rt2.selectInternalAddress)
    {info1 info2 : peerGroupInfo} (h : Reordered info1 info2) (hp : specPanics rt1 info1) :
    specPanics rt2 info2 := by
  obtain ⟨k1, m, h1, h3, h4⟩ := hp
  obtain ⟨k2, h2⟩ := position_reordered h k1 m h1
  exact ⟨k2, m, h2, by rw [← hsel]; exact h3,
    by rw [← planned_reordered rt1 rt2 h k1 k2 m h1 h2]; exact h4⟩

theorem votePlan_ne_nil_iff (rt : Runtime) (info : peerGroupInfo) :
    votePlan rt info ≠ [] ↔ (∃ k, k ∈ granted rt info) ∨ ∃ k, k ∈ revoked rt info := by
  constructor
  · intro hne
    cases hl : votePlan rt info with
    | nil => exact absurd hl hne
    | cons op rest =>
      have hin : (op.1, op.2) ∈ votePlan rt info := by rw [hl]; simp
      cases hv : op.2 with
      | true =>
        rw [hv] at hin
        exact Or.inl ⟨op.1, (mem_granted rt info op.1).2 hin⟩
      | false =>
        rw [hv] at hin
        exact Or.inr ⟨op.1, (mem_revoked rt info op.1).2 hin⟩
  · rintro (⟨k, hk⟩ | ⟨k, hk⟩) hnil
    · have := (mem_granted rt info k).1 hk
      rw [hnil] at this
      simp at this
    · have := (mem_revoked rt info k).1 hk
      rw [hnil] at this
      simp at this

theorem granted_lt (rt : Runtime) (info : peerGroupInfo) (k : Nat) (h : k ∈ granted rt info) :
    k < info.machines.length :=
  (votePlan_target rt info k true ((mem_granted rt info k).1 h)).2.1

theorem revoked_lt (rt : Runtime) (info : peerGroupInfo) (k : Nat) (h : k ∈ revoked rt info) :
    k < info.machines.length :=
  (votePlan_target rt info k false ((mem_revoked rt info k).1 h)).2.1

theorem changed_reordered (rt1 rt2 : Runtime)
    (hsel : rt1.selectInternalAddress = rt2.selectInternalAddress)
    {info1 info2 : peerGroupInfo} (h : Reordered info1 info2) (c : Bool)
    (hc : specChanged rt1 info1 c) : specChanged rt2 info2 c := by
  rcases hc with hc | hc | ⟨k1, hk, hb⟩ | ⟨k1, m, member, h1, h3, h4⟩
  · exact Or.inl hc
  · right; left
    rw [votePlan_ne_nil_iff] at hc ⊢
    rcases hc with ⟨k1, hk⟩ | ⟨k1, hk⟩
    · have hlt := granted_lt rt1 info1 k1 hk
      obtain ⟨k2, h2⟩ := position_reordered h k1 _ (List.getElem?_eq_getElem hlt)
      exact Or.inl ⟨k2, (granted_reordered rt1 rt2 h k1 k2 _ (List.getElem?_eq_getElem hlt) h2).1 hk⟩
    · have hlt := revoked_lt rt1 info1 k1 hk
      obtain ⟨k2, h2⟩ := position_reordered h k1 _ (List.getElem?_eq_getElem hlt)
      exact Or.inr ⟨k2, (revoked_reordered rt1 rt2 h k1 k2 _ (List.getElem?_eq_getElem hlt) h2).1 hk⟩
  · right; right; left
    obtain ⟨m, h1, _⟩ := (mem_keepList info1 k1).1 hk
    obtain ⟨k2, h2⟩ := position_reordered h k1 m h1
    exact ⟨k2, (keepList_reordered h k1 k2 m h1 h2).1 hk,
      by rw [← bound_reordered h k1 k2 m h1 h2]; exact hb⟩
  · right; right; right
    obtain ⟨k2, h2⟩ := position_reordered h k1 m h1
    refine ⟨k2, m, member, h2, by rw [← planned_reordered rt1 rt2 h k1 k2 m h1 h2]; exact h3, ?_⟩
    unfold needsRefresh at h4 ⊢
    rw [← hsel, ← h.mongoPort]
    exact h4

theorem specMember_inj (rt : Runtime) (info : peerGroupInfo) (hids : distinctIds info.machines)
    (k k' : Nat) (x : Member) (h : specMember rt info k = some x)
    (h' : specMember rt info k' = some x) : k = k' := by
  obtain ⟨m, h1, h2⟩ := specMember_tag rt info k x h
  obtain ⟨m', h1', h2'⟩ := specMember_tag rt info k' x h'
  rw [h2] at h2'
  simp only [Option.some.injEq] at h2'
  exact nodup_map_index_inj (fun m : machine => m.id) info.machines hids k k' m m' h1 h1' h2'

theorem specMember_lt (rt : Runtime) (info : peerGroupInfo) (k : Nat) (x : Member)
    (h : specMember rt info k = some x) : k < info.machines.length := by
  obtain ⟨m, h1, _⟩ := specMember_tag rt info k x h
  exact (List.getElem?_eq_some_iff.1 h1).1

theorem spec_values_perm (rt1 rt2 : Runtime)
    (hsel : rt1.selectInternalAddress = rt2.selectInternalAddress)
    {info1 info2 : peerGroupInfo} (h : Reordered info1 info2) :
    ((List.range info1.machines.length).filterMap (specMember rt1 info1)).Perm
      ((List.range info2.machines.length).filterMap (specMember rt2 info2)) := by
  rw [List.perm_ext_iff_of_nodup
    (List.Nodup.filterMap (fun k k' x hx hx' => specMember_inj rt1 info1 h.ids k k' x hx hx')
      (List.nodup_range _))
    (List.Nodup.filterMap (fun k k' x hx hx' => specMember_inj rt2 info2 h.symm.ids k k' x hx hx')
      (List.nodup_range _))]
  intro x
  simp only [List.mem_filterMap, List.mem_range]
  constructor
  · rintro ⟨k1, hlt, hx⟩
    obtain ⟨k2, h2⟩ := position_reordered h k1 _ (List.getElem?_eq_getElem hlt)
    have := spec_reordered rt1 rt2 hsel h k1 k2 _ (List.getElem?_eq_getElem hlt) h2
    rw [this] at hx
    exact ⟨k2, specMember_lt rt2 info2 k2 x hx, hx⟩
  · rintro ⟨k2, hlt, hx⟩
    obtain ⟨k1, h1⟩ := position_reordered h.symm k2 _ (List.getElem?_eq_getElem hlt)
    have := spec_reordered rt1 rt2 hsel h k1 k2 _ h1 (List.getElem?_eq_getElem hlt)
    rw [← this] at hx
    exact ⟨k1, specMember_lt rt1 info1 k1 x hx, hx⟩

theorem isExtra_reordered {info1 info2 : peerGroupInfo} (h : Reordered info1 info2)
    (member : Member) (he : isExtra info1.machines member) : isExtra info2.machines member := by
  unfold isExtra at he ⊢
  cases ht : member.Tags.lookup machineIdTag with
  | none => trivial
  | some mid =>
    rw [ht] at he
    simp only [] at he ⊢
    intro m hm
    exact he m (h.machines.mem_iff.2 hm)

theorem extraLoop_reordered {info1 info2 : peerGroupInfo} (h : Reordered info1 info2) :
    extraLoop (membersMap info1).2 false = extraLoop (membersMap info2).2 false := by
  have key : ∀ {i1 i2 : peerGroupInfo}, Reordered i1 i2 → ∀ c,
      extraLoop (membersMap i1).2 false = some c → extraLoop (membersMap i2).2 false = some c := by
    intro i1 i2 hr c hc
    cases hc2 : extraLoop (membersMap i2).2 false with
    | none =>
      obtain ⟨member, hm, he, hv⟩ := (extraLoop_membersMap i2).1.1 hc2
      have := (extraLoop_membersMap i1).1.2
        ⟨member, hr.members.mem_iff.2 hm, isExtra_reordered hr.symm member he, hv⟩
      rw [this] at hc
      exact absurd hc (by simp)
    | some c2 =>
      have e1 := (extraLoop_membersMap i1).2 c hc
      have e2 := (extraLoop_membersMap i2).2 c2 hc2
      have : c = true ↔ c2 = true := by
        rw [e1, e2]
        constructor
        · rintro ⟨member, hm, he⟩
          exact ⟨member, hr.members.mem_iff.1 hm, isExtra_reordered hr member he⟩
        · rintro ⟨member, hm, he⟩
          exact ⟨member, hr.members.mem_iff.2 hm, isExtra_reordered hr.symm member he⟩
      cases c <;> cases c2 <;> simp at this ⊢
  cases hc : extraLoop (membersMap info1).2 false with
  | some c => rw [key h c hc]
  | none =>
    cases hc2 : extraLoop (membersMap info2).2 false with
    | none => rfl
    | some c2 =>
      rw [key h.symm c2 hc2] at hc
      exact absurd hc (by simp)

theorem returned_eq (rt : Runtime) (info : peerGroupInfo) :
    returned rt info =
      match extraLoop (membersMap info).2 false with
      | none => some ⟨none, some errExtraVoting⟩
      | some c =>
        (planVotes rt info ⟨info.machines, info.members, (membersMap info).1, c⟩).map
          Prod.fst := by
  unfold returned
  rw [desiredPeerGroup_eq]
  cases extraLoop (membersMap info).2 false <;> rfl

/-- The result of a run that does not return the error, from the description of the run. -/
theorem planVotes_result (rt : Runtime) (info : peerGroupInfo) (c : Bool) :
    (specPanics rt info ∧
      planVotes rt info ⟨info.machines, info.members, (membersMap info).1, c⟩ = none) ∨
    (¬ specPanics rt info ∧ ¬ specChanged rt info c ∧
      (planVotes rt info ⟨info.machines, info.members, (membersMap info).1, c⟩).map Prod.fst =
        some ⟨none, none⟩) ∨
    (¬ specPanics rt info ∧ specChanged rt info c ∧
      ∃ ms, (planVotes rt info ⟨info.machines, info.members, (membersMap info).1, c⟩).map
          Prod.fst = some ⟨ms, none⟩ ∧
        (ms = none ↔ (List.range info.machines.length).filterMap (specMember rt info) = []) ∧
        ∀ l, ms = some l →
          l.Perm ((List.range info.machines.length).filterMap (specMember rt info))) := by
  obtain ⟨hN, hS⟩ := planVotes_spec rt info c
  cases hp : planVotes rt info ⟨info.machines, info.members, (membersMap info).1, c⟩ with
  | none => exact Or.inl ⟨hN.1 hp, rfl⟩
  | some x =>
    have hnp : ¬ specPanics rt info := fun h => by
      rw [hN.2 h] at hp
      exact absurd hp (by simp)
    obtain ⟨hwf, hview, _, hch, hr, _, _, _, _⟩ := hS x.1 x.2 hp
    have hvals : mapValues x.2 =
        (List.range info.machines.length).filterMap (specMember rt info) := by
      rw [mapValues_eq, hwf.len]
      exact congrArg (fun f => List.filterMap f _) (funext hview)
    right
    cases hc : x.2.changed with
    | false =>
      left
      refine ⟨hnp, fun h => ?_, ?_⟩
      · rw [hch.2 h] at hc
        exact absurd hc (by simp)
      · rw [hc] at hr
        simp [hr]
    | true =>
      right
      refine ⟨hnp, hch.1 hc, memberSet rt.order x.2, ?_, ?_, ?_⟩
      · rw [hc] at hr
        simp [hr]
      · rw [memberSet_eq_none, hvals]
      · intro l hl
        rw [← hvals]
        exact memberSet_perm rt.order x.2 l hl

theorem sameResult_of_reordered (rt1 rt2 : Runtime)
    (hsel : rt1.selectInternalAddress = rt2.selectInternalAddress)
    {info1 info2 : peerGroupInfo} (h : Reordered info1 info2) :
    sameResult (returned rt1 info1) (returned rt2 info2) := by
  rw [returned_eq, returned_eq, extraLoop_reordered h]
  cases extraLoop (membersMap info2).2 false with
  | none => simp [sameResult]
  | some c =>
    simp only []
    have hperm := spec_values_perm rt1 rt2 hsel h
    rcases planVotes_result rt1 info1 c with ⟨hp1, e1⟩ | ⟨hp1, hc1, e1⟩ | ⟨hp1, hc1, ms1, e1, hn1, hl1⟩
    · have hp2 := panics_reordered rt1 rt2 hsel h hp1
      rcases planVotes_result rt2 info2 c with ⟨_, e2⟩ | ⟨hp2', _, _⟩ | ⟨hp2', _, _⟩
      · rw [e1, e2]
        simp [sameResult]
      · exact absurd hp2 hp2'
      · exact absurd hp2 hp2'
    · rcases planVotes_result rt2 info2 c with ⟨hp2, _⟩ | ⟨_, _, e2⟩ | ⟨_, hc2, _⟩
      · exact absurd (panics_reordered rt2 rt1 hsel.symm h.symm hp2) hp1
      · rw [e1, e2]
        simp [sameResult]
      · exact absurd (changed_reordered rt2 rt1 hsel.symm h.symm c hc2) hc1
    · rcases planVotes_result rt2 info2 c with ⟨hp2, _⟩ | ⟨_, hc2, _⟩ | ⟨_, _, ms2, e2, hn2, hl2⟩
      · exact absurd (panics_reordered rt2 rt1 hsel.symm h.symm hp2) hp1
      · exact absurd (changed_reordered rt1 rt2 hsel h c hc1) hc2
      · rw [e1, e2]
        cases hm1 : ms1 with
        | none =>
          have h1 := hn1.1 hm1
          rw [h1] at hperm
          have h2 := hn2.2 hperm.symm.eq_nil
          rw [h2]
          simp [sameResult]
        | some l1 =>
          cases hm2 : ms2 with
          | none =>
            have h2 := hn2.1 hm2
            rw [h2] at hperm
            have h1 := hn1.2 hperm.eq_nil
            rw [h1] at hm1
            exact absurd hm1 (by simp)
          | some l2 =>
            simp only [sameResult, and_true]
            exact ((hl1 l1 hm1).trans hperm).trans (hl2 l2 hm2).symm

/-! ## The claims -/

theorem returned_some (rt : Runtime) (info : peerGroupInfo) (r : Ret)
    (h : returned rt info = some r) : ∃ st, desiredPeerGroup rt info = some (r, st) := by
  unfold returned at h
  cases hd : desiredPeerGroup rt info with
  | none => rw [hd] at h; simp at h
  | some x =>
    rw [hd] at h
    simp only [Option.map_some', Option.some.injEq] at h
    exact ⟨x.2, by rw [← h]⟩

theorem finalMember_of_run (rt : Runtime) (info : peerGroupInfo) (r : Ret) (st : Vars)
    (h : desiredPeerGroup rt info = some (r, st)) (k : Nat) :
    finalMember rt info k = memberAt st.heap st.members k := by
  simp [finalMember, h]

/-- C1: the reducer returns the extra-voting-member error, with a nil membership, exactly
when some live member that is extra has votes present and positive. -/
theorem extra_voting_error_iff (rt : Runtime) (info : peerGroupInfo) :
    returned rt info = some ⟨none, some errExtraVoting⟩ ↔
      ∃ member ∈ info.members, isExtra info.machines member ∧ votesPositive member = true :=
  returned_error_iff_extra rt info

/-- C2: when the reducer returns the extra-voting-member error, the caller's input is as it
was before the call: every member record and every machine, with its voting flag. -/
theorem error_leaves_input (rt : Runtime) (info : peerGroupInfo)
    (h : returned rt info = some ⟨none, some errExtraVoting⟩) :
    inputAfter rt info = some info := by
  have hx := (returned_error_iff rt info).1 h
  unfold inputAfter
  rw [desiredPeerGroup_eq, hx]
  simp [infoAfter]

theorem error_leaves_input_witness :
    returned rtExample infoExtraVoting = some ⟨none, some errExtraVoting⟩ ∧
      inputAfter rtExample infoExtraVoting = some infoExtraVoting :=
  ⟨by decide, error_leaves_input rtExample infoExtraVoting (by decide)⟩

/-- C8: a returned membership holds no extra member: every member in it carries a
`juju-machine-id` tag whose value is the id of a machine of the input. -/
theorem returned_members_bound (rt : Runtime) (info : peerGroupInfo) (ms : List Member)
    (e : Option String) (h : returned rt info = some ⟨some ms, e⟩) :
    ∀ member ∈ ms, ∃ m ∈ info.machines, member.Tags.lookup machineIdTag = some m.id := by
  obtain ⟨st, hst⟩ := returned_some rt info _ h
  obtain ⟨c, _, hp⟩ := run_of_no_error rt info _ st hst (by simp)
  obtain ⟨_, hview, _, _, hr, _, _, _, _⟩ := (planVotes_spec rt info c).2 _ st hp
  intro member hmem
  cases hc : st.changed with
  | false => simp [hc] at hr
  | true =>
    simp only [hc, if_true, Ret.mk.injEq] at hr
    have hperm := memberSet_perm rt.order st ms hr.1.symm
    obtain ⟨k, _, hk⟩ := (mem_mapValues st member).1 (hperm.mem_iff.1 hmem)
    rw [hview] at hk
    obtain ⟨m, h1, h2⟩ := specMember_tag rt info k member hk
    exact ⟨m, List.getElem?_mem h1, h2⟩

theorem returned_members_bound_witness :
    returned rtExample infoAdopt =
        some ⟨some [mkMember 1 "1" (some 1) none "", mkMember 0 "2" (some 0) (some 0) "h2:37017"],
          none⟩ ∧
      ∀ member ∈ [mkMember 1 "1" (some 1) none "", mkMember 0 "2" (some 0) (some 0) "h2:37017"],
        ∃ m ∈ infoAdopt.machines, member.Tags.lookup machineIdTag = some m.id :=
  ⟨by decide, returned_members_bound rtExample infoAdopt _ none (by decide)⟩

/-- C10: in a returned membership, the member made for a machine that had no bound live
member is in the membership, has explicit votes 0 and priority 0.0, and its tags are exactly
the `juju-machine-id` tag with the id of that machine. -/
theorem synthesized_member_nonvoting (rt : Runtime) (info : peerGroupInfo) (ms : List Member)
    (e : Option String) (h : returned rt info = some ⟨some ms, e⟩) (k : Nat) (m : machine)
    (member : Member) (hm : info.machines[k]? = some m) (hb : boundMember info k = none)
    (hf : finalMember rt info k = some member) :
    member ∈ ms ∧ member.Votes = some 0 ∧ member.Priority = some 0 ∧
      member.Tags = [(machineIdTag, m.id)] := by
  obtain ⟨st, hst⟩ := returned_some rt info _ h
  obtain ⟨c, _, hp⟩ := run_of_no_error rt info _ st hst (by simp)
  obtain ⟨hwf, hview, _, _, hr, _, _, _, _⟩ := (planVotes_spec rt info c).2 _ st hp
  rw [finalMember_of_run rt info _ st hst k] at hf
  have hspec := hf
  rw [hview] at hspec
  constructor
  · cases hc : st.changed with
    | false => simp [hc] at hr
    | true =>
      simp only [hc, if_true, Ret.mk.injEq] at hr
      have hperm := memberSet_perm rt.order st ms hr.1.symm
      apply hperm.mem_iff.2
      rw [mem_mapValues]
      exact ⟨k, by rw [hwf.len]; exact (List.getElem?_eq_some_iff.1 hm).1, hf⟩
  · unfold specMember at hspec
    simp only [hm] at hspec
    unfold plannedMember at hspec
    simp only [hb] at hspec
    by_cases hk : k ∈ keepList info
    · simp only [hk, if_true, Option.map_some', Option.some.injEq] at hspec
      rw [← hspec]
      obtain ⟨h1, _, h3, h4⟩ := refreshAddr_fields rt info.mongoPort m (adoptedMember info.machines k)
      rw [h1, h3, h4]
      simp [adoptedMember, setMemberVoting, newMember, idAt_of_getElem? _ _ _ hm]
    · simp [hk] at hspec

theorem synthesized_member_nonvoting_witness :
    mkMember 0 "2" (some 0) (some 0) "h2:37017" ∈
        [mkMember 1 "1" (some 1) none "", mkMember 0 "2" (some 0) (some 0) "h2:37017"] ∧
      (mkMember 0 "2" (some 0) (some 0) "h2:37017").Votes = some 0 ∧
      (mkMember 0 "2" (some 0) (some 0) "h2:37017").Priority = some 0 ∧
      (mkMember 0 "2" (some 0) (some 0) "h2:37017").Tags =
        [(machineIdTag, (mkMachine "2" false "h2").id)] :=
  synthesized_member_nonvoting rtExample infoAdopt
    [mkMember 1 "1" (some 1) none "", mkMember 0 "2" (some 0) (some 0) "h2:37017"] none
    (by decide) 1 (mkMachine "2" false "h2") (mkMember 0 "2" (some 0) (some 0) "h2:37017")
    (by decide) (by decide) (by decide)

theorem heapAfter_of_run (rt : Runtime) (info : peerGroupInfo) (l : List Member)
    (h : heapAfter rt info = some l) :
    ∃ r st, desiredPeerGroup rt info = some (r, st) ∧ st.heap = l := by
  unfold heapAfter at h
  cases hd : desiredPeerGroup rt info with
  | none => rw [hd] at h; simp at h
  | some x =>
    rw [hd] at h
    simp only [Option.map_some', Option.some.injEq] at h
    exact ⟨x.1, x.2, rfl, h⟩

theorem returned_of_run (rt : Runtime) (info : peerGroupInfo) (r : Ret) (st : Vars)
    (h : desiredPeerGroup rt info = some (r, st)) : returned rt info = some r := by
  simp [returned, h]

/-- C7, as the claim states it, fails: next to a steady voting candidate, an untagged member
that does not vote is left out of the membership, so the call returns a membership although
no extra member votes, no member cell is written and no member is made. -/
theorem no_update_claim_counterexample :
    (∀ member ∈ infoExtraIdle.members,
        isExtra infoExtraIdle.machines member → votesPositive member = false) ∧
      heapAfter rtExample infoExtraIdle = some infoExtraIdle.members ∧
      returned rtExample infoExtraIdle = some ⟨some [mkMember 1 "1" (some 1) none ""], none⟩ ∧
      returned rtExample infoExtraIdle ≠ some ⟨none, none⟩ := by
  decide

/-- C7, amended: for an input with no extra member in which every live member has its votes
present, a call that returns with every member cell as it was and no member made returns no
change, `(nil, nil)`. -/
theorem no_update_no_change (rt : Runtime) (info : peerGroupInfo)
    (hex : ∀ member ∈ info.members, ¬ isExtra info.machines member)
    (hv : ∀ member ∈ info.members, member.Votes ≠ none)
    (hheap : heapAfter rt info = some info.members) :
    returned rt info = some ⟨none, none⟩ := by
  obtain ⟨r, st, hst, hh⟩ := heapAfter_of_run rt info _ hheap
  have hne : r ≠ ⟨none, some errExtraVoting⟩ := by
    intro e
    rw [e] at hst
    obtain ⟨member, h1, h2, _⟩ :=
      (returned_error_iff_extra rt info).1 (returned_of_run rt info _ st hst)
    exact hex member h1 h2
  obtain ⟨c, hc, hp⟩ := run_of_no_error rt info r st hst hne
  have hc0 : c = false := by
    cases c with
    | false => rfl
    | true =>
      obtain ⟨member, h1, h2⟩ := ((extraLoop_membersMap info).2 true hc).1 rfl
      exact absurd h2 (hex member h1)
  subst hc0
  obtain ⟨hwf, hview, _, hch, hr, _, _, hkeep, hfresh⟩ := (planVotes_spec rt info false).2 _ st hp
  -- the cell of a bound member is as in the input
  have hsame : ∀ k b, boundMember info k = some b → specMember rt info k = some b := by
    intro k b hb
    rw [← hview]
    unfold boundMember memberAt at hb
    cases hk : (membersMap info).1 k with
    | none => simp [hk] at hb
    | some p =>
      simp only [hk] at hb
      simp only [memberAt, hkeep k p hk, hh]
      exact hb
  -- a machine without a bound member has no member cell
  have hnone : ∀ k, boundMember info k = none → specMember rt info k = none := by
    intro k hb
    rw [← hview]
    have hk : (membersMap info).1 k = none :=
      (memberAt_eq_none_iff _ _ (membersMap_wf info false) k).1 hb
    rw [memberAt_eq_none_iff _ _ hwf k]
    cases hs : st.members k with
    | none => rfl
    | some p =>
      rcases hfresh k p hs with h | h
      · rw [hk] at h; exact absurd h (by simp)
      · have := (hwf.dom k p hs).2
        rw [hh] at this
        omega
  have hplan : votePlan rt info = [] := by
    cases hl : votePlan rt info with
    | nil => rfl
    | cons op rest =>
      exfalso
      have hin : (op.1, op.2) ∈ votePlan rt info := by rw [hl]; simp
      obtain ⟨h1, h2, h3⟩ := votePlan_target rt info op.1 op.2 hin
      have hbne : boundMember info op.1 ≠ none := by
        unfold boundMember
        rw [Ne, memberAt_eq_none_iff _ _ (membersMap_wf info false) op.1]
        exact h1
      obtain ⟨b, hb⟩ := Option.ne_none_iff_exists'.1 hbne
      obtain ⟨m, hm⟩ : ∃ m, info.machines[op.1]? = some m :=
        ⟨info.machines[op.1], List.getElem?_eq_getElem h2⟩
      have hs := hsame op.1 b hb
      unfold specMember plannedMember at hs
      simp only [hm, hb, Option.map_some', Option.some.injEq] at hs
      have hvotes := congrArg Member.Votes hs
      rw [(refreshAddr_fields _ _ _ _).2.2.1] at hvotes
      have hop : opOf (votePlan rt info) op.1 = some op.2 := by
        unfold opOf
        cases hv2 : op.2 with
        | false =>
          rw [hv2] at hin
          simp [hin]
        | true =>
          rw [hv2] at hin
          have : (op.1, false) ∉ votePlan rt info := fun hf => by
            have := votePlan_consistent rt info op.1 false true hf hin
            simp at this
          simp [this, hin]
      rw [hop] at hvotes
      rw [isVotingAt_eq, hb] at h3
      simp only [optTest] at h3
      cases hv2 : op.2 with
      | true =>
        rw [hv2] at hvotes
        simp only [applyOp, setMemberVoting, if_true] at hvotes
        exact hv b (boundMember_tag info op.1 b hb).1 hvotes.symm
      | false =>
        rw [hv2] at hvotes h3
        simp only [applyOp, setMemberVoting, Bool.false_eq_true, if_false] at hvotes
        simp only [votesPositive, ← hvotes, Bool.not_false] at h3
        simp at h3
  have hnot : ¬ specChanged rt info false := by
    rintro (h | h | ⟨k, hk, hb⟩ | ⟨k, m, member, h1, h2, h3⟩)
    · simp at h
    · exact h hplan
    · have hs := hnone k hb
      obtain ⟨m, hm, _⟩ := (mem_keepList info k).1 hk
      unfold specMember plannedMember at hs
      simp [hm, hb, hk] at hs
    · cases hb : boundMember info k with
      | none =>
        have hs := hnone k hb
        unfold specMember at hs
        simp [h1, h2] at hs
      | some b =>
        have hs := hsame k b hb
        have hpm : plannedMember rt info k = some b := by
          unfold plannedMember
          simp [hb, hplan, opOf_nil, applyOp]
        rw [hpm] at h2
        simp only [Option.some.injEq] at h2
        subst h2
        unfold specMember at hs
        simp only [h1, hpm, Option.map_some', Option.some.injEq] at hs
        have haddr := congrArg Member.Address hs
        unfold refreshAddr at haddr
        simp only [h3.1, if_false, h3.2, ne_eq, not_false_eq_true, if_true] at haddr
  have hcf : st.changed = false := by
    cases hx : st.changed with
    | false => rfl
    | true => exact absurd (hch.1 hx) hnot
  rw [hcf] at hr
  simp only [Bool.false_eq_true, if_false] at hr
  rw [returned_of_run rt info r st hst, hr]

theorem no_update_no_change_witness :
    (∀ member ∈ infoSteady.members, ¬ isExtra infoSteady.machines member) ∧
      (∀ member ∈ infoSteady.members, member.Votes ≠ none) ∧
      heapAfter rtExample infoSteady = some infoSteady.members ∧
      returned rtExample infoSteady = some ⟨none, none⟩ :=
  ⟨by decide, by decide, by decide,
    no_update_no_change rtExample infoSteady (by decide) (by decide) (by decide)⟩

theorem votePlan_nil_of (rt : Runtime) (info : peerGroupInfo) (hR : sortedRemove info = [])
    (hA : sortedAdd rt info = []) : votePlan rt info = [] := by
  unfold votePlan
  rw [hR, hA]
  rfl

theorem returned_of_not_panics (rt : Runtime) (info : peerGroupInfo) (c : Bool)
    (hc : extraLoop (membersMap info).2 false = some c) (hp : ¬ specPanics rt info) :
    ∃ r st, desiredPeerGroup rt info = some (r, st) ∧
      planVotes rt info ⟨info.machines, info.members, (membersMap info).1, c⟩ = some (r, st) := by
  rw [desiredPeerGroup_eq, hc]
  simp only []
  cases hpv : planVotes rt info ⟨info.machines, info.members, (membersMap info).1, c⟩ with
  | none => exact absurd ((planVotes_spec rt info c).1.1 hpv) hp
  | some x => exact ⟨x.1, x.2, rfl, rfl⟩

/-- C9: steady state. With distinct machine ids and distinct tags, no extra member, every
machine a candidate whose tag is carried by a live member with votes present and positive,
and every such member's address equal to the address composed for its machine (or the
machine without an internal address), the reducer returns `(nil, nil)`. -/
theorem steady_state_no_change (rt : Runtime) (info : peerGroupInfo)
    (hids : distinctIds info.machines) (htags : distinctTags info.members)
    (hex : ∀ member ∈ info.members, ¬ isExtra info.machines member)
    (hall : ∀ m ∈ info.machines, m.candidate = true ∧
      ∃ member ∈ info.members, machineTag member = some m.id ∧ votesPositive member = true ∧
        (rt.selectInternalAddress m.addresses = "" ∨
          member.Address = composedAddr (rt.selectInternalAddress m.addresses) info.mongoPort)) :
    returned rt info = some ⟨none, none⟩ := by
  -- the member bound to each machine
  have hbound : ∀ k m, info.machines[k]? = some m →
      m.candidate = true ∧ ∃ member, boundMember info k = some member ∧
        votesPositive member = true ∧
        (rt.selectInternalAddress m.addresses = "" ∨
          member.Address = composedAddr (rt.selectInternalAddress m.addresses) info.mongoPort) := by
    intro k m hm
    obtain ⟨hc, member, h1, h2, h3, h4⟩ := hall m (List.getElem?_mem hm)
    exact ⟨hc, member, boundMember_of_tag info hids htags k m member hm h1 h2, h3, h4⟩
  have hvote : ∀ k m, info.machines[k]? = some m →
      isVotingAt info.members (membersMap info).1 k = true := by
    intro k m hm
    obtain ⟨_, member, h1, h2, _⟩ := hbound k m hm
    rw [isVotingAt_eq, h1]
    exact h2
  have hR : sortedRemove info = [] := by
    apply List.eq_nil_iff_forall_not_mem.2
    intro k hk
    obtain ⟨m, h1, h2, _⟩ := (mem_sortedRemove info k).1 hk
    rw [(hbound k m h1).1] at h2
    exact absurd h2 (by simp)
  have hA : sortedAdd rt info = [] := by
    apply List.eq_nil_iff_forall_not_mem.2
    intro k hk
    obtain ⟨m, h1, _, h3, _⟩ := (mem_sortedAdd rt info k).1 hk
    rw [hvote k m h1] at h3
    exact absurd h3 (by simp)
  have hplan := votePlan_nil_of rt info hR hA
  have hplanned : ∀ k m, info.machines[k]? = some m →
      ∃ member, boundMember info k = some member ∧ plannedMember rt info k = some member := by
    intro k m hm
    obtain ⟨_, member, h1, _⟩ := hbound k m hm
    refine ⟨member, h1, ?_⟩
    unfold plannedMember
    simp [h1, hplan, opOf_nil, applyOp]
  -- the loop over the extra members
  have hx : extraLoop (membersMap info).2 false = some false := by
    cases he : extraLoop (membersMap info).2 false with
    | none =>
      obtain ⟨member, h1, h2, _⟩ := (extraLoop_membersMap info).1.1 he
      exact absurd h2 (hex member h1)
    | some c =>
      cases c with
      | false => rfl
      | true =>
        obtain ⟨member, h1, h2⟩ := ((extraLoop_membersMap info).2 true he).1 rfl
        exact absurd h2 (hex member h1)
  have hnp : ¬ specPanics rt info := by
    rintro ⟨k, m, h1, _, h3⟩
    obtain ⟨member, _, h4⟩ := hplanned k m h1
    rw [h4] at h3
    exact absurd h3 (by simp)
  obtain ⟨r, st, hst, hp⟩ := returned_of_not_panics rt info false hx hnp
  obtain ⟨_, _, _, hch, hr, _, _, _, _⟩ := (planVotes_spec rt info false).2 _ st hp
  have hnot : ¬ specChanged rt info false := by
    rintro (h | h | ⟨k, hk, hb⟩ | ⟨k, m, member, h1, h2, h3⟩)
    · simp at h
    · exact h hplan
    · obtain ⟨m, hm, _⟩ := (mem_keepList info k).1 hk
      obtain ⟨member, h1, _⟩ := hplanned k m hm
      rw [h1] at hb
      exact absurd hb (by simp)
    · obtain ⟨_, b, hb1, _, hb3⟩ := hbound k m h1
      obtain ⟨b', hb1', hb2'⟩ := hplanned k m h1
      rw [hb1] at hb1'
      simp only [Option.some.injEq] at hb1'
      rw [h2, ← hb1'] at hb2'
      simp only [Option.some.injEq] at hb2'
      rw [hb2'] at h3
      rcases hb3 with h | h
      · exact h3.1 h
      · exact h3.2 h.symm
  have hcf : st.changed = false := by
    cases hc : st.changed with
    | false => rfl
    | true => exact absurd (hch.1 hc) hnot
  rw [hcf] at hr
  simp only [Bool.false_eq_true, if_false] at hr
  rw [returned_of_run rt info r st hst, hr]

theorem steady_state_no_change_witness :
    distinctIds infoSteady.machines ∧ distinctTags infoSteady.members ∧
      returned rtExample infoSteady = some ⟨none, none⟩ :=
  ⟨by decide, by decide,
    steady_state_no_change rtExample infoSteady (by decide) (by decide) (by decide) (by decide)⟩

/-- C3, as the claim states it, fails on scenario S3: three live members have votes present
and positive, and in the returned membership only two have, because the promoted member
has its votes absent. -/
theorem odd_votes_claim_counterexample :
    votingCount infoSwap.members % 2 = 1 ∧
      returned rtExample infoSwap = some ⟨some planSwap, none⟩ ∧
      votingCount planSwap % 2 = 0 := by
  decide

/-- C3, amended: for an input with pairwise distinct tag values whose live members all have
their votes present, if the number of live members with positive votes is odd, then the
number of members of a returned membership that vote in the replica set (votes absent or
positive) is odd. -/
theorem odd_votes_preserved (rt : Runtime) (info : peerGroupInfo) (ms : List Member)
    (e : Option String) (htags : distinctTags info.members)
    (hv : ∀ member ∈ info.members, member.Votes ≠ none)
    (h : returned rt info = some ⟨some ms, e⟩)
    (hodd : votingCount info.members % 2 = 1) :
    ms.countP votesInSet % 2 = 1 := by
  obtain ⟨st, hst⟩ := returned_some rt info _ h
  obtain ⟨c, _, hp⟩ := run_of_no_error rt info _ st hst (by simp)
  obtain ⟨hwf, hview, _, _, hr, _, _, _, _⟩ := (planVotes_spec rt info c).2 _ st hp
  have hnx : ∀ member ∈ info.members, isExtra info.machines member →
      votesPositive member = false := by
    intro member hmem hex
    cases hvp : votesPositive member with
    | false => rfl
    | true =>
      have := (returned_error_iff_extra rt info).2 ⟨member, hmem, hex, hvp⟩
      rw [this] at h
      simp at h
  cases hc : st.changed with
  | false => simp [hc] at hr
  | true =>
    simp only [hc, if_true, Ret.mk.injEq] at hr
    have hperm := memberSet_perm rt.order st ms hr.1.symm
    rw [hperm.countP_eq, mapValues_eq, hwf.len]
    have hfun : (fun k => memberAt st.heap st.members k) = specMember rt info :=
      funext hview
    rw [hfun, countP_filterMap_any]
    have hcount : (List.range info.machines.length).countP
        (fun k => optTest votesInSet (specMember rt info k)) =
        (List.range info.machines.length).countP (specVoting rt info) := by
      apply List.countP_congr
      intro k hk
      rw [specMember_votes rt info hv k]
      simp [List.mem_range.1 hk]
    rw [hcount, voting_flags_parity, bound_voting_count info htags hnx]
    exact hodd

theorem odd_votes_preserved_witness :
    distinctTags infoSwap.members ∧ votingCount infoSwap.members % 2 = 1 ∧
      planSwap.countP votesInSet % 2 = 1 :=
  ⟨by decide, by decide,
    odd_votes_preserved rtExample infoSwap planSwap none (by decide) (by decide) (by decide)
      (by decide)⟩

/-- C4 fails on scenario S4: the call promotes the two ready candidates, and the call on its
own result promotes them again and returns a membership instead of `(nil, nil)`, because a
promoted member has its votes absent and `isVoting` takes absent votes for not voting. -/
theorem second_call_changes_again :
    returned rtExample infoPadAdd = some ⟨some planPadAdd, none⟩ ∧
      returned rtExample { infoPadAdd with members := planPadAdd } =
        some ⟨some planPadAdd, none⟩ ∧
      returned rtExample { infoPadAdd with members := planPadAdd } ≠ some ⟨none, none⟩ := by
  decide

/-- C6 fails on the input that follows scenario S4: the two promoted members have absent
votes, are promoted again, and the call returns a membership that is the input
`liveMembers`, member for member, with no member cell changed. -/
theorem returned_membership_equal_to_input :
    returned rtExample infoPadAddNext = some ⟨some infoPadAddNext.members, none⟩ ∧
      heapAfter rtExample infoPadAddNext = some infoPadAddNext.members := by
  decide

/-- C5: determinism under reordering. For an input with pairwise distinct machine ids,
pairwise distinct tag values and pairwise distinct member ids, the run on any permutation of
the machines and of the live members, with any order of iteration over the maps, gives the
same kind of result and, when it returns a membership, the same members up to their order. -/
theorem reorder_same_result (rt : Runtime) (pick : Nat → Nat) (order : List Nat)
    (info : peerGroupInfo) (machines : List machine) (members : List Member)
    (hm : info.machines.Perm machines) (hl : info.members.Perm members)
    (hids : distinctIds info.machines) (htags : distinctTags info.members)
    (hmids : distinctMemberIds info.members) :
    sameResult (returned rt info)
      (returned ⟨rt.selectInternalAddress, pick, order⟩
        ⟨machines, info.statuses, members, info.mongoPort⟩) :=
  sameResult_of_reordered rt ⟨rt.selectInternalAddress, pick, order⟩ rfl
    ⟨hm, hl, rfl, rfl, hids, htags, hmids⟩

theorem reorder_same_result_witness :
    distinctIds infoSwap.machines ∧ distinctTags infoSwap.members ∧
      distinctMemberIds infoSwap.members ∧
      sameResult (returned rtExample infoSwap)
        (returned ⟨rtExample.selectInternalAddress, fun j => j + 1, [2, 1, 3]⟩
          ⟨infoSwapReordered.machines, infoSwap.statuses, infoSwapReordered.members,
            infoSwap.mongoPort⟩) :=
  ⟨by decide, by decide, by decide,
    reorder_same_result rtExample (fun j => j + 1) [2, 1, 3] infoSwap infoSwapReordered.machines
      infoSwapReordered.members (by decide) (by decide) (by decide) (by decide) (by decide)⟩

/-! ## Runs on inputs without a voting extra member -/

theorem run_of_noVotingExtra (rt : Runtime) (info : peerGroupInfo) (hnx : noVotingExtra info)
    (r : Ret) (st : Vars) (h : desiredPeerGroup rt info = some (r, st)) :
    ∃ c, extraLoop (membersMap info).2 false = some c ∧
      planVotes rt info ⟨info.machines, info.members, (membersMap info).1, c⟩ = some (r, st) := by
  apply run_of_no_error rt info r st h
  intro e
  have hret : returned rt info = some ⟨none, some errExtraVoting⟩ := by
    simp [returned, h, e]
  obtain ⟨member, h1, h2, h3⟩ := (returned_error_iff_extra rt info).1 hret
  rw [hnx member h1 h2] at h3
  exact absurd h3 (by simp)

theorem run_of_err_none (rt : Runtime) (info : peerGroupInfo) (r : Ret) (st : Vars)
    (h : desiredPeerGroup rt info = some (r, st)) (he : r.err = none) :
    ∃ c, extraLoop (membersMap info).2 false = some c ∧
      planVotes rt info ⟨info.machines, info.members, (membersMap info).1, c⟩ = some (r, st) := by
  apply run_of_no_error rt info r st h
  intro e
  rw [e] at he
  exact absurd he (by simp)

theorem inputAfter_of_run (rt : Runtime) (info info' : peerGroupInfo)
    (h : inputAfter rt info = some info') :
    ∃ r st, desiredPeerGroup rt info = some (r, st) ∧ info' = infoAfter info st := by
  unfold inputAfter at h
  cases hd : desiredPeerGroup rt info with
  | none => rw [hd] at h; simp at h
  | some x =>
    rw [hd] at h
    simp only [Option.map_some', Option.some.injEq] at h
    exact ⟨x.1, x.2, rfl, h.symm⟩

theorem finalMember_some_run (rt : Runtime) (info : peerGroupInfo) (k : Nat) (member : Member)
    (h : finalMember rt info k = some member) :
    ∃ r st, desiredPeerGroup rt info = some (r, st) ∧
      memberAt st.heap st.members k = some member := by
  unfold finalMember at h
  cases hd : desiredPeerGroup rt info with
  | none => rw [hd] at h; simp at h
  | some x =>
    rw [hd] at h
    exact ⟨x.1, x.2, rfl, h⟩

/-- The flags of the machines after a run on an input without a voting extra member. -/
theorem votingAt_after (rt : Runtime) (info info' : peerGroupInfo) (hnx : noVotingExtra info)
    (h : inputAfter rt info = some info') (k : Nat) :
    votingAt info'.machines k = (specVoting rt info k && decide (k < info.machines.length)) := by
  obtain ⟨r, st, hst, hi⟩ := inputAfter_of_run rt info info' h
  obtain ⟨c, _, hp⟩ := run_of_noVotingExtra rt info hnx r st hst
  obtain ⟨_, _, hmach, _, _, _, _, _, _⟩ := (planVotes_spec rt info c).2 _ st hp
  rw [hi]
  unfold votingAt infoAfter
  simp only []
  rw [hmach k]
  cases hm : info.machines[k]? with
  | none =>
    have : ¬ k < info.machines.length := by
      intro hlt
      rw [List.getElem?_eq_getElem hlt] at hm
      exact absurd hm (by simp)
    simp [optTest, this]
  | some m =>
    have hlt : k < info.machines.length := (List.getElem?_eq_some_iff.1 hm).1
    simp [optTest, hlt]

theorem machines_length_after (rt : Runtime) (info info' : peerGroupInfo)
    (h : inputAfter rt info = some info') : info'.machines.length = info.machines.length := by
  obtain ⟨r, st, hst, hi⟩ := inputAfter_of_run rt info info' h
  rw [hi]
  unfold infoAfter
  simp only []
  by_cases he : r = ⟨none, some errExtraVoting⟩
  · rw [desiredPeerGroup_eq] at hst
    cases hx : extraLoop (membersMap info).2 false with
    | none =>
      rw [hx] at hst
      simp only [Option.some.injEq, Prod.mk.injEq] at hst
      rw [← hst.2]
    | some c =>
      rw [hx] at hst
      have := planVotes_err rt info _ st r hst
      rw [he] at this
      exact absurd this (by simp)
  · obtain ⟨c, _, hp⟩ := run_of_no_error rt info r st hst he
    exact ((planVotes_spec rt info c).2 _ st hp).1.len

/-! ## Counting over the positions of a slice -/

theorem countP_eq_countP_range {α : Type} (p : α → Bool) (l : List α) :
    l.countP p = (List.range l.length).countP (fun k => optTest p l[k]?) := by
  induction l with
  | nil => rfl
  | cons a rest ih =>
    rw [List.length_cons, List.range_succ_eq_map, List.countP_cons, List.countP_cons,
      List.countP_map, ih]
    simp [optTest, Function.comp_def]

theorem countP_range_congr (N : Nat) (p q : Nat → Bool) (h : ∀ k, k < N → p k = q k) :
    (List.range N).countP p = (List.range N).countP q := by
  apply List.countP_congr
  intro k hk
  rw [h k (List.mem_range.1 hk)]

/-- The number of machines flagged voting after a run on an input without a voting extra
member. -/
theorem voting_flags_after (rt : Runtime) (info info' : peerGroupInfo) (hnx : noVotingExtra info)
    (h : inputAfter rt info = some info') :
    info'.machines.countP (fun m => m.voting) =
      (List.range info.machines.length).countP (specVoting rt info) := by
  rw [countP_eq_countP_range, machines_length_after rt info info' h]
  apply countP_range_congr
  intro k hk
  have := votingAt_after rt info info' hnx h k
  unfold votingAt at this
  rw [this]
  simp [hk]

theorem refreshAddr_address (rt : Runtime) (mongoPort : Int) (m : machine) (member : Member)
    (h : rt.selectInternalAddress m.addresses ≠ "") :
    (refreshAddr rt mongoPort m member).Address =
      composedAddr (rt.selectInternalAddress m.addresses) mongoPort := by
  unfold refreshAddr
  rw [if_neg h]
  by_cases hc : composedAddr (rt.selectInternalAddress m.addresses) mongoPort ≠ member.Address
  · rw [if_pos hc]
  · rw [if_neg hc]
    exact (not_not.1 hc).symm

/-- The member of a machine after a run that returns without error, from the description
of the run. -/
theorem finalMember_eq_spec (rt : Runtime) (info : peerGroupInfo) (r : Ret)
    (hr : returned rt info = some r) (he : r.err = none) (k : Nat) :
    finalMember rt info k = specMember rt info k := by
  obtain ⟨st, hst⟩ := returned_some rt info r hr
  obtain ⟨c, _, hp⟩ := run_of_err_none rt info r st hst he
  rw [finalMember_of_run rt info r st hst k]
  exact ((planVotes_spec rt info c).2 _ st hp).2.1 k

/-- C13: address bracketing. After a call that returns without error, the member of a
machine whose selected internal address `a` is not empty has the address `[a]:port` when
`a` contains a colon, and `a:port` when `a` contains neither a colon nor a percent sign,
with the port in decimal. -/
theorem address_bracketing (rt : Runtime) (info : peerGroupInfo) (r : Ret) (k : Nat)
    (m : machine) (member : Member) (hr : returned rt info = some r) (he : r.err = none)
    (hm : info.machines[k]? = some m) (hf : finalMember rt info k = some member)
    (ha : rt.selectInternalAddress m.addresses ≠ "") :
    (':' ∈ (rt.selectInternalAddress m.addresses).toList →
        member.Address =
          "[" ++ rt.selectInternalAddress m.addresses ++ "]:" ++ toString info.mongoPort) ∧
      (':' ∉ (rt.selectInternalAddress m.addresses).toList →
        '%' ∉ (rt.selectInternalAddress m.addresses).toList →
        member.Address =
          rt.selectInternalAddress m.addresses ++ ":" ++ toString info.mongoPort) := by
  rw [finalMember_eq_spec rt info r hr he k] at hf
  unfold specMember at hf
  simp only [hm] at hf
  cases hp : plannedMember rt info k with
  | none => simp [hp] at hf
  | some b =>
    simp only [hp, Option.map_some', Option.some.injEq] at hf
    have haddr : member.Address =
        composedAddr (rt.selectInternalAddress m.addresses) info.mongoPort := by
      rw [← hf]
      exact refreshAddr_address rt info.mongoPort m b ha
    rw [haddr]
    unfold composedAddr JoinHostPort
    constructor
    · intro hc
      have hc1 : ':' ∈ (rt.selectInternalAddress m.addresses).data := hc
      simp [hc1]
    · intro hc hp'
      have hc1 : ':' ∉ (rt.selectInternalAddress m.addresses).data := hc
      have hc2 : '%' ∉ (rt.selectInternalAddress m.addresses).data := hp'
      simp [hc1, hc2]

theorem address_bracketing_witness :
    (':' ∈ ("::1").toList →
        (mkMember 1 "1" (some 1) none "[::1]:37017").Address =
          "[" ++ "::1" ++ "]:" ++ toString (37017 : Int)) ∧
      (':' ∉ ("::1").toList → '%' ∉ ("::1").toList →
        (mkMember 1 "1" (some 1) none "[::1]:37017").Address =
          "::1" ++ ":" ++ toString (37017 : Int)) :=
  address_bracketing rtExample infoIPv6 ⟨some [mkMember 1 "1" (some 1) none "[::1]:37017"], none⟩
    0 (mkMachine "1" true "::1") (mkMember 1 "1" (some 1) none "[::1]:37017")
    (by decide) (by decide) (by decide) (by decide) (by decide)

theorem err_none_of_noVotingExtra (rt : Runtime) (info : peerGroupInfo)
    (hnx : noVotingExtra info) (r : Ret) (hr : returned rt info = some r) : r.err = none := by
  obtain ⟨st, hst⟩ := returned_some rt info r hr
  obtain ⟨c, _, hp⟩ := run_of_noVotingExtra rt info hnx r st hst
  exact planVotes_err rt info _ st r hp

theorem returned_of_inputAfter (rt : Runtime) (info info' : peerGroupInfo)
    (h : inputAfter rt info = some info') : ∃ r, returned rt info = some r := by
  obtain ⟨r, st, hst, _⟩ := inputAfter_of_run rt info info' h
  exact ⟨r, returned_of_run rt info r st hst⟩

/-- The members returned by a run, up to their order. -/
theorem returned_members_perm (rt : Runtime) (info : peerGroupInfo) (ms : List Member)
    (e : Option String) (h : returned rt info = some ⟨some ms, e⟩) :
    e = none ∧ ms.Perm ((List.range info.machines.length).filterMap (specMember rt info)) := by
  obtain ⟨st, hst⟩ := returned_some rt info _ h
  obtain ⟨c, _, hp⟩ := run_of_no_error rt info _ st hst (by simp)
  obtain ⟨hwf, hview, _, _, hr, _, _, _, _⟩ := (planVotes_spec rt info c).2 _ st hp
  cases hc : st.changed with
  | false => simp [hc] at hr
  | true =>
    simp only [hc, if_true, Ret.mk.injEq] at hr
    refine ⟨hr.2, ?_⟩
    have hperm := memberSet_perm rt.order st ms hr.1.symm
    rw [mapValues_eq, hwf.len] at hperm
    have hfun : (fun k => memberAt st.heap st.members k) = specMember rt info := funext hview
    rw [hfun] at hperm
    exact hperm

/-- C19: with pairwise distinct machine ids, every member of a returned membership carries a
`juju-machine-id` tag and no two of them carry the same tag value, whatever tags the live
members of the input share. -/
theorem returned_tags_distinct (rt : Runtime) (info : peerGroupInfo) (ms : List Member)
    (e : Option String) (hids : distinctIds info.machines)
    (h : returned rt info = some ⟨some ms, e⟩) :
    (ms.map machineTag).Nodup ∧ ∀ member ∈ ms, machineTag member ≠ none := by
  obtain ⟨_, hperm⟩ := returned_members_perm rt info ms e h
  constructor
  · rw [(hperm.map machineTag).nodup_iff, List.map_filterMap]
    apply List.Nodup.filterMap _ (List.nodup_range _)
    intro k k' t ht ht'
    simp only [Option.mem_def] at ht ht'
    cases hs : specMember rt info k with
    | none => simp [hs] at ht
    | some x =>
      cases hs' : specMember rt info k' with
      | none => simp [hs'] at ht'
      | some x' =>
        obtain ⟨m, h1, h2⟩ := specMember_tag rt info k x hs
        obtain ⟨m', h1', h2'⟩ := specMember_tag rt info k' x' hs'
        simp only [hs, Option.map_some', Option.bind_some, Option.some.injEq] at ht
        simp only [hs', Option.map_some', Option.bind_some, Option.some.injEq] at ht'
        have e1 : machineTag x = machineTag x' := by rw [ht, ht']
        unfold machineTag at e1
        rw [h2, h2'] at e1
        simp only [Option.some.injEq] at e1
        exact nodup_map_index_inj (fun m : machine => m.id) info.machines hids k k' m m' h1 h1' e1
  · intro member hmem
    obtain ⟨k, _, hk⟩ := List.mem_filterMap.1 (hperm.mem_iff.1 hmem)
    obtain ⟨m, _, h2⟩ := specMember_tag rt info k member hk
    unfold machineTag
    rw [h2]
    simp

theorem returned_tags_distinct_witness :
    distinctIds infoSharedTag.machines ∧ ¬ distinctTags infoSharedTag.members ∧
      ([mkMember 2 "1" (some 1) none "h1:37017"].map machineTag).Nodup ∧
      ∀ member ∈ [mkMember 2 "1" (some 1) none "h1:37017"], machineTag member ≠ none :=
  ⟨by decide, by decide,
    returned_tags_distinct rtExample infoSharedTag [mkMember 2 "1" (some 1) none "h1:37017"] none
      (by decide) (by decide)⟩

/-- C18: for an input without a voting extra member whose live members all have their votes
present, after the call the voting flag of a machine is true exactly when the machine has a
member record, bound or synthesized, whose votes are absent or positive. -/
theorem flag_iff_member_votes (rt : Runtime) (info info' : peerGroupInfo)
    (hnx : noVotingExtra info) (hv : ∀ member ∈ info.members, member.Votes ≠ none)
    (h : inputAfter rt info = some info') (k : Nat) (m' : machine)
    (hm : info'.machines[k]? = some m') :
    m'.voting = true ↔
      ∃ member, finalMember rt info k = some member ∧ votesInSet member = true := by
  obtain ⟨r, hr⟩ := returned_of_inputAfter rt info info' h
  have he := err_none_of_noVotingExtra rt info hnx r hr
  have h1 := votingAt_after rt info info' hnx h k
  have h2 := specMember_votes rt info hv k
  rw [finalMember_eq_spec rt info r hr he k]
  unfold votingAt at h1
  rw [hm] at h1
  simp only [optTest] at h1
  rw [h1, ← h2]
  cases specMember rt info k with
  | none => simp [optTest]
  | some b => simp [optTest]

theorem flag_iff_member_votes_witness :
    noVotingExtra infoSwap ∧ (∀ member ∈ infoSwap.members, member.Votes ≠ none) ∧
      ((mkMachine "4" true "").voting = false) ∧
      (({ mkMachine "4" true "" with voting := true } : machine).voting = true ↔
        ∃ member, finalMember rtExample infoSwap 3 = some member ∧ votesInSet member = true) :=
  ⟨by decide, by decide, by decide,
    flag_iff_member_votes rtExample infoSwap
      { infoSwap with
        machines := [{ mkMachine "1" true "" with voting := true },
          { mkMachine "2" true "" with voting := true }, mkMachine "3" false "",
          { mkMachine "4" true "" with voting := true }]
        members := planSwap }
      (by decide) (by decide) (by decide) 3 { mkMachine "4" true "" with voting := true }
      (by decide)⟩

/-- C20: even delta. For an input without a voting extra member, the number of machines
whose voting flag is true after the call has the parity of the number of machines bound to
a voting member before the call; so an odd number stays odd. -/
theorem even_delta (rt : Runtime) (info info' : peerGroupInfo) (hnx : noVotingExtra info)
    (h : inputAfter rt info = some info') :
    info'.machines.countP (fun m => m.voting) % 2 =
        (List.range info.machines.length).countP (wasVoting info) % 2 ∧
      ((List.range info.machines.length).countP (wasVoting info) % 2 = 1 →
        info'.machines.countP (fun m => m.voting) % 2 = 1) := by
  have key : info'.machines.countP (fun m => m.voting) % 2 =
      (List.range info.machines.length).countP (wasVoting info) % 2 := by
    rw [voting_flags_after rt info info' hnx h, voting_flags_parity]
    rfl
  exact ⟨key, fun hodd => by rw [key]; exact hodd⟩

theorem even_delta_witness :
    noVotingExtra infoPadAdd ∧
      (List.range infoPadAdd.machines.length).countP (wasVoting infoPadAdd) = 1 ∧
      ([{ mkMachine "1" true "" with voting := true }, { mkMachine "2" true "" with voting := true },
        { mkMachine "3" true "" with voting := true }].countP (fun m => m.voting) = 3) ∧
      ([{ mkMachine "1" true "" with voting := true }, { mkMachine "2" true "" with voting := true },
        { mkMachine "3" true "" with voting := true }].countP (fun m => m.voting) % 2 =
          (List.range infoPadAdd.machines.length).countP (wasVoting infoPadAdd) % 2) :=
  ⟨by decide, by decide, by decide,
    (even_delta rtExample infoPadAdd
      { infoPadAdd with
        machines := [{ mkMachine "1" true "" with voting := true },
          { mkMachine "2" true "" with voting := true },
          { mkMachine "3" true "" with voting := true }]
        members := planPadAdd }
      (by decide) (by decide)).1⟩

theorem revokeCount_formula (r a : Nat) : revokeCount r a = r - (r - min r a) % 2 := by
  unfold revokeCount min
  split <;> split <;> omega

theorem grantCount_formula (r a : Nat) : grantCount r a = a - (a - min r a) % 2 := by
  unfold grantCount min
  split <;> split <;> omega

theorem boundMember_ne_none_of_ready (rt : Runtime) (info : peerGroupInfo) (k : Nat)
    (h : readyAt (statusIndex rt info) k = true) : boundMember info k ≠ none := by
  unfold boundMember
  rw [Ne, memberAt_eq_none_iff _ _ (membersMap_wf info false) k]
  exact readyAt_some rt info k h

theorem sortedRemove_length (info : peerGroupInfo) :
    (sortedRemove info).length = removableCount info := by
  rw [← countP_mem_range info.machines.length _ (sortedRemove_nodup info) (sortedRemove_lt info)]
  unfold removableCount
  apply countP_range_congr
  intro k hk
  obtain ⟨m, hm⟩ : ∃ m, info.machines[k]? = some m :=
    ⟨info.machines[k], List.getElem?_eq_getElem hk⟩
  rw [Bool.eq_iff_iff]
  simp only [decide_eq_true_eq, mem_sortedRemove, hm, optTest, wasVoting, Bool.and_eq_true,
    Bool.not_eq_true', Option.some.injEq]
  constructor
  · rintro ⟨m', h1, h2, h3⟩
    subst h1
    exact ⟨h2, h3⟩
  · rintro ⟨h2, h3⟩
    exact ⟨m, rfl, h2, h3⟩

theorem sortedAdd_length (rt : Runtime) (info : peerGroupInfo) :
    (sortedAdd rt info).length = addableCount rt info := by
  rw [← countP_mem_range info.machines.length _ (sortedAdd_nodup rt info) (sortedAdd_lt rt info)]
  unfold addableCount
  apply countP_range_congr
  intro k hk
  obtain ⟨m, hm⟩ : ∃ m, info.machines[k]? = some m :=
    ⟨info.machines[k], List.getElem?_eq_getElem hk⟩
  rw [Bool.eq_iff_iff]
  simp only [decide_eq_true_eq, mem_sortedAdd, hm, Bool.and_eq_true, Option.some.injEq,
    isVotingAt_eq]
  cases hb : boundMember info k with
  | none =>
    have hr : readyAt (statusIndex rt info) k ≠ true := fun h =>
      boundMember_ne_none_of_ready rt info k h hb
    simp [optTest, hr]
  | some b =>
    simp only [optTest, Bool.not_eq_true']
    constructor
    · rintro ⟨m', h1, h2, h3, h4⟩
      subst h1
      exact ⟨⟨h2, h3⟩, h4⟩
    · rintro ⟨⟨h2, h3⟩, h4⟩
      exact ⟨m, rfl, h2, h3, h4⟩

/-- C16: swap and pad counts. With `r` the number of non-candidate machines bound to a voting
member, `a` the number of candidate machines bound to a non-voting member whose status is
ready and `k = min r a`, the run revokes the vote of exactly `r - (r - k) % 2` machines and
grants a vote to exactly `a - (a - k) % 2` machines; when the call returns, these are the
numbers of machines whose voting flag went from true to false and from false to true. -/
theorem swap_pad_counts (rt : Runtime) (info : peerGroupInfo) (hnx : noVotingExtra info) :
    ((revoked rt info).length = removableCount info -
          (removableCount info - min (removableCount info) (addableCount rt info)) % 2 ∧
      (granted rt info).length = addableCount rt info -
          (addableCount rt info - min (removableCount info) (addableCount rt info)) % 2) ∧
    ∀ info', inputAfter rt info = some info' →
      revokedAfter info info'.machines = removableCount info -
          (removableCount info - min (removableCount info) (addableCount rt info)) % 2 ∧
      grantedAfter info info'.machines = addableCount rt info -
          (addableCount rt info - min (removableCount info) (addableCount rt info)) % 2 := by
  have hR : (revoked rt info).length = removableCount info -
      (removableCount info - min (removableCount info) (addableCount rt info)) % 2 := by
    rw [revoked_length, revokeCount_formula, sortedRemove_length, sortedAdd_length]
  have hG : (granted rt info).length = addableCount rt info -
      (addableCount rt info - min (removableCount info) (addableCount rt info)) % 2 := by
    rw [granted_length, grantCount_formula, sortedRemove_length, sortedAdd_length]
  refine ⟨⟨hR, hG⟩, ?_⟩
  intro info' h
  rw [← hR, ← hG]
  constructor
  · rw [← countP_mem_range info.machines.length _ (revoked_nodup rt info) (revoked_lt rt info)]
    unfold revokedAfter
    apply countP_range_congr
    intro k hk
    rw [votingAt_after rt info info' hnx h k, ← (specVoting_cases rt info k).2]
    simp [hk, wasVoting]
  · rw [← countP_mem_range info.machines.length _ (granted_nodup rt info) (granted_lt rt info)]
    unfold grantedAfter
    apply countP_range_congr
    intro k hk
    rw [votingAt_after rt info info' hnx h k, ← (specVoting_cases rt info k).1]
    simp [hk, wasVoting, Bool.and_comm]

theorem swap_pad_counts_witness :
    noVotingExtra infoPadAdd ∧ removableCount infoPadAdd = 0 ∧
      addableCount rtExample infoPadAdd = 2 ∧
      (granted rtExample infoPadAdd).length = 2 ∧
      grantedAfter infoPadAdd
        [{ mkMachine "1" true "" with voting := true }, { mkMachine "2" true "" with voting := true },
          { mkMachine "3" true "" with voting := true }] = 2 :=
  ⟨by decide, by decide, by decide,
    (swap_pad_counts rtExample infoPadAdd (by decide)).1.2,
    ((swap_pad_counts rtExample infoPadAdd (by decide)).2
      { infoPadAdd with
        machines := [{ mkMachine "1" true "" with voting := true },
          { mkMachine "2" true "" with voting := true },
          { mkMachine "3" true "" with voting := true }]
        members := planPadAdd }
      (by decide)).2⟩

theorem extraLoop_of_no_extra (info : peerGroupInfo)
    (hex : ∀ member ∈ info.members, ¬ isExtra info.machines member) :
    extraLoop (membersMap info).2 false = some false := by
  cases he : extraLoop (membersMap info).2 false with
  | none =>
    obtain ⟨member, h1, h2, _⟩ := (extraLoop_membersMap info).1.1 he
    exact absurd h2 (hex member h1)
  | some c =>
    cases c with
    | false => rfl
    | true =>
      obtain ⟨member, h1, h2⟩ := ((extraLoop_membersMap info).2 true he).1 rfl
      exact absurd h2 (hex member h1)

theorem extraLoop_of_noVotingExtra (info : peerGroupInfo) (hnx : noVotingExtra info) :
    ∃ c, extraLoop (membersMap info).2 false = some c := by
  cases he : extraLoop (membersMap info).2 false with
  | none =>
    obtain ⟨member, h1, h2, h3⟩ := (extraLoop_membersMap info).1.1 he
    rw [hnx member h1 h2] at h3
    exact absurd h3 (by simp)
  | some c => exact ⟨c, rfl⟩

/-- A run that sets `changed` and has a member for some machine returns a membership. -/
theorem returned_of_changed (rt : Runtime) (info : peerGroupInfo) (c : Bool)
    (hc : extraLoop (membersMap info).2 false = some c) (hch : specChanged rt info c)
    (r : Ret) (hr : returned rt info = some r) (k : Nat) (hk : k < info.machines.length)
    (x : Member) (hs : specMember rt info k = some x) :
    ∃ l, r = ⟨some l, none⟩ ∧
      l.Perm ((List.range info.machines.length).filterMap (specMember rt info)) := by
  rw [returned_eq, hc] at hr
  simp only [] at hr
  rcases planVotes_result rt info c with ⟨_, h⟩ | ⟨_, hn, _⟩ | ⟨_, _, ms, h1, h2, h3⟩
  · rw [h] at hr
    simp at hr
  · exact absurd hch hn
  · rw [h1] at hr
    simp only [Option.some.injEq] at hr
    cases ms with
    | none =>
      have hnil := h2.1 rfl
      have hx : x ∈ (List.range info.machines.length).filterMap (specMember rt info) :=
        List.mem_filterMap.2 ⟨k, List.mem_range.2 hk, hs⟩
      rw [hnil] at hx
      simp at hx
    | some l => exact ⟨l, hr.symm, h3 l rfl⟩

/-- Without extra members and with distinct tags, the live members are the members bound to
the machines. -/
theorem members_perm_bound (info : peerGroupInfo) (htags : distinctTags info.members)
    (hex : ∀ member ∈ info.members, ¬ isExtra info.machines member) :
    info.members.Perm ((List.range info.machines.length).filterMap (boundMember info)) := by
  have htagged : ∀ x ∈ info.members, machineTag x ≠ none := by
    intro x hx hn
    apply hex x hx
    unfold isExtra
    unfold machineTag at hn
    rw [hn]
    trivial
  have hnd : info.members.Nodup := nodup_of_nodup_filterMap machineTag info.members htags htagged
  have hnd2 : ((List.range info.machines.length).filterMap (boundMember info)).Nodup := by
    apply List.Nodup.filterMap _ (List.nodup_range _)
    intro k k' b hb hb'
    exact boundMember_inj info htags k k' b hb hb'
  rw [List.perm_ext_iff_of_nodup hnd hnd2]
  intro x
  constructor
  · intro hx
    cases hf : foundFor info.machines x with
    | none => exact absurd ((foundFor_eq_none_iff _ _).1 hf) (hex x hx)
    | some k =>
      have hb := boundMember_of_found info htags x k hx hf
      exact List.mem_filterMap.2 ⟨k, List.mem_range.2 (boundMember_lt info k x hb), hb⟩
  · intro hx
    obtain ⟨k, _, hb⟩ := List.mem_filterMap.1 hx
    exact (boundMember_tag info k x hb).1

theorem refreshAddr_of_needs (rt : Runtime) (mongoPort : Int) (m : machine) (member : Member)
    (h : needsRefresh rt mongoPort m member) :
    refreshAddr rt mongoPort m member =
      { member with Address := composedAddr (rt.selectInternalAddress m.addresses) mongoPort } := by
  unfold refreshAddr
  rw [if_neg h.1, if_pos h.2]

theorem refreshAddr_of_not_needs (rt : Runtime) (mongoPort : Int) (m : machine) (member : Member)
    (h : ¬ needsRefresh rt mongoPort m member) : refreshAddr rt mongoPort m member = member := by
  unfold refreshAddr
  by_cases h1 : rt.selectInternalAddress m.addresses = ""
  · rw [if_pos h1]
  · rw [if_neg h1]
    by_cases h2 : composedAddr (rt.selectInternalAddress m.addresses) mongoPort ≠ member.Address
    · exact absurd ⟨h1, h2⟩ h
    · rw [if_neg h2]

theorem plannedMember_of_bound (rt : Runtime) (info : peerGroupInfo) (k : Nat) (b : Member)
    (hb : boundMember info k = some b) :
    plannedMember rt info k = some (applyOp (opOf (votePlan rt info) k) b) := by
  unfold plannedMember
  rw [hb]

/-- C12, as the claim states it, fails: a bound member's address differs from the address
composed for its machine, and the call returns the error for a voting extra member, not a
membership. -/
theorem address_change_claim_counterexample :
    distinctIds infoStaleExtraVoting.machines ∧ distinctTags infoStaleExtraVoting.members ∧
      (∃ m ∈ infoStaleExtraVoting.machines, ∃ b ∈ infoStaleExtraVoting.members,
        machineTag b = some m.id ∧ needsRefresh rtExample infoStaleExtraVoting.mongoPort m b) ∧
      returned rtExample infoStaleExtraVoting = some ⟨none, some errExtraVoting⟩ ∧
      ¬ ∃ ms, returned rtExample infoStaleExtraVoting = some ⟨some ms, none⟩ := by
  have hret : returned rtExample infoStaleExtraVoting = some ⟨none, some errExtraVoting⟩ := by
    decide
  refine ⟨by decide, by decide, by decide, hret, ?_⟩
  rintro ⟨ms, h⟩
  rw [hret] at h
  simp at h

/-- C12, amended: with distinct machine ids and distinct tags, in a returned membership the
member of a machine whose selected internal address is not empty has that address joined
with the port, and the member of a machine whose selected address is empty has the address
of the live member bound to the machine; and on an input without a voting extra member, a
call that returns while some bound member's address differs from the composed one returns a
membership, not no change. -/
theorem address_reconciled (rt : Runtime) (info : peerGroupInfo)
    (hids : distinctIds info.machines) (htags : distinctTags info.members) :
    (∀ ms e, returned rt info = some ⟨some ms, e⟩ →
      ∀ member ∈ ms, ∀ m ∈ info.machines, machineTag member = some m.id →
        (rt.selectInternalAddress m.addresses ≠ "" →
          member.Address = composedAddr (rt.selectInternalAddress m.addresses) info.mongoPort) ∧
        (rt.selectInternalAddress m.addresses = "" →
          ∀ b ∈ info.members, machineTag b = some m.id → member.Address = b.Address)) ∧
    (noVotingExtra info → ∀ r, returned rt info = some r →
      (∃ m ∈ info.machines, ∃ b ∈ info.members,
        machineTag b = some m.id ∧ needsRefresh rt info.mongoPort m b) →
      ∃ ms, r = ⟨some ms, none⟩) := by
  constructor
  · intro ms e h member hmem m hm ht
    obtain ⟨_, hperm⟩ := returned_members_perm rt info ms e h
    obtain ⟨k, _, hk⟩ := List.mem_filterMap.1 (hperm.mem_iff.1 hmem)
    obtain ⟨m', h1, h2⟩ := specMember_tag rt info k member hk
    obtain ⟨j, hj⟩ := List.mem_iff_getElem?.1 hm
    have hid : m'.id = m.id := by
      unfold machineTag at ht
      rw [h2] at ht
      simpa using ht
    have hkj := nodup_map_index_inj (fun m : machine => m.id) info.machines hids k j m' m h1 hj hid
    subst hkj
    rw [h1] at hj
    simp only [Option.some.injEq] at hj
    subst hj
    unfold specMember at hk
    rw [h1] at hk
    simp only [] at hk
    cases hp : plannedMember rt info k with
    | none => simp [hp] at hk
    | some p =>
      simp only [hp, Option.map_some', Option.some.injEq] at hk
      constructor
      · intro hsel
        rw [← hk]
        exact refreshAddr_address rt info.mongoPort m' p hsel
      · intro hsel b hb htb
        have hbound := boundMember_of_tag info hids htags k m' b h1 hb htb
        rw [plannedMember_of_bound rt info k b hbound] at hp
        simp only [Option.some.injEq] at hp
        rw [← hk, refreshAddr_of_not_needs rt info.mongoPort m' p (fun hn => hn.1 hsel), ← hp]
        exact (applyOp_tags _ b).2.2
  · rintro hnx r hr ⟨m, hm, b, hb, htb, hn⟩
    obtain ⟨c, hc⟩ := extraLoop_of_noVotingExtra info hnx
    obtain ⟨k, hk⟩ := List.mem_iff_getElem?.1 hm
    have hbound := boundMember_of_tag info hids htags k m b hk hb htb
    have hp := plannedMember_of_bound rt info k b hbound
    have hn' : needsRefresh rt info.mongoPort m (applyOp (opOf (votePlan rt info) k) b) := by
      unfold needsRefresh
      rw [(applyOp_tags _ b).2.2]
      exact hn
    have hch : specChanged rt info c := Or.inr (Or.inr (Or.inr ⟨k, m, _, hk, hp, hn'⟩))
    have hs : specMember rt info k =
        some (refreshAddr rt info.mongoPort m (applyOp (opOf (votePlan rt info) k) b)) := by
      unfold specMember
      rw [hk]
      simp only [hp, Option.map_some']
    obtain ⟨l, hl, _⟩ := returned_of_changed rt info c hc hch r hr k
      (List.getElem?_eq_some_iff.1 hk).1 _ hs
    exact ⟨l, hl⟩

theorem address_reconciled_witness :
    distinctIds infoStale.machines ∧ distinctTags infoStale.members ∧
      returned rtExample infoStale = some ⟨some planStale, none⟩ ∧
      ((mkMember 2 "2" (some 1) none "h2:37017").Address =
        composedAddr (rtExample.selectInternalAddress (mkMachine "2" true "h2").addresses)
          infoStale.mongoPort) ∧
      (∃ ms, (⟨some planStale, none⟩ : Ret) = ⟨some ms, none⟩) :=
  ⟨by decide, by decide, by decide,
    ((address_reconciled rtExample infoStale (by decide) (by decide)).1 planStale none
      (by decide) (mkMember 2 "2" (some 1) none "h2:37017") (by decide)
      (mkMachine "2" true "h2") (by decide) (by decide)).1 (by decide),
    (address_reconciled rtExample infoStale (by decide) (by decide)).2 (by decide)
      ⟨some planStale, none⟩ (by decide)
      ⟨mkMachine "2" true "h2", by decide, mkMember 2 "2" (some 1) none "old:37017", by decide,
        by decide, by decide⟩⟩

theorem steady_bound (rt : Runtime) (info : peerGroupInfo)
    (hids : distinctIds info.machines) (htags : distinctTags info.members)
    (hall : ∀ m ∈ info.machines, m.candidate = true ∧
      ∃ member ∈ info.members, machineTag member = some m.id ∧ votesPositive member = true) :
    votePlan rt info = [] ∧ ∀ k m, info.machines[k]? = some m →
      ∃ b, b ∈ info.members ∧ machineTag b = some m.id ∧ boundMember info k = some b ∧
        plannedMember rt info k = some b := by
  have hbound : ∀ k m, info.machines[k]? = some m →
      m.candidate = true ∧ ∃ member, member ∈ info.members ∧ machineTag member = some m.id ∧
        boundMember info k = some member ∧ votesPositive member = true := by
    intro k m hm
    obtain ⟨hc, member, h1, h2, h3⟩ := hall m (List.getElem?_mem hm)
    exact ⟨hc, member, h1, h2, boundMember_of_tag info hids htags k m member hm h1 h2, h3⟩
  have hvote : ∀ k m, info.machines[k]? = some m →
      isVotingAt info.members (membersMap info).1 k = true := by
    intro k m hm
    obtain ⟨_, member, _, _, h1, h2⟩ := hbound k m hm
    rw [isVotingAt_eq, h1]
    exact h2
  have hR : sortedRemove info = [] := by
    apply List.eq_nil_iff_forall_not_mem.2
    intro k hk
    obtain ⟨m, h1, h2, _⟩ := (mem_sortedRemove info k).1 hk
    rw [(hbound k m h1).1] at h2
    exact absurd h2 (by simp)
  have hA : sortedAdd rt info = [] := by
    apply List.eq_nil_iff_forall_not_mem.2
    intro k hk
    obtain ⟨m, h1, _, h3, _⟩ := (mem_sortedAdd rt info k).1 hk
    rw [hvote k m h1] at h3
    exact absurd h3 (by simp)
  have hplan := votePlan_nil_of rt info hR hA
  refine ⟨hplan, ?_⟩
  intro k m hm
  obtain ⟨_, member, h0, ht, h1, _⟩ := hbound k m hm
  refine ⟨member, h0, ht, h1, ?_⟩
  rw [plannedMember_of_bound rt info k member h1, hplan, opOf_nil]
  rfl

/-- C14: address refresh only. On a steady input (distinct machine ids and tags, no extra
member, every machine a candidate bound to a member with positive votes) in which exactly
one bound member has an address that differs from the address composed for its machine, the
reducer returns a membership that is the live members, as a collection, with the address of
that one member replaced by the composed address. -/
theorem address_refresh_only (rt : Runtime) (info : peerGroupInfo)
    (hids : distinctIds info.machines) (htags : distinctTags info.members)
    (hex : ∀ member ∈ info.members, ¬ isExtra info.machines member)
    (hall : ∀ m ∈ info.machines, m.candidate = true ∧
      ∃ member ∈ info.members, machineTag member = some m.id ∧ votesPositive member = true)
    (m0 : machine) (b0 : Member) (hm0 : m0 ∈ info.machines) (hb0 : b0 ∈ info.members)
    (ht0 : machineTag b0 = some m0.id) (hstale : needsRefresh rt info.mongoPort m0 b0)
    (hothers : ∀ m ∈ info.machines, ∀ b ∈ info.members, machineTag b = some m.id → m ≠ m0 →
      ¬ needsRefresh rt info.mongoPort m b) :
    ∃ ms, returned rt info = some ⟨some ms, none⟩ ∧
      ms.Perm (info.members.map (fun member =>
        if member = b0 then
          { member with
            Address := composedAddr (rt.selectInternalAddress m0.addresses) info.mongoPort }
        else member)) := by
  obtain ⟨_, hb⟩ := steady_bound rt info hids htags hall
  have hx := extraLoop_of_no_extra info hex
  have hnp : ¬ specPanics rt info := by
    rintro ⟨k, m, h1, _, h3⟩
    obtain ⟨b, _, _, _, h4⟩ := hb k m h1
    rw [h4] at h3
    exact absurd h3 (by simp)
  obtain ⟨r, st, hst, _⟩ := returned_of_not_panics rt info false hx hnp
  have hr := returned_of_run rt info r st hst
  obtain ⟨k0, hk0⟩ := List.mem_iff_getElem?.1 hm0
  have hspec : ∀ k m, info.machines[k]? = some m → ∃ b, boundMember info k = some b ∧
      specMember rt info k = some (if b = b0 then
        { b with Address := composedAddr (rt.selectInternalAddress m0.addresses) info.mongoPort }
        else b) := by
    intro k m hm
    obtain ⟨b, hbm, htb, hbound, hp⟩ := hb k m hm
    refine ⟨b, hbound, ?_⟩
    unfold specMember
    rw [hm]
    simp only [hp, Option.map_some', Option.some.injEq]
    by_cases hbb : b = b0
    · subst hbb
      have hid : m.id = m0.id := by
        rw [ht0] at htb
        simpa using htb.symm
      have hkk := nodup_map_index_inj (fun m : machine => m.id) info.machines hids k k0 m m0 hm hk0
        hid
      subst hkk
      rw [hm] at hk0
      simp only [Option.some.injEq] at hk0
      subst hk0
      rw [if_pos rfl, refreshAddr_of_needs rt info.mongoPort m b hstale]
    · have hne : m ≠ m0 := by
        intro e
        subst e
        exact hbb (distinctTags_eq info.members htags b b0 m.id hbm hb0 htb ht0)
      rw [if_neg hbb, refreshAddr_of_not_needs rt info.mongoPort m b
        (hothers m (List.getElem?_mem hm) b hbm htb hne)]
  obtain ⟨b, hb1, hs0⟩ := hspec k0 m0 hk0
  obtain ⟨b', hbm', htb', hbound', hp'⟩ := hb k0 m0 hk0
  have hbb0 : b' = b0 := distinctTags_eq info.members htags b' b0 m0.id hbm' hb0 htb' ht0
  subst hbb0
  have hch : specChanged rt info false := Or.inr (Or.inr (Or.inr ⟨k0, m0, b', hk0, hp', hstale⟩))
  obtain ⟨l, hl, hperm⟩ := returned_of_changed rt info false hx hch r hr k0
    (List.getElem?_eq_some_iff.1 hk0).1 _ hs0
  refine ⟨l, by rw [hr, hl], ?_⟩
  refine hperm.trans ?_
  have heq : (List.range info.machines.length).filterMap (specMember rt info) =
      ((List.range info.machines.length).filterMap (boundMember info)).map (fun member =>
        if member = b' then
          { member with
            Address := composedAddr (rt.selectInternalAddress m0.addresses) info.mongoPort }
        else member) := by
    rw [List.map_filterMap]
    apply List.filterMap_congr
    intro k hk
    have hlt : k < info.machines.length := List.mem_range.1 hk
    obtain ⟨m, hm⟩ : ∃ m, info.machines[k]? = some m :=
      ⟨info.machines[k], List.getElem?_eq_getElem hlt⟩
    obtain ⟨b, h1, h2⟩ := hspec k m hm
    rw [h2, h1]
    rfl
  rw [heq]
  exact ((members_perm_bound info htags hex).map _).symm

theorem address_refresh_only_witness :
    distinctIds infoStale.machines ∧ distinctTags infoStale.members ∧
      needsRefresh rtExample infoStale.mongoPort (mkMachine "2" true "h2")
        (mkMember 2 "2" (some 1) none "old:37017") ∧
      ∃ ms, returned rtExample infoStale = some ⟨some ms, none⟩ ∧
        ms.Perm (infoStale.members.map (fun member =>
          if member = mkMember 2 "2" (some 1) none "old:37017" then
            { member with
              Address := composedAddr
                (rtExample.selectInternalAddress (mkMachine "2" true "h2").addresses)
                infoStale.mongoPort }
          else member)) :=
  ⟨by decide, by decide, by decide,
    address_refresh_only rtExample infoStale (by decide) (by decide) (by decide) (by decide)
      (mkMachine "2" true "h2") (mkMember 2 "2" (some 1) none "old:37017") (by decide)
      (by decide) (by decide) (by decide) (by decide)⟩

/-- C11 at a failing input: the candidate "4" has no bound live member, no extra member
votes, and the call returns `(nil, nil)`, so no member tagged "4" is returned; on the same
input with machine "4" not a candidate the call returns a membership with a new member
tagged "4". -/
theorem new_candidate_not_adopted :
    noVotingExtra infoNewCandidate ∧
      mkMachine "4" true "" ∈ infoNewCandidate.machines ∧
      (∀ b ∈ infoNewCandidate.members, machineTag b ≠ some "4") ∧
      returned rtExample infoNewCandidate = some ⟨none, none⟩ ∧
      returned rtExample infoNewNonCandidate =
        some ⟨some (infoNewNonCandidate.members ++ [setMemberVoting (newMember "4") false]),
          none⟩ := by
  decide

/-- C15 at a failing input: no extra member votes, the candidate "2" has an internal address
and no bound member, and the call does not return: the address loop reads the address of a
nil member. -/
theorem unbound_candidate_fails :
    noVotingExtra infoUnboundCandidate ∧
      mkMachine "2" true "h2" ∈ infoUnboundCandidate.machines ∧
      rtExample.selectInternalAddress (mkMachine "2" true "h2").addresses = "h2" ∧
      boundMember infoUnboundCandidate 1 = none ∧
      returned rtExample infoUnboundCandidate = none := by
  decide

/-- C17 at a failing input: no extra member votes, the run revokes the vote of machine "3"
and grants a vote to machine "4", and the call does not return, because the candidate "5"
has an internal address and no bound member. -/
theorem swap_with_unbound_candidate_fails :
    noVotingExtra infoSwapUnbound ∧ revoked rtExample infoSwapUnbound = [2] ∧
      granted rtExample infoSwapUnbound = [3] ∧
      returned rtExample infoSwapUnbound = none := by
  decide

/-! ## Granted and revoked votes, read from the flags after the call -/

theorem voteGranted_iff (rt : Runtime) (info info' : peerGroupInfo) (hnx : noVotingExtra info)
    (h : inputAfter rt info = some info') (k : Nat) :
    voteGranted info info'.machines k = decide (k ∈ granted rt info) := by
  unfold voteGranted wasVoting
  rw [votingAt_after rt info info' hnx h k, ← (specVoting_cases rt info k).1]
  by_cases hk : k < info.machines.length
  · simp [hk, Bool.and_comm]
  · have hg : k ∉ granted rt info := fun hin => hk (granted_lt rt info k hin)
    rw [(specVoting_cases rt info k).1]
    simp [hk, hg]

theorem voteRevoked_iff (rt : Runtime) (info info' : peerGroupInfo) (hnx : noVotingExtra info)
    (h : inputAfter rt info = some info') (k : Nat) :
    voteRevoked info info'.machines k = decide (k ∈ revoked rt info) := by
  unfold voteRevoked wasVoting
  rw [votingAt_after rt info info' hnx h k, ← (specVoting_cases rt info k).2]
  by_cases hk : k < info.machines.length
  · simp [hk]
  · have hg : k ∉ revoked rt info := fun hin => hk (revoked_lt rt info k hin)
    have hv : isVotingAt info.members (membersMap info).1 k = false := by
      cases hv : isVotingAt info.members (membersMap info).1 k with
      | false => rfl
      | true =>
        have hne := isVotingAt_some _ _ k hv
        obtain ⟨p, hp⟩ := Option.ne_none_iff_exists'.1 hne
        exact absurd ((membersMap_wf info false).dom k p hp).1 hk
    simp [hv]

theorem mem_sortedAdd_iff (rt : Runtime) (info : peerGroupInfo) (k : Nat) :
    k ∈ sortedAdd rt info ↔ promotable rt info k = true := by
  unfold promotable
  rw [mem_sortedAdd, isVotingAt_eq]
  cases hm : info.machines[k]? with
  | none => simp [optTest]
  | some m =>
    cases hb : boundMember info k with
    | none =>
      have hr : readyAt (statusIndex rt info) k ≠ true := fun h =>
        boundMember_ne_none_of_ready rt info k h hb
      simp [optTest, hr]
    | some b => simp [optTest, and_assoc]

theorem mem_sortedRemove_iff (info : peerGroupInfo) (k : Nat) :
    k ∈ sortedRemove info ↔ demotable info k = true := by
  unfold demotable wasVoting
  rw [mem_sortedRemove]
  cases hm : info.machines[k]? with
  | none => simp [optTest]
  | some m => simp [optTest]

theorem sortById_pairwise (machines : List machine) (l : List Nat) :
    (sortById machines l).Pairwise (byIdOrder machines) :=
  List.sorted_insertionSort (byIdOrder machines) l

/-- In a slice sorted by id, a prefix holds every element with an id smaller than the id of
one of its elements. -/
theorem take_closed_of_sorted (machines : List machine) (l : List Nat)
    (hs : l.Pairwise (byIdOrder machines)) (g k k' : Nat) (hk : k ∈ l.take g) (hk' : k' ∈ l)
    (hlt : (idAt machines k').toList < (idAt machines k).toList) : k' ∈ l.take g := by
  rw [← List.take_append_drop g l] at hs hk'
  rcases List.mem_append.1 hk' with h | h
  · exact h
  · exact absurd hlt ((List.pairwise_append.1 hs).2.2 k hk k' h)

/-- In a slice sorted by id of which a prefix leaves out at most one element, an element
left out has the greatest id. -/
theorem dropped_greatest_of_sorted (machines : List machine) (l : List Nat)
    (hs : l.Pairwise (byIdOrder machines)) (g k k' : Nat) (hg : l.length ≤ g + 1)
    (hk : k ∈ l) (hnk : k ∉ l.take g) (hk' : k' ∈ l) :
    ¬ (idAt machines k).toList < (idAt machines k').toList := by
  have hd : k ∈ l.drop g := by
    rw [← List.take_append_drop g l] at hk
    rcases List.mem_append.1 hk with h | h
    · exact absurd h hnk
    · exact h
  have hlen : (l.drop g).length ≤ 1 := by
    rw [List.length_drop]
    omega
  have hone : ∀ x ∈ l.drop g, x = k := by
    intro x hx
    cases hdl : l.drop g with
    | nil => rw [hdl] at hx; simp at hx
    | cons a rest =>
      rw [hdl] at hx hd hlen
      cases rest with
      | nil =>
        simp only [List.mem_singleton] at hx hd
        rw [hx, hd]
      | cons b rest' => simp at hlen
  rw [← List.take_append_drop g l] at hs hk'
  rcases List.mem_append.1 hk' with h | h
  · exact (List.pairwise_append.1 hs).2.2 k' h k hd
  · rw [hone k' h]
    exact lt_irrefl _

theorem grantCount_ge (r a : Nat) : a ≤ grantCount r a + 1 := by
  rw [grantCount_formula]
  omega

theorem revokeCount_ge (r a : Nat) : r ≤ revokeCount r a + 1 := by
  rw [revokeCount_formula]
  omega

/-- C21: lowest ids first. After a call on an input without a voting extra member and with
distinct machine ids: when a machine is granted a vote, every machine eligible for promotion
with a smaller id is granted a vote; when a machine has its vote revoked, every
non-candidate voting machine with a smaller id has its vote revoked; and a machine that is
eligible and deferred has the greatest id among the eligible ones, in either list. -/
theorem lowest_ids_first (rt : Runtime) (info info' : peerGroupInfo) (hnx : noVotingExtra info)
    (hids : distinctIds info.machines) (h : inputAfter rt info = some info') (k k' : Nat) :
    (voteGranted info info'.machines k = true → promotable rt info k' = true →
      (idAt info.machines k').toList < (idAt info.machines k).toList →
      voteGranted info info'.machines k' = true) ∧
    (voteRevoked info info'.machines k = true → demotable info k' = true →
      (idAt info.machines k').toList < (idAt info.machines k).toList →
      voteRevoked info info'.machines k' = true) ∧
    (promotable rt info k = true → voteGranted info info'.machines k = false →
      promotable rt info k' = true →
      ¬ (idAt info.machines k).toList < (idAt info.machines k').toList) ∧
    (demotable info k = true → voteRevoked info info'.machines k = false →
      demotable info k' = true →
      ¬ (idAt info.machines k).toList < (idAt info.machines k').toList) := by
  have hsa : (sortedAdd rt info).Pairwise (byIdOrder info.machines) := by
    unfold sortedAdd
    exact sortById_pairwise _ _
  have hsr : (sortedRemove info).Pairwise (byIdOrder info.machines) := by
    unfold sortedRemove
    exact sortById_pairwise _ _
  have hdistinct := hids
  simp only [voteGranted_iff rt info info' hnx h, voteRevoked_iff rt info info' hnx h,
    decide_eq_true_eq, decide_eq_false_iff_not, ← mem_sortedAdd_iff, ← mem_sortedRemove_iff]
  refine ⟨?_, ?_, ?_, ?_⟩
  · intro hk hk' hlt
    unfold granted at hk ⊢
    exact take_closed_of_sorted info.machines _ hsa _ k k' hk hk' hlt
  · intro hk hk' hlt
    unfold revoked at hk ⊢
    exact take_closed_of_sorted info.machines _ hsr _ k k' hk hk' hlt
  · intro hk hnk hk'
    unfold granted at hnk
    exact dropped_greatest_of_sorted info.machines _ hsa _ k k' (grantCount_ge _ _) hk hnk hk'
  · intro hk hnk hk'
    unfold revoked at hnk
    exact dropped_greatest_of_sorted info.machines _ hsr _ k k' (revokeCount_ge _ _) hk hnk hk'

theorem lowest_ids_first_witness :
    noVotingExtra infoDefer ∧ distinctIds infoDefer.machines ∧
      voteGranted infoDefer machinesDefer 3 = true ∧
      voteGranted infoDefer machinesDefer 1 = true ∧
      voteGranted infoDefer machinesDefer 0 = false ∧
      ¬ (idAt infoDefer.machines 0).toList < (idAt infoDefer.machines 3).toList :=
  ⟨by decide, by decide, by decide,
    (lowest_ids_first rtExample infoDefer
      { infoDefer with machines := machinesDefer, members := membersDefer }
      (by decide) (by decide) (by decide) 3 1).1 (by decide) (by decide) (by decide),
    by decide,
    (lowest_ids_first rtExample infoDefer
      { infoDefer with machines := machinesDefer, members := membersDefer }
      (by decide) (by decide) (by decide) 0 3).2.2.1 (by decide) (by decide) (by decide)⟩

/-- C22: promotion only of ready candidates. After a call on an input without a voting extra
member, a machine that was not bound to a voting member and is flagged voting is a
candidate, is bound to a live member that did not vote, and some status with the id of that
member is ready. -/
theorem promotion_only_of_ready (rt : Runtime) (info info' : peerGroupInfo)
    (hnx : noVotingExtra info) (h : inputAfter rt info = some info') (k : Nat)
    (hg : voteGranted info info'.machines k = true) :
    ∃ m b s, info.machines[k]? = some m ∧ m.candidate = true ∧
      boundMember info k = some b ∧ b ∈ info.members ∧ votesPositive b = false ∧
      s ∈ info.statuses ∧ s.Id = b.Id ∧ isReady s = true := by
  rw [voteGranted_iff rt info info' hnx h, decide_eq_true_eq] at hg
  unfold granted at hg
  obtain ⟨m, hm, hc, hv, hr⟩ := (mem_sortedAdd rt info k).1 (List.mem_of_mem_take hg)
  unfold readyAt at hr
  cases hs : statusIndex rt info k with
  | none => simp [hs] at hr
  | some s =>
    simp only [hs] at hr
    obtain ⟨h1, _, b, h2, h3⟩ := statusesMap_some rt.pick info _ k s hs
    have hb : boundMember info k = some b := h2
    rw [isVotingAt_eq, hb] at hv
    exact ⟨m, b, s, hm, hc, hb, (boundMember_tag info k b hb).1, hv, h1, h3.symm, hr⟩

theorem promotion_only_of_ready_witness :
    noVotingExtra infoSwap ∧ voteGranted infoSwap machinesSwap 3 = true ∧
      ∃ m b s, infoSwap.machines[3]? = some m ∧ m.candidate = true ∧
        boundMember infoSwap 3 = some b ∧ b ∈ infoSwap.members ∧ votesPositive b = false ∧
        s ∈ infoSwap.statuses ∧ s.Id = b.Id ∧ isReady s = true :=
  ⟨by decide, by decide,
    promotion_only_of_ready rtExample infoSwap
      { infoSwap with machines := machinesSwap, members := planSwap }
      (by decide) (by decide) 3 (by decide)⟩

/-- C23: candidates keep their vote. After a call on an input without a voting extra member,
a machine that was bound to a voting member and is no longer flagged voting is not a
candidate; a candidate bound to a voting member is flagged voting and the votes and the
priority of its member are as in the input. -/
theorem candidates_keep_vote (rt : Runtime) (info info' : peerGroupInfo)
    (hnx : noVotingExtra info) (h : inputAfter rt info = some info') (k : Nat) :
    (voteRevoked info info'.machines k = true →
      ∃ m, info.machines[k]? = some m ∧ m.candidate = false) ∧
    (∀ m b, info.machines[k]? = some m → m.candidate = true → boundMember info k = some b →
      votesPositive b = true →
      votingAt info'.machines k = true ∧
        ∃ b', finalMember rt info k = some b' ∧ b'.Votes = b.Votes ∧
          b'.Priority = b.Priority) := by
  constructor
  · intro hr
    rw [voteRevoked_iff rt info info' hnx h, decide_eq_true_eq] at hr
    unfold revoked at hr
    obtain ⟨m, hm, hc, _⟩ := (mem_sortedRemove info k).1 (List.mem_of_mem_take hr)
    exact ⟨m, hm, hc⟩
  · intro m b hm hc hb hv
    have hvote : isVotingAt info.members (membersMap info).1 k = true := by
      rw [isVotingAt_eq, hb]
      exact hv
    have hng : k ∉ granted rt info := by
      intro hin
      unfold granted at hin
      obtain ⟨_, _, _, h3, _⟩ := (mem_sortedAdd rt info k).1 (List.mem_of_mem_take hin)
      rw [hvote] at h3
      exact absurd h3 (by simp)
    have hnr : k ∉ revoked rt info := by
      intro hin
      unfold revoked at hin
      obtain ⟨m', h1, h2, _⟩ := (mem_sortedRemove info k).1 (List.mem_of_mem_take hin)
      rw [hm] at h1
      simp only [Option.some.injEq] at h1
      rw [← h1, hc] at h2
      exact absurd h2 (by simp)
    have hop : opOf (votePlan rt info) k = none := by
      cases ho : opOf (votePlan rt info) k with
      | none => rfl
      | some v =>
        cases v with
        | true => exact absurd ((opOf_eq_some_true rt info k).1 ho) hng
        | false => exact absurd ((opOf_eq_some_false rt info k).1 ho) hnr
    have hlt : k < info.machines.length := (List.getElem?_eq_some_iff.1 hm).1
    constructor
    · rw [votingAt_after rt info info' hnx h k]
      unfold specVoting
      rw [hop]
      simp [hvote, hlt]
    · obtain ⟨r, hr⟩ := returned_of_inputAfter rt info info' h
      have he := err_none_of_noVotingExtra rt info hnx r hr
      rw [finalMember_eq_spec rt info r hr he k]
      unfold specMember
      rw [hm]
      simp only [plannedMember_of_bound rt info k b hb, hop, Option.map_some']
      refine ⟨_, rfl, ?_, ?_⟩
      · rw [(refreshAddr_fields rt info.mongoPort m _).2.2.1]
        rfl
      · rw [(refreshAddr_fields rt info.mongoPort m _).2.2.2]
        rfl

theorem candidates_keep_vote_witness :
    noVotingExtra infoSwap ∧ voteRevoked infoSwap machinesSwap 2 = true ∧
      (∃ m, infoSwap.machines[2]? = some m ∧ m.candidate = false) ∧
      votingAt machinesSwap 0 = true ∧
      ∃ b', finalMember rtExample infoSwap 0 = some b' ∧
        b'.Votes = (mkMember 1 "1" (some 1) none "").Votes ∧
        b'.Priority = (mkMember 1 "1" (some 1) none "").Priority :=
  ⟨by decide, by decide,
    (candidates_keep_vote rtExample infoSwap
      { infoSwap with machines := machinesSwap, members := planSwap }
      (by decide) (by decide) 2).1 (by decide),
    (candidates_keep_vote rtExample infoSwap
      { infoSwap with machines := machinesSwap, members := planSwap }
      (by decide) (by decide) 0).2 (mkMachine "1" true "") (mkMember 1 "1" (some 1) none "")
      (by decide) (by decide) (by decide) (by decide)⟩

/-! ## The member index and the status index, as partitions -/

theorem length_filter_split {α : Type} (p : α → Bool) (l : List α) :
    (l.filter p).length + (l.filter (fun x => !p x)).length = l.length := by
  induction l with
  | nil => rfl
  | cons a rest ih =>
    cases hp : p a
    · simp only [List.filter_cons, hp, Bool.not_false, if_true, List.length_cons,
        Bool.false_eq_true, if_false]
      omega
    · simp only [List.filter_cons, hp, Bool.not_true, if_true, List.length_cons,
        Bool.false_eq_true, if_false]
      omega

theorem length_filterMap_isSome {α β : Type} (f : α → Option β) (l : List α) :
    (l.filterMap f).length = (l.filter (fun x => (f x).isSome)).length := by
  induction l with
  | nil => rfl
  | cons a rest ih =>
    cases hf : f a with
    | none => simp [List.filterMap_cons, List.filter_cons, hf, ih]
    | some b => simp [List.filterMap_cons, List.filter_cons, hf, ih]

theorem membersMap_extra_eq (info : peerGroupInfo) :
    (membersMap info).2 = info.members.filter (fun x => (foundFor info.machines x).isNone) := by
  unfold membersMap
  rw [membersMapLoop_extra]
  rfl

/-- With distinct tags, the members that are not extra are the members bound to the
machines. -/
theorem found_perm_bound (info : peerGroupInfo) (htags : distinctTags info.members) :
    (info.members.filter (fun x => (foundFor info.machines x).isSome)).Perm
      ((List.range info.machines.length).filterMap (boundMember info)) := by
  have hsub : (info.members.filter (fun x => (foundFor info.machines x).isSome)).Sublist
      info.members := List.filter_sublist _
  have hnd0 : ((info.members.filter
      (fun x => (foundFor info.machines x).isSome)).filterMap machineTag).Nodup :=
    List.Nodup.sublist (hsub.filterMap machineTag) htags
  have htagged : ∀ x ∈ info.members.filter (fun x => (foundFor info.machines x).isSome),
      machineTag x ≠ none := by
    intro x hx hn
    have hf := (List.mem_filter.1 hx).2
    unfold foundFor at hf
    unfold machineTag at hn
    rw [hn] at hf
    simp at hf
  have hnd := nodup_of_nodup_filterMap machineTag _ hnd0 htagged
  have hnd2 : ((List.range info.machines.length).filterMap (boundMember info)).Nodup := by
    apply List.Nodup.filterMap _ (List.nodup_range _)
    intro k k' b hb hb'
    exact boundMember_inj info htags k k' b hb hb'
  rw [List.perm_ext_iff_of_nodup hnd hnd2]
  intro x
  constructor
  · intro hx
    obtain ⟨hx1, hx2⟩ := List.mem_filter.1 hx
    cases hf : foundFor info.machines x with
    | none => simp [hf] at hx2
    | some k =>
      have hb := boundMember_of_found info htags x k hx1 hf
      exact List.mem_filterMap.2 ⟨k, List.mem_range.2 (boundMember_lt info k x hb), hb⟩
  · intro hx
    obtain ⟨k, _, hb⟩ := List.mem_filterMap.1 hx
    obtain ⟨hmem, m, hm, ht⟩ := boundMember_tag info k x hb
    refine List.mem_filter.2 ⟨hmem, ?_⟩
    cases hf : foundFor info.machines x with
    | none =>
      have := (foundFor_eq_none_iff _ _).1 hf
      unfold isExtra at this
      rw [ht] at this
      exact absurd rfl (this m (List.getElem?_mem hm))
    | some k' => rfl

theorem mapKeys_length_bound (info : peerGroupInfo) :
    (mapKeys info.machines.length (membersMap info).1).length =
      ((List.range info.machines.length).filterMap (boundMember info)).length := by
  rw [length_filterMap_isSome]
  unfold mapKeys
  congr 1
  apply List.filter_congr
  intro k _
  have hn := memberAt_eq_none_iff _ _ (membersMap_wf info false) k
  simp only [] at hn
  unfold boundMember
  cases hb : memberAt info.members (membersMap info).1 k with
  | none =>
    rw [hn.1 hb]
    rfl
  | some b =>
    cases hk : (membersMap info).1 k with
    | none => rw [hn.2 hk] at hb; simp at hb
    | some p => rfl

theorem lastStatus_append (l : List Status) (a : Status) (id : Int) :
    lastStatus (l ++ [a]) id = if a.Id = id then some a else lastStatus l id := by
  unfold lastStatus
  rw [List.foldl_append]
  rfl

theorem lastStatus_eq_none_iff (l : List Status) (id : Int) :
    lastStatus l id = none ↔ ∀ t ∈ l, t.Id ≠ id := by
  induction l using List.reverseRecOn with
  | nil => simp [lastStatus]
  | append_singleton l a ih =>
    rw [lastStatus_append]
    by_cases h : a.Id = id
    · rw [if_pos h]
      constructor
      · intro h1
        simp at h1
      · intro h1
        exact absurd h (h1 a (by simp))
    · simp only [if_neg h, ih, List.mem_append, List.mem_singleton]
      constructor
      · rintro h1 t (ht | ht)
        · exact h1 t ht
        · rw [ht]; exact h
      · intro h1 t ht
        exact h1 t (Or.inl ht)

/-- The value of `lastStatus` is the last status of the list with the id. -/
theorem lastStatus_eq_some (l : List Status) (id : Int) (s : Status)
    (h : lastStatus l id = some s) :
    s.Id = id ∧ ∃ pre post, l = pre ++ s :: post ∧ ∀ t ∈ post, t.Id ≠ id := by
  induction l using List.reverseRecOn with
  | nil => simp [lastStatus] at h
  | append_singleton l a ih =>
    rw [lastStatus_append] at h
    by_cases ha : a.Id = id
    · rw [if_pos ha] at h
      simp only [Option.some.injEq] at h
      subst h
      exact ⟨ha, l, [], rfl, by simp⟩
    · rw [if_neg ha] at h
      obtain ⟨h1, pre, post, h2, h3⟩ := ih h
      refine ⟨h1, pre, post ++ [a], by rw [h2]; simp, ?_⟩
      intro t ht
      rcases List.mem_append.1 ht with ht | ht
      · exact h3 t ht
      · rw [List.mem_singleton.1 ht]; exact ha

/-- The entry of the status index for a machine, for any map whose members have distinct
ids. -/
theorem statusesMap_eq (pick : Nat → Nat) (info : peerGroupInfo) (members : MemberMap)
    (hkeys : ∀ k p, members k = some p → k < info.machines.length)
    (hdist : ∀ k k' b b', memberAt info.members members k = some b →
      memberAt info.members members k' = some b' → b.Id = b'.Id → k = k') (k : Nat) :
    statusesMap pick info members k =
      match memberAt info.members members k with
      | some b => lastStatus info.statuses b.Id
      | none => none := by
  have hu : ∀ status k k', k ∈ statusMatches info.machines.length info.members members status →
      k' ∈ statusMatches info.machines.length info.members members status → k = k' := by
    intro status k k' h h'
    rw [mem_statusMatches] at h h'
    obtain ⟨_, b, hb, hid⟩ := h
    obtain ⟨_, b', hb', hid'⟩ := h'
    exact hdist k k' b b' hb hb' (by rw [hid, hid'])
  unfold statusesMap
  rw [statusesMapLoop_fold _ _ _ _ hu]
  cases hb : memberAt info.members members k with
  | none =>
    simp only []
    have : ∀ s, k ∉ statusMatches info.machines.length info.members members s := by
      intro s hin
      rw [mem_statusMatches] at hin
      obtain ⟨_, b, h1, _⟩ := hin
      rw [hb] at h1
      exact absurd h1 (by simp)
    simp only [this, if_false]
    induction info.statuses with
    | nil => rfl
    | cons a rest ih => simp
  | some b =>
    simp only []
    have hlt : k < info.machines.length := by
      unfold memberAt at hb
      cases hk : members k with
      | none => simp [hk] at hb
      | some p => exact hkeys k p hk
    have : ∀ s, k ∈ statusMatches info.machines.length info.members members s ↔
        s.Id = b.Id := by
      intro s
      rw [mem_statusMatches]
      constructor
      · rintro ⟨_, b', h1, h2⟩
        rw [hb] at h1
        simp only [Option.some.injEq] at h1
        rw [h1, h2]
      · intro h
        exact ⟨hlt, b, hb, h.symm⟩
    simp only [this]
    rw [lastStatus_fold]
    cases lastStatus info.statuses b.Id <;> rfl

/-- C26: member index. With pairwise distinct machine ids and pairwise distinct tag values,
`membersMap` partitions the live members: a member is in the extra list exactly when it is a
live member without the `juju-machine-id` tag or with a tag that is the id of no machine;
every other live member is bound to the machine whose id is its tag; and the number of bound
members plus the number of extra members is the number of live members. -/
theorem membersMap_partition (info : peerGroupInfo) (hids : distinctIds info.machines)
    (htags : distinctTags info.members) :
    (∀ member, member ∈ (membersMap info).2 ↔
      member ∈ info.members ∧ isExtra info.machines member) ∧
    (∀ member ∈ info.members, ∀ (k : Nat) (m : machine), info.machines[k]? = some m →
      machineTag member = some m.id →
      memberAt info.members (membersMap info).1 k = some member) ∧
    (mapKeys info.machines.length (membersMap info).1).length + (membersMap info).2.length =
      info.members.length := by
  refine ⟨mem_membersMap_extra info, ?_, ?_⟩
  · intro member hmem k m hm ht
    exact boundMember_of_tag info hids htags k m member hm hmem ht
  · rw [mapKeys_length_bound, ← (found_perm_bound info htags).length_eq, membersMap_extra_eq,
      ← length_filter_split (fun x => (foundFor info.machines x).isSome) info.members]
    congr 2
    apply List.filter_congr
    intro x _
    cases foundFor info.machines x <;> rfl

theorem membersMap_partition_witness :
    distinctIds infoPartition.machines ∧ distinctTags infoPartition.members ∧
      (membersMap infoPartition).2 =
        [⟨2, "", [], some 0, some 0⟩, mkMember 3 "7" (some 0) (some 0) ""] ∧
      memberAt infoPartition.members (membersMap infoPartition).1 1 =
        some (mkMember 1 "2" (some 1) none "") ∧
      (mapKeys infoPartition.machines.length (membersMap infoPartition).1).length +
        (membersMap infoPartition).2.length = infoPartition.members.length :=
  ⟨by decide, by decide, by decide,
    (membersMap_partition infoPartition (by decide) (by decide)).2.1
      (mkMember 1 "2" (some 1) none "") (by decide) 1 (mkMachine "2" true "") (by decide)
      (by decide),
    (membersMap_partition infoPartition (by decide) (by decide)).2.2⟩

/-- C27: status index. For a machine-to-member map over the machines whose members have
pairwise distinct ids, `statusesMap` has an entry for a machine exactly when the machine has
a member in the map and some status has the id of that member; the status of the entry has
the id of the member and is the last status of the list with that id. -/
theorem statusesMap_entry (pick : Nat → Nat) (info : peerGroupInfo) (members : MemberMap)
    (hkeys : ∀ k p, members k = some p → k < info.machines.length)
    (hdist : ∀ k k' b b', memberAt info.members members k = some b →
      memberAt info.members members k' = some b' → b.Id = b'.Id → k = k') (k : Nat) :
    (statusesMap pick info members k ≠ none ↔
      ∃ b, memberAt info.members members k = some b ∧ ∃ s ∈ info.statuses, s.Id = b.Id) ∧
    (∀ s, statusesMap pick info members k = some s →
      ∃ b, memberAt info.members members k = some b ∧ s.Id = b.Id ∧
        ∃ pre post, info.statuses = pre ++ s :: post ∧ ∀ t ∈ post, t.Id ≠ b.Id) := by
  rw [statusesMap_eq pick info members hkeys hdist k]
  cases hb : memberAt info.members members k with
  | none => simp
  | some b =>
    simp only [Option.some.injEq, exists_eq_left']
    constructor
    · rw [Ne, lastStatus_eq_none_iff]
      constructor
      · intro h
        by_contra hne
        exact h (fun t ht hid => hne ⟨t, ht, hid⟩)
      · rintro ⟨s, hs, hid⟩ h
        exact h s hs hid
    · intro s hs
      obtain ⟨h1, h2⟩ := lastStatus_eq_some info.statuses b.Id s hs
      exact ⟨h1, h2⟩

theorem statusesMap_entry_witness :
    statusesMap rtExample.pick infoTwoStatuses oneBinding 0 = some ⟨1, true⟩ ∧
      ∃ b, memberAt infoTwoStatuses.members oneBinding 0 = some b ∧
        (⟨1, true⟩ : Status).Id = b.Id ∧
        ∃ pre post, infoTwoStatuses.statuses = pre ++ (⟨1, true⟩ : Status) :: post ∧
          ∀ t ∈ post, t.Id ≠ b.Id :=
  ⟨by decide,
    (statusesMap_entry rtExample.pick infoTwoStatuses oneBinding
      (fun k p hk => by
        by_cases h0 : k = 0
        · rw [h0]; decide
        · simp [oneBinding, h0] at hk)
      (fun k k' b b' hb hb' _ => by
        by_cases h0 : k = 0
        · by_cases h1 : k' = 0
          · rw [h0, h1]
          · simp [memberAt, oneBinding, h1] at hb'
        · simp [memberAt, oneBinding, h0] at hb)
      0).2 ⟨1, true⟩ (by decide)⟩

/-- C28: bound members are retained. With distinct machine ids and distinct tags, every live
member tagged with the id of a machine has, in a returned membership, a member with its id
and its tags. -/
theorem bound_members_retained (rt : Runtime) (info : peerGroupInfo) (ms : List Member)
    (e : Option String) (hids : distinctIds info.machines) (htags : distinctTags info.members)
    (h : returned rt info = some ⟨some ms, e⟩) (b : Member) (hb : b ∈ info.members)
    (m : machine) (hm : m ∈ info.machines) (ht : machineTag b = some m.id) :
    ∃ b' ∈ ms, b'.Id = b.Id ∧ b'.Tags = b.Tags := by
  obtain ⟨_, hperm⟩ := returned_members_perm rt info ms e h
  obtain ⟨k, hk⟩ := List.mem_iff_getElem?.1 hm
  have hbound := boundMember_of_tag info hids htags k m b hk hb ht
  have hs : specMember rt info k =
      some (refreshAddr rt info.mongoPort m (applyOp (opOf (votePlan rt info) k) b)) := by
    unfold specMember
    rw [hk]
    simp only [plannedMember_of_bound rt info k b hbound, Option.map_some']
  refine ⟨_, hperm.mem_iff.2 (List.mem_filterMap.2
    ⟨k, List.mem_range.2 (List.getElem?_eq_some_iff.1 hk).1, hs⟩), ?_, ?_⟩
  · rw [(refreshAddr_fields rt info.mongoPort m _).2.1, (applyOp_tags _ b).2.1]
  · rw [(refreshAddr_fields rt info.mongoPort m _).1, (applyOp_tags _ b).1]

theorem bound_members_retained_witness :
    distinctIds infoSwap.machines ∧ distinctTags infoSwap.members ∧
      returned rtExample infoSwap = some ⟨some planSwap, none⟩ ∧
      ∃ b' ∈ planSwap, b'.Id = (mkMember 3 "3" (some 1) none "").Id ∧
        b'.Tags = (mkMember 3 "3" (some 1) none "").Tags :=
  ⟨by decide, by decide, by decide,
    bound_members_retained rtExample infoSwap planSwap none (by decide) (by decide) (by decide)
      (mkMember 3 "3" (some 1) none "") (by decide) (mkMachine "3" false "") (by decide)
      (by decide)⟩

/-- C30: `setMemberVoting` is idempotent and writes only the votes and the priority: the id,
the address and the tags of the member are kept, and `setMemberVoting(true)` after
`setMemberVoting(false)` leaves the votes and the priority absent. -/
theorem setMemberVoting_idempotent (member : Member) (v : Bool) :
    setMemberVoting (setMemberVoting member v) v = setMemberVoting member v ∧
      (setMemberVoting member v).Id = member.Id ∧
      (setMemberVoting member v).Address = member.Address ∧
      (setMemberVoting member v).Tags = member.Tags ∧
      (setMemberVoting (setMemberVoting member false) true).Votes = none ∧
      (setMemberVoting (setMemberVoting member false) true).Priority = none := by
  cases v <;> simp [setMemberVoting]

/-- C24 at failing inputs: a live member is extra and no extra member votes. With a candidate
that is not yet in the replica set, and with no machine at all, the call returns
`(nil, nil)`; with a candidate that has an internal address and no member, the call does not
return. -/
theorem extras_without_membership :
    ((∃ member ∈ infoExtraOnly.members, isExtra infoExtraOnly.machines member) ∧
      noVotingExtra infoExtraOnly ∧ returned rtExample infoExtraOnly = some ⟨none, none⟩) ∧
    ((∃ member ∈ infoNoMachine.members, isExtra infoNoMachine.machines member) ∧
      noVotingExtra infoNoMachine ∧ returned rtExample infoNoMachine = some ⟨none, none⟩) ∧
    ((∃ member ∈ infoExtraUnbound.members, isExtra infoExtraUnbound.machines member) ∧
      noVotingExtra infoExtraUnbound ∧ returned rtExample infoExtraUnbound = none) := by
  decide

/-- C25 at a failing input: no extra member votes, the non-candidate machine "2" has no bound
member and is in the keep bucket, and the call does not return, because the candidate "3"
has an internal address and no bound member. -/
theorem keep_machine_run_fails :
    noVotingExtra infoKeepUnbound ∧ mkMachine "2" false "" ∈ infoKeepUnbound.machines ∧
      boundMember infoKeepUnbound 1 = none ∧ 1 ∈ keepList infoKeepUnbound ∧
      returned rtExample infoKeepUnbound = none := by
  decide

theorem applyOp_none (member : Member) : applyOp none member = member := rfl

/-- In a run that ends with `changed` false, the member of a machine is its bound member. -/
theorem specMember_of_unchanged (rt : Runtime) (info : peerGroupInfo) (c : Bool)
    (hn : ¬ specChanged rt info c) (k : Nat) (m : machine) (b : Member)
    (hm : info.machines[k]? = some m) (hb : boundMember info k = some b) :
    specMember rt info k = some b := by
  have hplan : votePlan rt info = [] := by
    by_contra hne
    exact hn (Or.inr (Or.inl hne))
  have hp : plannedMember rt info k = some b := by
    rw [plannedMember_of_bound rt info k b hb, hplan, opOf_nil, applyOp_none]
  have hnr : ¬ needsRefresh rt info.mongoPort m b := fun hr =>
    hn (Or.inr (Or.inr (Or.inr ⟨k, m, b, hm, hp, hr⟩)))
  unfold specMember
  rw [hm]
  simp only [hp, Option.map_some']
  rw [refreshAddr_of_not_needs rt info.mongoPort m b hnr]

/-- C29: when the reducer returns no change, `(nil, nil)`, every live member record is as it
was before the call, and so are the statuses, the port and the machines but for their voting
flags. -/
theorem no_change_leaves_members (rt : Runtime) (info : peerGroupInfo)
    (hr : returned rt info = some ⟨none, none⟩) :
    ∃ info', inputAfter rt info = some info' ∧ info'.members = info.members ∧
      info'.statuses = info.statuses ∧ info'.mongoPort = info.mongoPort ∧
      withoutFlags info'.machines = withoutFlags info.machines := by
  obtain ⟨st, hst⟩ := returned_some rt info _ hr
  obtain ⟨c, _, hp⟩ := run_of_no_error rt info _ st hst (by simp)
  obtain ⟨hwf, hview, hmach, hch, hres, hframe, hlen, hkeep, _⟩ :=
    (planVotes_spec rt info c).2 _ st hp
  have hwf0 := membersMap_wf info c
  refine ⟨infoAfter info st, by simp [inputAfter, hst], ?_, rfl, rfl, ?_⟩
  · unfold infoAfter
    simp only []
    apply List.ext_getElem?
    intro i
    by_cases hi : i < info.members.length
    · rw [List.getElem?_take_of_lt hi]
      by_cases hown : ∃ k, (membersMap info).1 k = some i
      · obtain ⟨k, hk⟩ := hown
        have hk' := hkeep k i hk
        have hcell : memberAt st.heap st.members k = st.heap[i]? := by
          unfold memberAt
          rw [hk']
        have hbound : boundMember info k = info.members[i]? := by
          unfold boundMember memberAt
          rw [hk]
        have hkN : k < info.machines.length := (hwf0.dom k i hk).1
        have hm : info.machines[k]? = some info.machines[k] := List.getElem?_eq_getElem hkN
        have hb : info.members[i]? = some info.members[i] := List.getElem?_eq_getElem hi
        rw [hb] at hbound
        rw [← hcell, hview k, hb]
        cases hc : st.changed with
        | false =>
          have hn : ¬ specChanged rt info c := fun hs => by
            rw [hch.2 hs] at hc
            exact absurd hc (by simp)
          exact specMember_of_unchanged rt info c hn k _ _ hm hbound
        | true =>
          rw [hc] at hres
          simp only [if_true, Ret.mk.injEq, and_true] at hres
          have hnil := (memberSet_eq_none rt.order st).1 hres.symm
          have hlt : i < st.heap.length := by omega
          have hin : st.heap[i] ∈ mapValues st := by
            rw [mem_mapValues]
            refine ⟨k, by rw [hwf.len]; exact hkN, ?_⟩
            rw [hcell]
            exact List.getElem?_eq_getElem hlt
          rw [hnil] at hin
          simp at hin
      · exact hframe i (fun k hk => hown ⟨k, hk⟩) hi
    · rw [List.getElem?_take_eq_none (by omega), List.getElem?_eq_none (by omega)]
  · unfold infoAfter withoutFlags
    simp only []
    apply List.ext_getElem?
    intro i
    rw [List.getElem?_map, List.getElem?_map, hmach i]
    cases info.machines[i]? <;> rfl

theorem no_change_leaves_members_witness :
    returned rtExample infoSteady = some ⟨none, none⟩ ∧
      ∃ info', inputAfter rtExample infoSteady = some info' ∧
        info'.members = infoSteady.members ∧ info'.statuses = infoSteady.statuses ∧
        info'.mongoPort = infoSteady.mongoPort ∧
        withoutFlags info'.machines = withoutFlags infoSteady.machines :=
  ⟨by decide, no_change_leaves_members rtExample infoSteady (by decide)⟩

end Peergrouper
